import Mathlib

/-!
Verification development for the ferricstore layered triple store.

Each section shallowly embeds one subsystem of the Rust sources and proves
the specification claims about it:

* cross-layer merge iterator (src/layer/internal/subject_iterator.rs,
  src/layer/internal/predicate_iterator.rs),
* rollup orchestration (src/storage/delta.rs),
* per-layer seekable subject iterator (src/layer/internal/subject_iterator.rs),
* front-coded dictionary blocks (src/structure/tfc.rs),
* numeric lexical encodings and the typed dictionary (src/structure/tfc/typed.rs),
* the in-memory label store and file writer (src/storage/memory.rs).

Machine integers are modelled as Nat (with explicit bounds where overflow
could matter), byte buffers as List Nat, and fallible parsing as Option.
-/

set_option linter.unusedSectionVars false

namespace FerricStore

/-- Triples of ids, ordered lexicographically by subject, then predicate,
then object, exactly as the IdTriple struct derives its ordering. -/
abbrev IdTriple := Lex (ℕ × Lex (ℕ × ℕ))

/-- Build a triple from subject, predicate and object ids
(IdTriple::new in the sources). -/
def IdTriple.new (s p o : ℕ) : IdTriple := toLex (s, toLex (p, o))

/-- Subject component of a triple. -/
def IdTriple.subj (t : IdTriple) : ℕ := (ofLex t).1

/-- Decidable strict ascension of a list, used to state the sortedness
invariants of per-layer iterator outputs. -/
def strictAsc [LT α] [DecidableRel (α := α) (· < ·)] : List α → Bool
  | [] => true
  | [_] => true
  | a :: b :: r => decide (a < b) && strictAsc (b :: r)

section MergeIterator

variable {α : Type} [LinearOrder α]

/-- A layer as the cross-layer merge iterator sees it: the layer's
remaining additions and removals, each a strictly ascending list.
A layer stack lists layers leaf first, base last, matching the
positives and negatives vectors of InternalTripleSubjectIterator. -/
abbrev LayerIters (α : Type) := List α × List α

/-- Total number of pending additions across the stack; the merge loop
consumes exactly one addition per iteration. -/
def sumPosLen (S : List (LayerIters α)) : ℕ := (S.map (fun l => l.1.length)).sum

/-- Find the lowest pending addition across all layers, returning the index
of the most recent (earliest) layer holding it together with the triple.
Mirrors the min_by_key scan in InternalTripleSubjectIterator::next, which
returns the first index attaining the minimum. -/
def bestHead : List (LayerIters α) → Option (ℕ × α)
  | [] => none
  | l :: r =>
    match l.1.head?, bestHead r with
    | none, none => none
    | some h, none => some (0, h)
    | none, some (i, m) => some (i + 1, m)
    | some h, some (i, m) => if h ≤ m then some (0, h) else some (i + 1, m)

/-- Consume the head of the additions list of layer i
(positives.lowest_index.next in the sources). -/
def popPos : List (LayerIters α) → ℕ → List (LayerIters α)
  | [], _ => []
  | l :: r, 0 => (l.1.tail, l.2) :: r
  | l :: r, i + 1 => l :: popPos r i

/-- Consume the head of the removals list of layer j
(the iter.next inside the negative scan). -/
def popNeg : List (LayerIters α) → ℕ → List (LayerIters α)
  | [], _ => []
  | l :: r, 0 => (l.1, l.2.tail) :: r
  | l :: r, j + 1 => l :: popNeg r j

/-- Scan the removal peeks of the layers strictly more recent than layer i
for the candidate triple, returning the first matching layer index.
Mirrors the loop over negatives.0..lowest_index. -/
def negHeadIdx : List (LayerIters α) → ℕ → α → Option ℕ
  | [], _, _ => none
  | _ :: _, 0, _ => none
  | l :: r, i + 1, t =>
    if l.2.head? = some t then some 0 else (negHeadIdx r i t).map (· + 1)

/-- One unfolding of InternalTripleSubjectIterator::next per fuel unit:
take the minimal pending addition from the most recent layer holding it;
if a strictly more recent layer has that triple as its removal peek,
consume the removal and restart, otherwise emit the candidate. -/
def mergeAux : ℕ → List (LayerIters α) → List α
  | 0, _ => []
  | n + 1, S =>
    match bestHead S with
    | none => []
    | some (i, t) =>
      match negHeadIdx S i t with
      | some j => mergeAux n (popNeg (popPos S i) j)
      | none => t :: mergeAux n (popPos S i)

/-- The full output of the cross-layer merge iterator over a layer stack.
Each loop iteration consumes one pending addition, so sumPosLen fuel
suffices. -/
def mergeTriples (S : List (LayerIters α)) : List α := mergeAux (sumPosLen S) S

/-- The effective-set semantics of a layer stack (leaf first): a triple is
present iff the most recent layer mentioning it mentions it as an
addition. This is the recursive reading of the spec's effective triple
set. -/
def effectiveB : List (LayerIters α) → α → Bool
  | [], _ => false
  | l :: S, t => if t ∈ l.1 then true else if t ∈ l.2 then false else effectiveB S t

/-- The mention profile of a triple down the stack, leaf first: true for a
layer adding it, false for a layer removing it. -/
def mentions : List (LayerIters α) → α → List Bool
  | [], _ => []
  | l :: S, t =>
    if t ∈ l.1 then true :: mentions S t
    else if t ∈ l.2 then false :: mentions S t
    else mentions S t

/-- A mention profile respects the child-layer invariants iff additions and
removals strictly alternate and the oldest mention is an addition (a
removal only removes something the older stack made effective, an
addition only adds something the older stack left absent). -/
def altOk : List Bool → Bool
  | [] => true
  | [b] => b
  | b :: b2 :: r => (b != b2) && altOk (b2 :: r)

/-- All triples mentioned anywhere in the stack. -/
def allEntries (S : List (LayerIters α)) : List α := (S.map (fun l => l.1 ++ l.2)).flatten

/-- Well-formedness of a single layer's iterator pair: both sequences
strictly ascending, additions and removals disjoint. -/
def layerOk (l : LayerIters α) : Bool :=
  strictAsc l.1 && strictAsc l.2 && l.1.all (fun t => decide (t ∉ l.2))

/-- Well-formedness of a layer stack: every layer well formed and every
mentioned triple's mention profile alternating per the child-layer
invariants. -/
def stackOk (S : List (LayerIters α)) : Bool :=
  S.all layerOk && (allEntries S).all (fun t => altOk (mentions S t))

end MergeIterator

section RollupDefs

variable {α : Type} [LinearOrder α]

/-- Modelled from the spec: the base-layer builder contract of section 4.5
and testable property 1 (the missing TripleFileBuilder): a base layer built
by feeding a sorted triple stream has exactly that stream as its addition
sequence and no removals. delta_rollup in src/storage/delta.rs merges the
dictionaries, then feeds layer.triples() — the cross-layer merge iterator
output, with ids unchanged — to a base TripleFileBuilder, so the produced
base layer is a one-layer stack whose additions are the merge output. -/
def delta_rollup (S : List (LayerIters α)) : List (LayerIters α) :=
  [(mergeTriples S, [])]

/-- The net change recorded for a triple by the change iterator over a
stack: mentions cancel in pairs from the leaf upward, so a triple with an
odd number of mentions keeps its most recent mention kind (true for
Addition, false for Removal) and an even number of mentions cancels out. -/
def changeOf (S : List (LayerIters α)) (t : α) : Option Bool :=
  if (mentions S t).length % 2 = 1 then (mentions S t).head? else none

/-- Triples whose net change over the stack is an Addition
(the additions filter on the change iterator). -/
def netAdds (S : List (LayerIters α)) : List α :=
  (allEntries S).dedup.filter (fun t => changeOf S t = some true)

/-- Triples whose net change over the stack is a Removal
(the removals filter on the change iterator). -/
def netRems (S : List (LayerIters α)) : List α :=
  (allEntries S).dedup.filter (fun t => changeOf S t = some false)

/-- Modelled from the spec: the child layer built from the two filtered
streams of the change iterator (InternalTripleStackIterator) over a stack
portion: its additions are the net additions, its removals the net
removals. -/
def stackChanges (S : List (LayerIters α)) : LayerIters α := (netAdds S, netRems S)

/-- Modelled from the spec: delta_rollup_upto compresses all changes
between the layer and the ancestor upto (disk changes between the safe
bound and upto merged with in-memory changes above the bound) into one
child layer placed on top of upto's stack. A is the compressed portion,
B the stack of upto. -/
def delta_rollup_upto (A B : List (LayerIters α)) : List (LayerIters α) :=
  stackChanges A :: B

/-- Modelled from the spec: imprecise_delta_rollup_upto compresses only the
in-memory layers above the bound computed by safe_upto_bound, leaving the
layers between the bound and upto in place. A is the in-memory portion
above the bound, B the stack of the bound. -/
def imprecise_delta_rollup_upto (A B : List (LayerIters α)) : List (LayerIters α) :=
  stackChanges A :: B

end RollupDefs

section SubjectIteratorDefs

/-- Generic prefix-length sum over a list of groups: the flat position of
the first element of group k. -/
def lenSum {β : Type} (g : List (List β)) (k : ℕ) : ℕ :=
  ((g.take k).map List.length).sum

/-- Modelled from the spec (section 4.3): an adjacency list is stored as a
bit vector with a 1 at the last entry of each left-group plus the packed
right-values. We represent it by its list of groups (one group per
left-key, a singleton 0 group standing for a left-key without entries) and
derive the rank/select operations from that representation. -/
def offset_for (g : List (List ℕ)) (k : ℕ) : ℕ := lenSum g (k - 1)

/-- Number of left keys of an adjacency list (left_count). -/
def left_count (g : List (List ℕ)) : ℕ := g.length

/-- Number of right values of an adjacency list (right_count). -/
def right_count (g : List (List ℕ)) : ℕ := g.flatten.length

/-- The right-value at a flat position (num_at_pos); 0 outside the array. -/
def num_at_pos (g : List (List ℕ)) (p : ℕ) : ℕ := g.flatten.getD p 0

/-- The group-terminator bits of an adjacency list: within each group,
false except at the last entry. -/
def groupBits (g : List (List ℕ)) : List Bool :=
  (g.map (fun grp => List.replicate (grp.length - 1) false ++ [true])).flatten

/-- The terminator bit at a flat position (bit_at_pos); false outside. -/
def bit_at_pos (g : List (List ℕ)) (p : ℕ) : Bool := (groupBits g).getD p false

/-- Modelled from the spec: nearest_index_of on a monotone log-array — the
index of the first element greater than or equal to the key (the array
length when every element is smaller). -/
def nearest_index_of (subjects : List ℕ) (s : ℕ) : ℕ :=
  subjects.countP (fun x => decide (x < s))

/-- The data InternalLayerTripleSubjectIterator reads: the optional sparse
subjects array and the two adjacency lists, each given by its groups. -/
structure TripleLayer where
  subjects : Option (List ℕ)
  s_p : List (List ℕ)
  sp_o : List (List ℕ)

/-- The cursor state of InternalLayerTripleSubjectIterator. -/
structure SubjectIterState where
  s_position : ℕ
  s_p_position : ℕ
  sp_o_position : ℕ
  peeked : Option IdTriple

/-- seek_subject_ref: clear the peeked triple; subject 0 resets to the
start; otherwise locate the subject index (nearest lookup through the
sparse array, or subject-1 when dense), clamp to the end when past the
last group, and set both downstream cursors via offset_for. -/
def seek_subject (L : TripleLayer) (subject : ℕ) : SubjectIterState :=
  if subject = 0 then ⟨0, 0, 0, none⟩
  else
    let s_position :=
      match L.subjects with
      | none => subject - 1
      | some subjects => nearest_index_of subjects subject
    if s_position ≥ left_count L.s_p then
      ⟨s_position, right_count L.s_p, right_count L.sp_o, none⟩
    else
      let s_p_position := offset_for L.s_p (s_position + 1)
      ⟨s_position, s_p_position, offset_for L.sp_o (s_p_position + 1), none⟩

/-- The predicate scan loop of seek_subject_predicate_ref: advance while
the current predicate is smaller than the target, stopping with a subject
bump when the group terminator of the entry just passed is set. Fuel
bounds the loop by the array length. -/
def spScan (L : TripleLayer) (predicate : ℕ) : ℕ → ℕ → ℕ × Bool
  | 0, pos => (pos, false)
  | fuel + 1, pos =>
    if num_at_pos L.s_p pos < predicate then
      if bit_at_pos L.s_p pos then (pos + 1, true)
      else spScan L predicate fuel (pos + 1)
    else (pos, false)

/-- seek_subject_predicate_ref: with predicate 0 it is exactly
seek_subject; otherwise it seeks the subject and then linearly scans the
subject's predicate group. -/
def seek_subject_predicate (L : TripleLayer) (subject predicate : ℕ) :
    SubjectIterState :=
  if predicate = 0 then seek_subject L subject
  else if subject = 0 then ⟨0, 0, 0, none⟩
  else
    let s_position :=
      match L.subjects with
      | none => subject - 1
      | some subjects => nearest_index_of subjects subject
    if s_position ≥ left_count L.s_p then
      ⟨s_position, right_count L.s_p, right_count L.sp_o, none⟩
    else
      let start := offset_for L.s_p (s_position + 1)
      let scan := spScan L predicate (right_count L.s_p + 1) start
      let s_p_position := scan.1
      ⟨if scan.2 then s_position + 1 else s_position, s_p_position,
        offset_for L.sp_o (s_p_position + 1), none⟩

/-- The loop body of Iterator::next for the per-layer subject iterator,
one loop iteration per fuel unit: stop at the end of sp_o; skip placeholder
zero predicates (advancing all three cursors); read the object, advance
cursors according to the terminator bits, skip placeholder zero objects,
and otherwise emit the triple. -/
def nextAux (L : TripleLayer) : ℕ → SubjectIterState →
    Option (IdTriple × SubjectIterState)
  | 0, _ => none
  | fuel + 1, st =>
    if st.sp_o_position ≥ right_count L.sp_o then none
    else
      let subject :=
        match L.subjects with
        | some subjects => subjects.getD st.s_position 0
        | none => st.s_position + 1
      let s_p_bit := bit_at_pos L.s_p st.s_p_position
      let predicate := num_at_pos L.s_p st.s_p_position
      if predicate = 0 then
        nextAux L fuel
          ⟨if s_p_bit then st.s_position + 1 else st.s_position,
            st.s_p_position + 1, st.sp_o_position + 1, none⟩
      else
        let sp_o_bit := bit_at_pos L.sp_o st.sp_o_position
        let object := num_at_pos L.sp_o st.sp_o_position
        let st2 : SubjectIterState :=
          ⟨if sp_o_bit && s_p_bit then st.s_position + 1 else st.s_position,
            if sp_o_bit then st.s_p_position + 1 else st.s_p_position,
            st.sp_o_position + 1, none⟩
        if object = 0 then nextAux L fuel st2
        else some (IdTriple.new subject predicate object, st2)

/-- Iterator::next: return a pending peeked triple if any, else run the
loop. Every loop iteration advances sp_o_position, so right_count + 1 fuel
always suffices. -/
def nextIter (L : TripleLayer) (st : SubjectIterState) :
    Option (IdTriple × SubjectIterState) :=
  match st.peeked with
  | some t => some (t, ⟨st.s_position, st.s_p_position, st.sp_o_position, none⟩)
  | none => nextAux L (right_count L.sp_o + 1) st

/-- Collect the remaining output of the iterator (the Vec the tests build
with collect); one fuel unit per emitted triple. -/
def runIter (L : TripleLayer) : ℕ → SubjectIterState → List IdTriple
  | 0, _ => []
  | fuel + 1, st =>
    match nextIter L st with
    | none => []
    | some (t, st2) => t :: runIter L fuel st2

/-- All triples the iterator can still yield: right_count + 1 fuel bounds
the number of emissions. -/
def toTripleList (L : TripleLayer) (st : SubjectIterState) : List IdTriple :=
  runIter L (right_count L.sp_o + 1) st

/-- A logical layer description: one row per left-key of the s_p adjacency
list, giving the subject id and its predicate groups with their object
lists. A row with no predicates is a placeholder for a subject without
triples (a dense layer stores a zero entry for it). -/
abbrev LayerDesc := List (ℕ × List (ℕ × List ℕ))

/-- The s_p adjacency list encoding of a description: each row contributes
its predicates as one group, or the placeholder zero group. -/
def s_p_of (D : LayerDesc) : List (List ℕ) :=
  D.map (fun r => if r.2.isEmpty then [0] else r.2.map Prod.fst)

/-- The object groups contributed by one row: one sp_o group per s_p
entry of the row (the placeholder entry gets a placeholder zero group). -/
def rowObjGroups (r : ℕ × List (ℕ × List ℕ)) : List (List ℕ) :=
  if r.2.isEmpty then [[0]] else r.2.map Prod.snd

/-- The sp_o adjacency list encoding of a description: left-keys of sp_o
are the flat positions of s_p, in order. -/
def sp_o_of (D : LayerDesc) : List (List ℕ) := (D.map rowObjGroups).flatten

/-- The layer files built from a description, with or without the sparse
subjects array. -/
def layerOf (sparse : Bool) (D : LayerDesc) : TripleLayer :=
  ⟨if sparse then some (D.map Prod.fst) else none, s_p_of D, sp_o_of D⟩

/-- The triples a description holds, in layer order. -/
def triplesOf (D : LayerDesc) : List IdTriple :=
  D.flatMap (fun r => r.2.flatMap (fun po => po.2.map (fun o => IdTriple.new r.1 po.1 o)))

/-- Well-formedness of the rows: predicates positive and strictly
ascending within a row, object lists nonempty with positive, strictly
ascending objects. -/
def rowsWf (D : LayerDesc) : Bool :=
  D.all (fun r =>
    strictAsc (r.2.map Prod.fst) &&
      r.2.all (fun po =>
        decide (0 < po.1) && decide (po.2 ≠ []) && strictAsc po.2 &&
          po.2.all (fun o => decide (0 < o))))

/-- Dense subject indexing: row k stands for subject k + 1. -/
def denseWf (D : LayerDesc) : Bool :=
  decide (D.map Prod.fst = List.range' 1 D.length)

/-- Sparse subject indexing: subjects positive and strictly ascending, and
no placeholder rows (the sparse array only lists present subjects). -/
def sparseWf (D : LayerDesc) : Bool :=
  strictAsc (D.map Prod.fst) && D.all (fun r => decide (0 < r.1)) &&
    D.all (fun r => decide (¬ r.2.isEmpty))

/-- The aligned iterator state at the boundary of row k. -/
def stateAt (D : LayerDesc) (k : ℕ) : SubjectIterState :=
  ⟨k, lenSum (s_p_of D) k, lenSum (sp_o_of D) (lenSum (s_p_of D) k), none⟩

/-- The iterator state inside row k, at predicate index j and object
index m of that predicate's group. -/
def midState (D : LayerDesc) (k j m : ℕ) : SubjectIterState :=
  ⟨k, lenSum (s_p_of D) k + j,
    lenSum (sp_o_of D) (lenSum (s_p_of D) k + j) + m, none⟩

/-- The triples of one row, in order. -/
def rowTriples (r : ℕ × List (ℕ × List ℕ)) : List IdTriple :=
  r.2.flatMap (fun po => po.2.map (fun o => IdTriple.new r.1 po.1 o))

/-- Valid cursor positions: either a row boundary (possibly one past the
last row), or a genuine in-row position at an existing object. -/
def validPos (D : LayerDesc) (k j m : ℕ) : Prop :=
  (j = 0 ∧ m = 0 ∧ k ≤ D.length) ∨
    (k < D.length ∧ j < (D.getD k (0, [])).2.length ∧
      m < ((D.getD k (0, [])).2.getD j (0, [])).2.length)

/-- The triples still ahead of the state midState D k j m. -/
def midTriples (D : LayerDesc) (k j m : ℕ) : List IdTriple :=
  ((((D.getD k (0, [])).2.getD j (0, [])).2.drop m).map
      (fun o => IdTriple.new (D.getD k (0, [])).1 ((D.getD k (0, [])).2.getD j (0, [])).1 o)) ++
    (((D.getD k (0, [])).2.drop (j + 1)).flatMap
      (fun po => po.2.map (fun o => IdTriple.new (D.getD k (0, [])).1 po.1 o))) ++
    triplesOf (D.drop (k + 1))

end SubjectIteratorDefs

section TfcDefs

/-- Modelled from the spec: the variable-byte integer coding used by the
dictionary block header (7-bit groups, little-endian, high bit set on every
byte except the last). -/
def vbyteEncAux : ℕ → ℕ → List ℕ
  | 0, n => [n % 128]
  | f + 1, n => if n < 128 then [n] else (n % 128 + 128) :: vbyteEncAux f (n / 128)

/-- vbyte::encode_array, as the list of produced bytes. -/
def vbyteEnc (n : ℕ) : List ℕ := vbyteEncAux n n

/-- vbyte::decode_buf: the decoded value and the remaining bytes. -/
def vbyteDec : List ℕ → Option (ℕ × List ℕ)
  | [] => none
  | b :: rest =>
    if b < 128 then some (b, rest)
    else
      match vbyteDec rest with
      | none => none
      | some (v, rest2) => some (v * 128 + (b - 128), rest2)

/-- find_common_prefix of util.rs: count the initial positions at which the
two byte strings agree. -/
def commonPrefixLen : List ℕ → List ℕ → ℕ
  | [], _ => 0
  | _ :: _, [] => 0
  | a :: as2, b :: bs => if a = b then commonPrefixLen as2 bs + 1 else 0

/-- The header pairs written by build_block_unchecked for every entry after
the first: vbyte(common_prefix) then vbyte(suffix length). -/
def buildPairs : List ℕ → List (List ℕ) → List ℕ
  | _, [] => []
  | last, cur :: more =>
    vbyteEnc (commonPrefixLen last cur) ++
      vbyteEnc (cur.length - commonPrefixLen last cur) ++ buildPairs cur more

/-- The suffixes pushed by build_block_unchecked for every entry after the
first. -/
def buildSuffixes : List ℕ → List (List ℕ) → List (List ℕ)
  | _, [] => []
  | last, cur :: more =>
    cur.drop (commonPrefixLen last cur) :: buildSuffixes cur more

/-- build_block_unchecked: entry count byte, vbyte first length, the
shared/suffix pairs, then the concatenated payload (first entry in full,
then each suffix). -/
def build_block_unchecked (slices : List (List ℕ)) : List ℕ :=
  match slices with
  | [] => []
  | first :: rest =>
    slices.length :: vbyteEnc first.length ++ buildPairs first rest ++
      (first :: buildSuffixes first rest).flatten

/-- The loop of TfcBlockHeader::parse: read count pairs of vbyte values,
returning the shareds, the sizes after the first, and the remaining bytes. -/
def parseHeaderLoop : ℕ → List ℕ → Option (List ℕ × List ℕ × List ℕ)
  | 0, buf => some ([], [], buf)
  | c + 1, buf =>
    match vbyteDec buf with
    | none => none
    | some (shared, buf2) =>
      match vbyteDec buf2 with
      | none => none
      | some (size, buf3) =>
        match parseHeaderLoop c buf3 with
        | none => none
        | some (shareds, sizes, rest) => some (shared :: shareds, size :: sizes, rest)

/-- TfcBlockHeader: the sizes array has BLOCK_SIZE = 8 slots and the
shareds array 7, both zero-padded past the actual entries. -/
structure TfcBlockHeader where
  num_entries : ℕ
  buffer_length : ℕ
  sizes : List ℕ
  shareds : List ℕ

/-- TfcBlockHeader::parse: entry count byte, vbyte first size, then
num_entries - 1 shared/size pairs; buffer_length is the sum of the sizes
array (zeros past the count included). -/
def TfcBlockHeader.parse : List ℕ → Option (TfcBlockHeader × List ℕ)
  | [] => none
  | n :: buf1 =>
    match vbyteDec buf1 with
    | none => none
    | some (first_size, buf2) =>
      match parseHeaderLoop (n - 1) buf2 with
      | none => none
      | some (shareds, sizesTail, rest) =>
        let sizes := (first_size :: sizesTail) ++ List.replicate (8 - n) 0
        let shareds2 := shareds ++ List.replicate (7 - (n - 1)) 0
        some (⟨n, sizes.sum, sizes, shareds2⟩, rest)

/-- A parsed block: its header and the payload bytes. -/
structure TfcBlock where
  header : TfcBlockHeader
  data : List ℕ

/-- TfcBlock::parse: parse the header, fail when fewer than buffer_length
bytes remain, and keep exactly buffer_length payload bytes. -/
def TfcBlock.parse (bytes : List ℕ) : Option TfcBlock :=
  match TfcBlockHeader.parse bytes with
  | none => none
  | some (header, rest) =>
    if rest.length < header.buffer_length then none
    else some ⟨header, rest.take header.buffer_length⟩

/-- The backward scan of TfcBlock::entry collecting the effective shared
prefix lengths: walk shareds from index i-1 downward, stop at a zero,
pushing the running minimum. -/
def entryChainAux (shareds : List ℕ) : ℕ → ℕ → List ℕ
  | 0, _ => []
  | i + 1, last =>
    if shareds.getD i 0 = 0 then []
    else if shareds.getD i 0 < last then
      shareds.getD i 0 :: entryChainAux shareds i (shareds.getD i 0)
    else last :: entryChainAux shareds i last

/-- The slice-collection loop of TfcBlock::entry: walk the reversed chain,
taking the incremental prefix bytes from each entry region, and return the
collected slices together with the final offset. -/
def entrySlices (data : List ℕ) (sizes : List ℕ) :
    List ℕ → ℕ → ℕ → ℕ → List (List ℕ) × ℕ
  | [], _, offset, _ => ([], offset)
  | shared :: more, pos, offset, taken =>
    let have_to_take := shared - taken
    let cur_offset := offset
    let offset2 := offset + sizes.getD pos 0
    if have_to_take = 0 then entrySlices data sizes more (pos + 1) offset2 taken
    else
      let rest := entrySlices data sizes more (pos + 1) offset2 (taken + have_to_take)
      (((data.drop cur_offset).take have_to_take) :: rest.1, rest.2)

/-- TfcBlock::entry: entry 0 is the first sizes[0] payload bytes; a later
entry is reassembled from the incremental shared-prefix slices of earlier
entries followed by its own suffix, and the resulting parts concatenated
(new_optimized changes the segmentation, not the bytes). -/
def TfcBlock.entry (b : TfcBlock) (index : ℕ) : List ℕ :=
  if index = 0 then b.data.take (b.header.sizes.getD 0 0)
  else
    let last0 := b.header.shareds.getD (index - 1) 0
    let v := if last0 = 0 then []
      else last0 :: entryChainAux b.header.shareds (index - 1) last0
    let start := index - v.length
    let offset0 := (b.header.sizes.take start).sum
    let scan := entrySlices b.data b.header.sizes v.reverse start offset0 0
    let suffix := (b.data.drop scan.2).take (b.header.sizes.getD index 0)
    (scan.1 ++ [suffix]).flatten

/-- The shared prefix lengths of consecutive inputs. -/
def sharedsOf (xs : List (List ℕ)) : List ℕ :=
  List.zipWith commonPrefixLen xs xs.tail

/-- The payload regions: the first input in full, then each successor
minus its shared prefix. -/
def regionsOf (xs : List (List ℕ)) : List (List ℕ) :=
  match xs with
  | [] => []
  | x0 :: _ =>
    x0 :: List.zipWith (fun a b => b.drop (commonPrefixLen a b)) xs xs.tail

/-- The zero-padded sizes array the parsed header holds. -/
def sizesOfPadded (xs : List (List ℕ)) : List ℕ :=
  (regionsOf xs).map List.length ++ List.replicate (8 - xs.length) 0

/-- The zero-padded shareds array the parsed header holds. -/
def sharedsPadded (xs : List (List ℕ)) : List ℕ :=
  sharedsOf xs ++ List.replicate (7 - (xs.length - 1)) 0

/-- The header the block built from xs parses back to. -/
def headerOf (xs : List (List ℕ)) : TfcBlockHeader :=
  ⟨xs.length, (sizesOfPadded xs).sum, sizesOfPadded xs, sharedsPadded xs⟩

/-- The shared-prefix value relevant at position k of the chain walk: zero
for the first entry, shareds[k-1] otherwise. -/
def sPad (sh : List ℕ) (k : ℕ) : ℕ := if k = 0 then 0 else sh.getD (k - 1) 0

/-- The invariant of the reversed chain consumed by the slice loop: each
element c at position k+1 is bounded by its shared value, and the running
taken count equals min(shared at k, c). -/
def chainRel (sh : List ℕ) : ℕ → ℕ → List ℕ → Prop
  | _, _, [] => True
  | k, taken, c :: more =>
    taken = min (sPad sh k) c ∧ c ≤ sPad sh (k + 1) ∧ chainRel sh (k + 1) c more

end TfcDefs

section NumericDefs

/-- Big-endian byte encoding of an unsigned value on w bytes, as
byteorder::BigEndian write_u32/write_u64 produce. -/
def toBytesBE : ℕ → ℕ → List ℕ
  | 0, _ => []
  | w + 1, n => toBytesBE w (n / 256) ++ [n % 256]

/-- Big-endian byte decoding, as read_u32/read_u64 perform. -/
def fromBytesBE (l : List ℕ) : ℕ := l.foldl (fun acc b => acc * 256 + b) 0

/-- XOR with the sign mask 1 <<< (w - 1) of a w-bit value, written
arithmetically on the top bit. -/
def flipSign (w : ℕ) (i : ℕ) : ℕ :=
  if i / 2 ^ (w - 1) % 2 = 1 then i - 2 ^ (w - 1) else i + 2 ^ (w - 1)

/-- XOR with the all-ones mask of a w-bit value (bitwise complement). -/
def complementBits (w : ℕ) (i : ℕ) : ℕ := 2 ^ w - 1 - i

/-- ToLexical for u32: the big-endian bytes. -/
def u32_to_lexical (n : ℕ) : List ℕ := toBytesBE 4 n

/-- from_lexical for u32. -/
def u32_from_lexical (l : List ℕ) : ℕ := fromBytesBE l

/-- ToLexical for u64. -/
def u64_to_lexical (n : ℕ) : List ℕ := toBytesBE 8 n

/-- from_lexical for u64. -/
def u64_from_lexical (l : List ℕ) : ℕ := fromBytesBE l

/-- ToLexical for i32: XOR of the two's-complement representation with
I32_BYTE_MASK (the sign bit), then big-endian bytes. -/
def i32_to_lexical (v : ℤ) : List ℕ :=
  toBytesBE 4 (flipSign 32 (v % 2 ^ 32).toNat)

/-- from_lexical for i32: XOR with I32_BYTE_MASK, then reinterpret the
32-bit value in two's complement. -/
def i32_from_lexical (l : List ℕ) : ℤ :=
  let i := flipSign 32 (fromBytesBE l)
  if i < 2 ^ 31 then (i : ℤ) else (i : ℤ) - 2 ^ 32

/-- ToLexical for i64. -/
def i64_to_lexical (v : ℤ) : List ℕ :=
  toBytesBE 8 (flipSign 64 (v % 2 ^ 64).toNat)

/-- from_lexical for i64. -/
def i64_from_lexical (l : List ℕ) : ℤ :=
  let i := flipSign 64 (fromBytesBE l)
  if i < 2 ^ 63 then (i : ℤ) else (i : ℤ) - 2 ^ 64

/-- An f32 bit pattern is a NaN when the exponent field is all ones and
the mantissa is nonzero. -/
def isNan32 (bits : ℕ) : Bool :=
  decide (bits / 2 ^ 23 % 2 ^ 8 = 255) && decide (bits % 2 ^ 23 ≠ 0)

/-- f32::signum() == -1.0 holds exactly for sign-bit-set non-NaN values
(signum of a NaN is NaN). -/
def f32_signum_neg (bits : ℕ) : Bool :=
  decide (bits / 2 ^ 31 % 2 = 1) && ! isNan32 bits

/-- ToLexical for f32: complement the bits when signum is -1.0, otherwise
flip the sign bit; then big-endian bytes. -/
def f32_to_lexical (bits : ℕ) : List ℕ :=
  if f32_signum_neg bits then toBytesBE 4 (complementBits 32 bits)
  else toBytesBE 4 (flipSign 32 bits)

/-- from_lexical for f32: if the stored sign bit is set, XOR with the sign
mask, else XOR with the complement mask; the result is the f32 bit
pattern handed to from_bits. -/
def f32_from_lexical (l : List ℕ) : ℕ :=
  let i := fromBytesBE l
  if i / 2 ^ 31 % 2 = 1 then flipSign 32 i else complementBits 32 i

/-- An f64 bit pattern is a NaN when the exponent field is all ones and
the mantissa is nonzero. -/
def isNan64 (bits : ℕ) : Bool :=
  decide (bits / 2 ^ 52 % 2 ^ 11 = 2047) && decide (bits % 2 ^ 52 ≠ 0)

/-- f64::signum() == -1.0, as for f32. -/
def f64_signum_neg (bits : ℕ) : Bool :=
  decide (bits / 2 ^ 63 % 2 = 1) && ! isNan64 bits

/-- ToLexical for f64. -/
def f64_to_lexical (bits : ℕ) : List ℕ :=
  if f64_signum_neg bits then toBytesBE 8 (complementBits 64 bits)
  else toBytesBE 8 (flipSign 64 bits)

/-- from_lexical for f64. -/
def f64_from_lexical (l : List ℕ) : ℕ :=
  let i := fromBytesBE l
  if i / 2 ^ 63 % 2 = 1 then flipSign 64 i else complementBits 64 i

end NumericDefs

section TypedDictDefs

/-- The Datatype enum, constructors in the order of the source, which
fixes the discriminants used by types_present. -/
inductive Datatype where
  | String
  | UInt32
  | Int32
  | Float32
  | UInt64
  | Int64
  | Float64
  | Decimal
  | BigInt
deriving DecidableEq

/-- The enum discriminant (dt as u64). -/
def Datatype.code : Datatype → ℕ
  | .String => 0
  | .UInt32 => 1
  | .Int32 => 2
  | .Float32 => 3
  | .UInt64 => 4
  | .Int64 => 5
  | .Float64 => 6
  | .Decimal => 7
  | .BigInt => 8

/-- The position of each tag in the order the spec lists: string, u32,
i32, u64, i64, f32, f64, decimal, big-int. -/
def specTagOrder : Datatype → ℕ
  | .String => 0
  | .UInt32 => 1
  | .Int32 => 2
  | .UInt64 => 3
  | .Int64 => 4
  | .Float32 => 5
  | .Float64 => 6
  | .Decimal => 7
  | .BigInt => 8

/-- A typed dictionary, modelled by its per-datatype segments in storage
order: each segment holds its datatype and its entries in id order. -/
abbrev TypedDictModel := List (Datatype × List (List ℕ))

/-- The per-segment entry counts. -/
def dictSizes (S : TypedDictModel) : List ℕ := S.map (fun seg => seg.2.length)

/-- num_entries: the total entry count. -/
def num_entries (S : TypedDictModel) : ℕ := (dictSizes S).sum

/-- type_id_offsets as computed by TypedDict::from_parts: for each segment
after the first, the number of entries in all earlier segments. -/
def typeIdOffsets : List ℕ → List ℕ
  | [] => []
  | [_] => []
  | l0 :: l1 :: rest => l0 :: (typeIdOffsets (l1 :: rest)).map (fun x => l0 + x)

/-- TypedDict::type_index_for_id: scan type_id_offsets for the first
offset exceeding id - 1; if none, the last segment index. -/
def type_index_for_id : List ℕ → ℕ → ℕ
  | [], _ => 0
  | off :: rest, id => if off > id - 1 then 0 else type_index_for_id rest id + 1

/-- TypedDict::entry: out-of-range ids give None; otherwise locate the
segment via type_index_for_id, take its id offset (0 for the first
segment, type_id_offsets[i-1] otherwise), and look the local id up in
that segment, tagged with the segment's datatype. -/
def dictEntry (S : TypedDictModel) (id : ℕ) : Option (Datatype × List ℕ) :=
  if id > num_entries S then none
  else
    match S.get? (type_index_for_id (typeIdOffsets (dictSizes S)) id) with
    | none => none
    | some seg =>
      (seg.2.get? (id -
        (if type_index_for_id (typeIdOffsets (dictSizes S)) id = 0 then 0
          else (typeIdOffsets (dictSizes S)).getD
            (type_index_for_id (typeIdOffsets (dictSizes S)) id - 1) 0) - 1)).map
        (fun e => (seg.1, e))

/-- All entries of the dictionary in global id order (ids are 1-based and
increase across segment boundaries). -/
def flatEntries (S : TypedDictModel) : List (Datatype × List ℕ) :=
  S.flatMap (fun seg => seg.2.map (fun e => (seg.1, e)))

/-- The segment order the storage enforces: types_present is monotone in
the enum discriminant. -/
def dictOrderedByCode (S : TypedDictModel) : Bool :=
  strictAsc (S.map (fun seg => seg.1.code))

/-- The segment order the spec describes: ascending in the spec's tag
list. -/
def dictOrderedBySpec (S : TypedDictModel) : Bool :=
  strictAsc (S.map (fun seg => specTagOrder seg.1))

end TypedDictDefs

section LabelStoreDefs

/-- Modelled from the spec: the label record, a named mutable pointer
carrying a version counter and an optional layer name (the Label struct
itself is defined outside this crate).  Names and layer names are
abstracted to naturals. -/
structure Label where
  name : ℕ
  layer : Option ℕ
  version : ℕ
  deriving DecidableEq, Repr

/-- Modelled from the spec: a freshly created label has version 0 and no
layer pointer. -/
def Label.new_empty (name : ℕ) : Label :=
  { name := name, layer := none, version := 0 }

/-- Modelled from the spec: updating the layer pointer bumps the version
by one and keeps the name. -/
def Label.with_updated_layer (l : Label) (layer : Option ℕ) : Label :=
  { name := l.name, layer := layer, version := l.version + 1 }

/-- The in-memory label registry of MemoryLabelStore, modelled as an
association list keyed by the label name (HashMap get). -/
def storeGet (labels : List Label) (name : ℕ) : Option Label :=
  labels.find? (fun l => l.name == name)

/-- HashMap insert: replace the entry with the same name, or append. -/
def storeInsert (labels : List Label) (lab : Label) : List Label :=
  match labels with
  | [] => [lab]
  | x :: r => if x.name == lab.name then lab :: r else x :: storeInsert r lab

/-- MemoryLabelStore::create_label: fails (io error, modelled as none) if
the name is taken, otherwise registers a fresh version-0 label. -/
def create_label (labels : List Label) (name : ℕ) : Option (Label × List Label) :=
  let label := Label.new_empty name
  match storeGet labels label.name with
  | some _ => none
  | none => some (label, storeInsert labels label)

/-- MemoryLabelStore::set_label_option.  The outer none is the io error
arm (label does not exist); some (none, labels) is the version-mismatch
arm returning no update and leaving the registry unchanged;
some (some new_label, labels2) is the successful compare-and-swap. -/
def set_label_option (labels : List Label) (label : Label) (layer : Option ℕ) :
    Option (Option Label × List Label) :=
  let new_label := label.with_updated_layer layer
  match storeGet labels new_label.name with
  | none => none
  | some old_label =>
    if old_label.version + 1 ≠ new_label.version then some (none, labels)
    else some (some new_label, storeInsert labels new_label)

end LabelStoreDefs

section MemStoreDefs

/-- MemoryBackedStore::open_write_from: a writer over the shared byte
vector, starting at the given position; no check that the file already
has contents. -/
def MemoryBackedStore.open_write_from (vec : List ℕ) (pos : ℕ) : List ℕ × ℕ :=
  (vec, pos)

/-- MemoryBackedStoreWriter::write: grow the vector with zero padding if
the buffer does not fit, overwrite in place at the current position,
advance the position, and return Ok(buf.len()).  The result is the new
writer state paired with the io result (the error arm Except.error is
never produced by the source). -/
def MemoryBackedStoreWriter.write (vec : List ℕ) (pos : ℕ) (buf : List ℕ) :
    (List ℕ × ℕ) × Except Unit ℕ :=
  let v := if vec.length - pos < buf.length
    then vec ++ List.replicate (pos + buf.length - vec.length) 0
    else vec
  ((v.take pos ++ buf ++ v.drop (pos + buf.length), pos + buf.length),
    Except.ok buf.length)

end MemStoreDefs

section MergeIteratorLemmas

variable {α : Type} [LinearOrder α]

theorem strictAsc_iff_chain [Preorder β] [DecidableRel (α := β) (· < ·)] :
    ∀ l : List β, strictAsc l = true ↔ List.Chain' (· < ·) l
  | [] => by simp [strictAsc]
  | [a] => by simp [strictAsc]
  | a :: b :: r => by
    rw [strictAsc, List.chain'_cons, Bool.and_eq_true, decide_eq_true_iff,
      strictAsc_iff_chain (b :: r)]

theorem strictAsc_tail [Preorder β] [DecidableRel (α := β) (· < ·)] {l : List β}
    (h : strictAsc l = true) : strictAsc l.tail = true := by
  cases l with
  | nil => simp [strictAsc]
  | cons a r =>
    cases r with
    | nil => simp [strictAsc]
    | cons b r2 =>
      rw [strictAsc, Bool.and_eq_true] at h
      exact h.2

theorem chain'_head_le {l : List α} (hc : List.Chain' (· < ·) l) {h a : α}
    (hh : l.head? = some h) (ha : a ∈ l) : h ≤ a := by
  cases l with
  | nil => simp at ha
  | cons x r =>
    simp only [List.head?_cons, Option.some.injEq] at hh
    subst hh
    rcases List.mem_cons.mp ha with rfl | hr
    · exact le_refl _
    · have hp := List.chain'_iff_pairwise.mp hc
      exact le_of_lt (List.rel_of_pairwise_cons hp hr)

theorem strictAsc_head_not_mem_tail {l : List α} (h : strictAsc l = true) {t : α}
    (hh : l.head? = some t) : t ∉ l.tail := by
  cases l with
  | nil => simp at hh
  | cons x r =>
    simp only [List.head?_cons, Option.some.injEq] at hh
    subst hh
    intro hmem
    have hc := (strictAsc_iff_chain _).mp h
    have hp := List.chain'_iff_pairwise.mp hc
    exact absurd (List.rel_of_pairwise_cons hp hmem) (lt_irrefl _)

theorem mem_allEntries_cons {l : LayerIters α} {S : List (LayerIters α)} {t : α} :
    t ∈ allEntries (l :: S) ↔ (t ∈ l.1 ∨ t ∈ l.2) ∨ t ∈ allEntries S := by
  simp [allEntries, or_assoc]

theorem mentions_contains_true {S : List (LayerIters α)} {t : α}
    (h : true ∈ mentions S t) : t ∈ allEntries S := by
  induction S with
  | nil => simp [mentions] at h
  | cons l S ih =>
    by_cases h1 : t ∈ l.1
    · exact mem_allEntries_cons.mpr (Or.inl (Or.inl h1))
    · by_cases h2 : t ∈ l.2
      · exact mem_allEntries_cons.mpr (Or.inl (Or.inr h2))
      · rw [mentions, if_neg h1, if_neg h2] at h
        exact mem_allEntries_cons.mpr (Or.inr (ih h))

theorem true_mem_mentions_iff {S : List (LayerIters α)} {t : α} :
    true ∈ mentions S t ↔ ∃ i l, S.get? i = some l ∧ t ∈ l.1 := by
  induction S with
  | nil => simp [mentions]
  | cons l S ih =>
    constructor
    · intro h
      by_cases h1 : t ∈ l.1
      · exact ⟨0, l, rfl, h1⟩
      · have hrest : true ∈ mentions S t := by
          by_cases h2 : t ∈ l.2
          · rw [mentions, if_neg h1, if_pos h2, List.mem_cons] at h
            rcases h with h | h
            · exact absurd h.symm (by simp)
            · exact h
          · rwa [mentions, if_neg h1, if_neg h2] at h
        obtain ⟨i, l2, hg, hm⟩ := ih.mp hrest
        exact ⟨i + 1, l2, hg, hm⟩
    · rintro ⟨i, l2, hg, hm⟩
      cases i with
      | zero =>
        simp only [List.get?_cons_zero, Option.some.injEq] at hg
        subst hg
        rw [mentions, if_pos hm]
        exact List.mem_cons_self _ _
      | succ i =>
        simp only [List.get?_cons_succ] at hg
        have hrest : true ∈ mentions S t := ih.mpr ⟨i, l2, hg, hm⟩
        rw [mentions]
        split
        · exact List.mem_cons_of_mem _ hrest
        · split
          · exact List.mem_cons_of_mem _ hrest
          · exact hrest

theorem effectiveB_eq_mentions_head (S : List (LayerIters α)) (t : α) :
    effectiveB S t = ((mentions S t).head?.getD false) := by
  induction S with
  | nil => simp [effectiveB, mentions]
  | cons l S ih =>
    rw [effectiveB, mentions]
    by_cases h1 : t ∈ l.1
    · simp [h1]
    · by_cases h2 : t ∈ l.2
      · simp [h1, h2]
      · simp [h1, h2, ih]

theorem altOk_tail : ∀ {m : List Bool}, altOk m = true → altOk m.tail = true
  | [], _ => rfl
  | [_], _ => rfl
  | _ :: b2 :: r, h => by
    rw [altOk, Bool.and_eq_true] at h
    exact h.2

theorem altOk_head_ne {b : Bool} {m : List Bool} (h : altOk (b :: m) = true) :
    m.head? ≠ some b := by
  cases m with
  | nil => simp
  | cons c r =>
    rw [altOk, Bool.and_eq_true, bne_iff_ne] at h
    simp only [List.head?_cons, ne_eq, Option.some.injEq]
    intro hcb
    exact h.1 hcb.symm

theorem altOk_getLast : ∀ {m : List Bool}, altOk m = true → m ≠ [] →
    m.getLast? = some true
  | [], _, h => absurd rfl h
  | [b], h, _ => by
    rw [altOk] at h
    subst h
    rfl
  | b :: b2 :: r, h, _ => by
    rw [altOk, Bool.and_eq_true] at h
    rw [List.getLast?_cons_cons]
    exact altOk_getLast h.2 (by simp)

theorem bestHead_none_iff {S : List (LayerIters α)} :
    bestHead S = none ↔ ∀ l ∈ S, l.1 = [] := by
  induction S with
  | nil => simp [bestHead]
  | cons l r ih =>
    rw [bestHead]
    cases hh : l.1.head? <;> cases hb : bestHead r <;> dsimp only
    · simp only [List.mem_cons, true_iff]
      intro x hx
      rcases hx with rfl | hx
      · exact List.head?_eq_none_iff.mp hh
      · exact ih.mp hb x hx
    · constructor
      · intro hcontra
        cases hcontra
      · intro hall
        have := ih.mpr (fun x hx => hall x (List.mem_cons_of_mem _ hx))
        rw [this] at hb
        cases hb
    · constructor
      · intro hcontra
        cases hcontra
      · intro hall
        have := hall l (List.mem_cons_self _ _)
        rw [this] at hh
        cases hh
    · constructor
      · intro hcontra
        split_ifs at hcontra
      · intro hall
        have := hall l (List.mem_cons_self _ _)
        rw [this] at hh
        cases hh

theorem bestHead_some_get {S : List (LayerIters α)} :
    ∀ {i : ℕ} {t : α}, bestHead S = some (i, t) →
      ∃ l, S.get? i = some l ∧ l.1.head? = some t := by
  induction S with
  | nil => intro i t h; cases h
  | cons l r ih =>
    intro i t h
    rw [bestHead] at h
    cases hh : l.1.head? <;> rw [hh] at h <;> cases hb : bestHead r <;> rw [hb] at h <;>
      dsimp only at h
    · cases h
    · next v =>
      obtain ⟨i2, m⟩ := v
      simp only [Option.some.injEq, Prod.mk.injEq] at h
      obtain ⟨rfl, rfl⟩ := h
      obtain ⟨l2, hg, hhd⟩ := ih hb
      exact ⟨l2, by simpa using hg, hhd⟩
    · next hd =>
      simp only [Option.some.injEq, Prod.mk.injEq] at h
      obtain ⟨rfl, rfl⟩ := h
      exact ⟨l, rfl, hh⟩
    · next hd v =>
      obtain ⟨i2, m⟩ := v
      split_ifs at h with hle <;>
        simp only [Option.some.injEq, Prod.mk.injEq] at h <;> obtain ⟨rfl, rfl⟩ := h
      · exact ⟨l, rfl, hh⟩
      · obtain ⟨l2, hg, hhd⟩ := ih hb
        exact ⟨l2, by simpa using hg, hhd⟩

theorem bestHead_min {S : List (LayerIters α)} :
    ∀ {i : ℕ} {t : α}, bestHead S = some (i, t) →
      ∀ j l h2, S.get? j = some l → l.1.head? = some h2 → t ≤ h2 := by
  induction S with
  | nil => intro i t h; cases h
  | cons l r ih =>
    intro i t h j l2 h2 hg hh2
    rw [bestHead] at h
    cases hh : l.1.head? <;> rw [hh] at h <;> cases hb : bestHead r <;> rw [hb] at h <;>
      dsimp only at h
    · cases h
    · next v =>
      obtain ⟨i2, m⟩ := v
      simp only [Option.some.injEq, Prod.mk.injEq] at h
      obtain ⟨rfl, rfl⟩ := h
      cases j with
      | zero =>
        simp only [List.get?_cons_zero, Option.some.injEq] at hg
        rw [← hg] at hh2
        rw [hh2] at hh
        cases hh
      | succ j =>
        simp only [List.get?_cons_succ] at hg
        exact ih hb j l2 h2 hg hh2
    · next hd =>
      simp only [Option.some.injEq, Prod.mk.injEq] at h
      obtain ⟨rfl, rfl⟩ := h
      cases j with
      | zero =>
        simp only [List.get?_cons_zero, Option.some.injEq] at hg
        rw [← hg] at hh2
        rw [hh2] at hh
        cases hh
        exact le_refl _
      | succ j =>
        simp only [List.get?_cons_succ] at hg
        have : l2.1 = [] := bestHead_none_iff.mp hb l2 (List.get?_mem hg)
        rw [this] at hh2
        cases hh2
    · next hd v =>
      obtain ⟨i2, m⟩ := v
      split_ifs at h with hle <;>
        simp only [Option.some.injEq, Prod.mk.injEq] at h <;> obtain ⟨rfl, rfl⟩ := h
      · cases j with
        | zero =>
          simp only [List.get?_cons_zero, Option.some.injEq] at hg
          rw [← hg] at hh2
          rw [hh2] at hh
          cases hh
          exact le_refl _
        | succ j =>
          simp only [List.get?_cons_succ] at hg
          exact le_trans hle (ih hb j l2 h2 hg hh2)
      · cases j with
        | zero =>
          simp only [List.get?_cons_zero, Option.some.injEq] at hg
          rw [← hg] at hh2
          rw [hh2] at hh
          cases hh
          exact le_of_not_le hle
        | succ j =>
          simp only [List.get?_cons_succ] at hg
          exact ih hb j l2 h2 hg hh2

theorem bestHead_first {S : List (LayerIters α)} :
    ∀ {i : ℕ} {t : α}, bestHead S = some (i, t) →
      ∀ j, j < i → ∀ l h2, S.get? j = some l → l.1.head? = some h2 → t < h2 := by
  induction S with
  | nil => intro i t h; cases h
  | cons l r ih =>
    intro i t h j hj l2 h2 hg hh2
    rw [bestHead] at h
    cases hh : l.1.head? <;> rw [hh] at h <;> cases hb : bestHead r <;> rw [hb] at h <;>
      dsimp only at h
    · cases h
    · next v =>
      obtain ⟨i2, m⟩ := v
      simp only [Option.some.injEq, Prod.mk.injEq] at h
      obtain ⟨rfl, rfl⟩ := h
      cases j with
      | zero =>
        simp only [List.get?_cons_zero, Option.some.injEq] at hg
        rw [← hg] at hh2
        rw [hh2] at hh
        cases hh
      | succ j =>
        simp only [List.get?_cons_succ] at hg
        exact ih hb j (Nat.lt_of_succ_lt_succ hj) l2 h2 hg hh2
    · next hd =>
      simp only [Option.some.injEq, Prod.mk.injEq] at h
      obtain ⟨rfl, rfl⟩ := h
      exact absurd hj (Nat.not_lt_zero j)
    · next hd v =>
      obtain ⟨i2, m⟩ := v
      split_ifs at h with hle <;>
        simp only [Option.some.injEq, Prod.mk.injEq] at h <;> obtain ⟨rfl, rfl⟩ := h
      · exact absurd hj (Nat.not_lt_zero j)
      · cases j with
        | zero =>
          simp only [List.get?_cons_zero, Option.some.injEq] at hg
          rw [← hg] at hh2
          rw [hh2] at hh
          cases hh
          exact lt_of_not_le hle
        | succ j =>
          simp only [List.get?_cons_succ] at hg
          exact ih hb j (Nat.lt_of_succ_lt_succ hj) l2 h2 hg hh2

theorem popPos_get?_self : ∀ (S : List (LayerIters α)) (i : ℕ),
    (popPos S i).get? i = (S.get? i).map (fun l => (l.1.tail, l.2))
  | [], _ => by simp [popPos]
  | l :: r, 0 => by simp [popPos]
  | l :: r, i + 1 => by
    simp only [popPos, List.get?_cons_succ]
    exact popPos_get?_self r i

theorem popPos_get?_ne : ∀ (S : List (LayerIters α)) (i k : ℕ), k ≠ i →
    (popPos S i).get? k = S.get? k
  | [], _, _, _ => by simp [popPos]
  | l :: r, 0, 0, h => absurd rfl h
  | l :: r, 0, k + 1, _ => by simp [popPos]
  | l :: r, i + 1, 0, _ => by simp [popPos]
  | l :: r, i + 1, k + 1, h => by
    simp only [popPos, List.get?_cons_succ]
    exact popPos_get?_ne r i k (fun hk => h (by rw [hk]))

theorem popNeg_get?_self : ∀ (S : List (LayerIters α)) (j : ℕ),
    (popNeg S j).get? j = (S.get? j).map (fun l => (l.1, l.2.tail))
  | [], _ => by simp [popNeg]
  | l :: r, 0 => by simp [popNeg]
  | l :: r, j + 1 => by
    simp only [popNeg, List.get?_cons_succ]
    exact popNeg_get?_self r j

theorem popNeg_get?_ne : ∀ (S : List (LayerIters α)) (j k : ℕ), k ≠ j →
    (popNeg S j).get? k = S.get? k
  | [], _, _, _ => by simp [popNeg]
  | l :: r, 0, 0, h => absurd rfl h
  | l :: r, 0, k + 1, _ => by simp [popNeg]
  | l :: r, j + 1, 0, _ => by simp [popNeg]
  | l :: r, j + 1, k + 1, h => by
    simp only [popNeg, List.get?_cons_succ]
    exact popNeg_get?_ne r j k (fun hk => h (by rw [hk]))

theorem sumPosLen_popPos : ∀ (S : List (LayerIters α)) (i : ℕ) (l : LayerIters α),
    S.get? i = some l → l.1 ≠ [] → sumPosLen (popPos S i) + 1 = sumPosLen S
  | [], i, l, h, _ => by cases h
  | l0 :: r, 0, l, h, hne => by
    simp only [List.get?_cons_zero, Option.some.injEq] at h
    simp only [popPos, sumPosLen, List.map_cons, List.sum_cons]
    have h1 : l0.1.tail.length + 1 = l0.1.length := by
      cases hl : l0.1 with
      | nil => rw [h] at hl; exact absurd hl hne
      | cons a as => simp
    omega
  | l0 :: r, i + 1, l, h, hne => by
    simp only [List.get?_cons_succ] at h
    simp only [popPos, sumPosLen, List.map_cons, List.sum_cons]
    have := sumPosLen_popPos r i l h hne
    simp only [sumPosLen] at this
    omega

theorem sumPosLen_popNeg : ∀ (S : List (LayerIters α)) (j : ℕ),
    sumPosLen (popNeg S j) = sumPosLen S
  | [], _ => rfl
  | l :: r, 0 => by simp [popNeg, sumPosLen]
  | l :: r, j + 1 => by
    simp only [popNeg, sumPosLen, List.map_cons, List.sum_cons]
    have := sumPosLen_popNeg r j
    simp only [sumPosLen] at this
    omega

theorem popPos_drop : ∀ (S : List (LayerIters α)) (i k : ℕ), i < k →
    (popPos S i).drop k = S.drop k
  | [], _, _, _ => by simp [popPos]
  | l :: r, 0, k + 1, _ => by simp [popPos]
  | l :: r, i + 1, k + 1, h => by
    simp only [popPos, List.drop_succ_cons]
    exact popPos_drop r i k (Nat.lt_of_succ_lt_succ h)

theorem popNeg_drop : ∀ (S : List (LayerIters α)) (j k : ℕ), j < k →
    (popNeg S j).drop k = S.drop k
  | [], _, _, _ => by simp [popNeg]
  | l :: r, 0, k + 1, _ => by simp [popNeg]
  | l :: r, j + 1, k + 1, h => by
    simp only [popNeg, List.drop_succ_cons]
    exact popNeg_drop r j k (Nat.lt_of_succ_lt_succ h)

theorem negHeadIdx_some : ∀ (S : List (LayerIters α)) (i : ℕ) (t : α) (j : ℕ),
    negHeadIdx S i t = some j →
      j < i ∧ ∃ l, S.get? j = some l ∧ l.2.head? = some t
  | [], i, _, _, h => by cases h
  | _ :: _, 0, _, _, h => by cases h
  | l :: r, i + 1, t, j, h => by
    rw [negHeadIdx] at h
    by_cases hh : l.2.head? = some t
    · rw [if_pos hh] at h
      simp only [Option.some.injEq] at h
      subst h
      exact ⟨Nat.succ_pos i, l, rfl, hh⟩
    · rw [if_neg hh] at h
      cases hr : negHeadIdx r i t with
      | none => rw [hr] at h; cases h
      | some j2 =>
        rw [hr] at h
        simp only [Option.map_some', Option.some.injEq] at h
        subst h
        obtain ⟨hlt, l2, hg, hh2⟩ := negHeadIdx_some r i t j2 hr
        exact ⟨Nat.succ_lt_succ hlt, l2, by simpa using hg, hh2⟩

theorem negHeadIdx_none : ∀ (S : List (LayerIters α)) (i : ℕ) (t : α),
    negHeadIdx S i t = none →
      ∀ j, j < i → ∀ l, S.get? j = some l → l.2.head? ≠ some t
  | [], i, t, h, j, hj, l, hg => by cases hg
  | _ :: _, 0, _, _, j, hj, _, _ => absurd hj (Nat.not_lt_zero j)
  | l :: r, i + 1, t, h, j, hj, l2, hg => by
    rw [negHeadIdx] at h
    by_cases hh : l.2.head? = some t
    · rw [if_pos hh] at h
      cases h
    · rw [if_neg hh] at h
      cases j with
      | zero =>
        simp only [List.get?_cons_zero, Option.some.injEq] at hg
        subst hg
        exact hh
      | succ j =>
        simp only [List.get?_cons_succ] at hg
        cases hr : negHeadIdx r i t with
        | none =>
          exact negHeadIdx_none r i t hr j (Nat.lt_of_succ_lt_succ hj) l2 hg
        | some j2 => rw [hr] at h; cases h

theorem negHeadIdx_first : ∀ (S : List (LayerIters α)) (i : ℕ) (t : α) (j : ℕ),
    negHeadIdx S i t = some j →
      ∀ j2, j2 < j → ∀ l, S.get? j2 = some l → l.2.head? ≠ some t
  | [], i, _, _, h, _, _, _, _ => by cases h
  | _ :: _, 0, _, _, h, _, _, _, _ => by cases h
  | l :: r, i + 1, t, j, h, j2, hj2, l2, hg => by
    rw [negHeadIdx] at h
    by_cases hh : l.2.head? = some t
    · rw [if_pos hh] at h
      simp only [Option.some.injEq] at h
      subst h
      exact absurd hj2 (Nat.not_lt_zero j2)
    · rw [if_neg hh] at h
      cases hr : negHeadIdx r i t with
      | none => rw [hr] at h; cases h
      | some j3 =>
        rw [hr] at h
        simp only [Option.map_some', Option.some.injEq] at h
        subst h
        cases j2 with
        | zero =>
          simp only [List.get?_cons_zero, Option.some.injEq] at hg
          subst hg
          exact hh
        | succ j2 =>
          simp only [List.get?_cons_succ] at hg
          exact negHeadIdx_first r i t j3 hr j2 (Nat.lt_of_succ_lt_succ hj2) l2 hg

theorem drop_get_cons {S : List (LayerIters α)} {i : ℕ} {l : LayerIters α}
    (h : S.get? i = some l) : S.drop i = l :: S.drop (i + 1) := by
  induction S generalizing i with
  | nil => cases h
  | cons x r ih =>
    cases i with
    | zero =>
      simp only [List.get?_cons_zero, Option.some.injEq] at h
      subst h
      simp
    | succ i =>
      simp only [List.get?_cons_succ] at h
      simpa using ih h

theorem mentions_skip {l : LayerIters α} {S : List (LayerIters α)} {t : α}
    (h1 : t ∉ l.1) (h2 : t ∉ l.2) : mentions (l :: S) t = mentions S t := by
  rw [mentions, if_neg h1, if_neg h2]

theorem mentions_eq_drop {S : List (LayerIters α)} {t : α} {i : ℕ}
    (h : ∀ j, j < i → ∀ l, S.get? j = some l → t ∉ l.1 ∧ t ∉ l.2) :
    mentions S t = mentions (S.drop i) t := by
  induction i generalizing S with
  | zero => simp
  | succ i ih =>
    cases S with
    | nil => simp
    | cons l r =>
      have h0 := h 0 (Nat.succ_pos i) l rfl
      rw [mentions_skip h0.1 h0.2]
      have : ∀ j, j < i → ∀ l2, r.get? j = some l2 → t ∉ l2.1 ∧ t ∉ l2.2 := by
        intro j hj l2 hg
        exact h (j + 1) (Nat.succ_lt_succ hj) l2 (by simpa using hg)
      simpa using ih this

theorem stackOk_layer {S : List (LayerIters α)} (h : stackOk S = true) {j : ℕ}
    {l : LayerIters α} (hg : S.get? j = some l) : layerOk l = true := by
  rw [stackOk, Bool.and_eq_true, List.all_eq_true] at h
  exact h.1 l (List.get?_mem hg)

theorem stackOk_alt {S : List (LayerIters α)} (h : stackOk S = true) {t : α}
    (ht : t ∈ allEntries S) : altOk (mentions S t) = true := by
  rw [stackOk, Bool.and_eq_true] at h
  exact List.all_eq_true.mp h.2 t ht

theorem layerOk_pos_sorted {l : LayerIters α} (h : layerOk l = true) :
    strictAsc l.1 = true := by
  rw [layerOk, Bool.and_eq_true, Bool.and_eq_true] at h
  exact h.1.1

theorem layerOk_neg_sorted {l : LayerIters α} (h : layerOk l = true) :
    strictAsc l.2 = true := by
  rw [layerOk, Bool.and_eq_true, Bool.and_eq_true] at h
  exact h.1.2

theorem layerOk_disjoint {l : LayerIters α} (h : layerOk l = true) :
    ∀ t ∈ l.1, t ∉ l.2 := by
  rw [layerOk, Bool.and_eq_true, Bool.and_eq_true] at h
  intro t ht
  have := List.all_eq_true.mp h.2 t ht
  simpa using this

theorem mem_allEntries_of_pos {S : List (LayerIters α)} {j : ℕ} {l : LayerIters α}
    (hg : S.get? j = some l) {t : α} (ht : t ∈ l.1) : t ∈ allEntries S := by
  induction S generalizing j with
  | nil => cases hg
  | cons x r ih =>
    cases j with
    | zero =>
      simp only [List.get?_cons_zero, Option.some.injEq] at hg
      subst hg
      exact mem_allEntries_cons.mpr (Or.inl (Or.inl ht))
    | succ j =>
      simp only [List.get?_cons_succ] at hg
      exact mem_allEntries_cons.mpr (Or.inr (ih hg))

theorem mem_allEntries_of_neg {S : List (LayerIters α)} {j : ℕ} {l : LayerIters α}
    (hg : S.get? j = some l) {t : α} (ht : t ∈ l.2) : t ∈ allEntries S := by
  induction S generalizing j with
  | nil => cases hg
  | cons x r ih =>
    cases j with
    | zero =>
      simp only [List.get?_cons_zero, Option.some.injEq] at hg
      subst hg
      exact mem_allEntries_cons.mpr (Or.inl (Or.inr ht))
    | succ j =>
      simp only [List.get?_cons_succ] at hg
      exact mem_allEntries_cons.mpr (Or.inr (ih hg))

theorem mentions_cons_cases (x : LayerIters α) (S : List (LayerIters α)) (t : α) :
    mentions (x :: S) t = mentions S t ∨
      mentions (x :: S) t = true :: mentions S t ∨
      mentions (x :: S) t = false :: mentions S t := by
  rw [mentions]
  by_cases h1 : t ∈ x.1
  · rw [if_pos h1]
    exact Or.inr (Or.inl rfl)
  · rw [if_neg h1]
    by_cases h2 : t ∈ x.2
    · rw [if_pos h2]
      exact Or.inr (Or.inr rfl)
    · rw [if_neg h2]
      exact Or.inl rfl

theorem stackOk_tail {x : LayerIters α} {r : List (LayerIters α)}
    (h : stackOk (x :: r) = true) : stackOk r = true := by
  rw [stackOk, Bool.and_eq_true, List.all_eq_true, List.all_eq_true] at h ⊢
  constructor
  · intro u hu
    exact h.1 u (List.mem_cons_of_mem _ hu)
  · intro u hu
    have hmem : u ∈ allEntries (x :: r) := mem_allEntries_cons.mpr (Or.inr hu)
    have halt := h.2 u hmem
    rcases mentions_cons_cases x r u with hc | hc | hc
    · rwa [hc] at halt
    · rw [hc] at halt
      exact altOk_tail halt
    · rw [hc] at halt
      exact altOk_tail halt

theorem false_mem_mentions_of_neg {S : List (LayerIters α)} (hok : stackOk S = true)
    {j : ℕ} {l : LayerIters α} (hg : S.get? j = some l) {t : α} (ht : t ∈ l.2) :
    false ∈ mentions S t := by
  induction S generalizing j with
  | nil => cases hg
  | cons x r ih =>
    cases j with
    | zero =>
      simp only [List.get?_cons_zero, Option.some.injEq] at hg
      subst hg
      have hdisj := layerOk_disjoint (stackOk_layer hok (j := 0) rfl)
      have h1 : t ∉ x.1 := fun hmem => hdisj t hmem ht
      rw [mentions, if_neg h1, if_pos ht]
      exact List.mem_cons_self _ _
    | succ j =>
      simp only [List.get?_cons_succ] at hg
      have hin : false ∈ mentions r t := ih (stackOk_tail hok) hg
      rcases mentions_cons_cases x r t with hc | hc | hc <;> rw [hc]
      · exact hin
      · exact List.mem_cons_of_mem _ hin
      · exact List.mem_cons_of_mem _ hin

theorem true_mem_of_false_mem {m : List Bool} (halt : altOk m = true)
    (hf : false ∈ m) : true ∈ m := by
  have hne : m ≠ [] := by
    intro h
    rw [h] at hf
    cases hf
  have hlast := altOk_getLast halt hne
  obtain ⟨h2, heq⟩ := List.mem_getLast?_eq_getLast (Option.mem_def.mpr hlast)
  rw [heq]
  exact List.getLast_mem h2

theorem neg_mem_pos_somewhere {S : List (LayerIters α)} (hok : stackOk S = true)
    {j : ℕ} {l : LayerIters α} (hg : S.get? j = some l) {t : α} (ht : t ∈ l.2) :
    ∃ k l2, S.get? k = some l2 ∧ t ∈ l2.1 := by
  have hf := false_mem_mentions_of_neg hok hg ht
  have halt := stackOk_alt hok (mem_allEntries_of_neg hg ht)
  have htr := true_mem_of_false_mem halt hf
  exact true_mem_mentions_iff.mp htr

theorem head?_mem {β : Type} {l : List β} {t : β} (h : l.head? = some t) : t ∈ l := by
  cases l with
  | nil => cases h
  | cons x r =>
    simp only [List.head?_cons, Option.some.injEq] at h
    subst h
    exact List.mem_cons_self _ _

theorem pos_entries_ge {S : List (LayerIters α)} {i : ℕ} {t : α}
    (hok : stackOk S = true) (hb : bestHead S = some (i, t)) :
    ∀ j l, S.get? j = some l → ∀ u ∈ l.1, t ≤ u := by
  intro j l hg u hu
  have hne : l.1 ≠ [] := List.ne_nil_of_mem hu
  obtain ⟨h, hh⟩ := Option.ne_none_iff_exists'.mp (fun hc => hne (List.head?_eq_none_iff.mp hc))
  have h1 : t ≤ h := bestHead_min hb j l h hg hh
  have h2 : h ≤ u :=
    chain'_head_le ((strictAsc_iff_chain _).mp (layerOk_pos_sorted (stackOk_layer hok hg))) hh hu
  exact le_trans h1 h2

theorem pos_first_not_mem {S : List (LayerIters α)} {i : ℕ} {t : α}
    (hok : stackOk S = true) (hb : bestHead S = some (i, t)) :
    ∀ j, j < i → ∀ l, S.get? j = some l → t ∉ l.1 := by
  intro j hj l hg hmem
  have hne : l.1 ≠ [] := List.ne_nil_of_mem hmem
  obtain ⟨h, hh⟩ := Option.ne_none_iff_exists'.mp (fun hc => hne (List.head?_eq_none_iff.mp hc))
  have h1 : t < h := bestHead_first hb j hj l h hg hh
  have h2 : h ≤ t :=
    chain'_head_le ((strictAsc_iff_chain _).mp (layerOk_pos_sorted (stackOk_layer hok hg))) hh
      hmem
  exact absurd h1 (not_lt_of_le h2)

theorem neg_entries_ge {S : List (LayerIters α)} {i : ℕ} {t : α}
    (hok : stackOk S = true) (hb : bestHead S = some (i, t)) :
    ∀ j l, S.get? j = some l → ∀ u ∈ l.2, t ≤ u := by
  intro j l hg u hu
  obtain ⟨k, l2, hg2, hmem2⟩ := neg_mem_pos_somewhere hok hg hu
  exact pos_entries_ge hok hb k l2 hg2 u hmem2

theorem neg_head_eq_iff_mem {S : List (LayerIters α)} {i : ℕ} {t : α}
    (hok : stackOk S = true) (hb : bestHead S = some (i, t)) :
    ∀ j l, S.get? j = some l → (l.2.head? = some t ↔ t ∈ l.2) := by
  intro j l hg
  constructor
  · intro hh
    exact head?_mem hh
  · intro hmem
    have hne : l.2 ≠ [] := List.ne_nil_of_mem hmem
    obtain ⟨h, hh⟩ := Option.ne_none_iff_exists'.mp (fun hc => hne (List.head?_eq_none_iff.mp hc))
    have h1 : h ≤ t :=
      chain'_head_le ((strictAsc_iff_chain _).mp (layerOk_neg_sorted (stackOk_layer hok hg))) hh
        hmem
    have h2 : t ≤ h := neg_entries_ge hok hb j l hg h (head?_mem hh)
    rw [hh, le_antisymm h1 h2]

theorem no_mention_below_of_emit {S : List (LayerIters α)} {i : ℕ} {t : α}
    (hok : stackOk S = true) (hb : bestHead S = some (i, t))
    (hn : negHeadIdx S i t = none) :
    ∀ j, j < i → ∀ l, S.get? j = some l → t ∉ l.1 ∧ t ∉ l.2 := by
  intro j hj l hg
  refine ⟨pos_first_not_mem hok hb j hj l hg, ?_⟩
  intro hmem
  have := (neg_head_eq_iff_mem hok hb j l hg).mpr hmem
  exact negHeadIdx_none S i t hn j hj l hg this

theorem first_mention_pos {S : List (LayerIters α)} {t : α}
    (h : (mentions S t).head? = some true) :
    ∃ i l, S.get? i = some l ∧ t ∈ l.1 ∧
      ∀ j, j < i → ∀ l2, S.get? j = some l2 → t ∉ l2.1 ∧ t ∉ l2.2 := by
  induction S with
  | nil => cases h
  | cons x r ih =>
    by_cases h1 : t ∈ x.1
    · exact ⟨0, x, rfl, h1, fun j hj l2 hg => absurd hj (Nat.not_lt_zero j)⟩
    · by_cases h2 : t ∈ x.2
      · rw [mentions, if_neg h1, if_pos h2] at h
        simp at h
      · rw [mentions_skip h1 h2] at h
        obtain ⟨i, l, hg, hmem, hbelow⟩ := ih h
        refine ⟨i + 1, l, by simpa using hg, hmem, ?_⟩
        intro j hj l2 hg2
        cases j with
        | zero =>
          simp only [List.get?_cons_zero, Option.some.injEq] at hg2
          subst hg2
          exact ⟨h1, h2⟩
        | succ j =>
          simp only [List.get?_cons_succ] at hg2
          exact hbelow j (Nat.lt_of_succ_lt_succ hj) l2 hg2

theorem mentions_popPos_ne {S : List (LayerIters α)} {i : ℕ} {l : LayerIters α} {t : α}
    (hg : S.get? i = some l) (hh : l.1.head? = some t) {u : α} (hu : u ≠ t) :
    mentions (popPos S i) u = mentions S u := by
  induction S generalizing i with
  | nil => cases hg
  | cons x r ih =>
    cases i with
    | zero =>
      simp only [List.get?_cons_zero, Option.some.injEq] at hg
      subst hg
      cases hl : x.1 with
      | nil => rw [hl] at hh; cases hh
      | cons a as =>
        rw [hl] at hh
        simp only [List.head?_cons, Option.some.injEq] at hh
        show mentions ((x.1.tail, x.2) :: r) u = mentions (x :: r) u
        have htl : x.1.tail = as := by rw [hl]; rfl
        have hmem_iff : u ∈ x.1.tail ↔ u ∈ x.1 := by
          rw [htl, hl]
          simp only [List.mem_cons]
          constructor
          · exact Or.inr
          · rintro (rfl | hx)
            · exact absurd hh hu
            · exact hx
        by_cases hmem : u ∈ x.1
        · rw [mentions, mentions, if_pos hmem, if_pos (hmem_iff.mpr hmem)]
        · rw [mentions, mentions, if_neg hmem, if_neg (fun hc => hmem (hmem_iff.mp hc))]
    | succ i =>
      simp only [List.get?_cons_succ] at hg
      show mentions (x :: popPos r i) u = mentions (x :: r) u
      have := ih hg
      rw [mentions, mentions, this]

theorem mentions_popNeg_ne {S : List (LayerIters α)} {j : ℕ} {l : LayerIters α} {t : α}
    (hg : S.get? j = some l) (hh : l.2.head? = some t) {u : α} (hu : u ≠ t) :
    mentions (popNeg S j) u = mentions S u := by
  induction S generalizing j with
  | nil => cases hg
  | cons x r ih =>
    cases j with
    | zero =>
      simp only [List.get?_cons_zero, Option.some.injEq] at hg
      subst hg
      cases hl : x.2 with
      | nil => rw [hl] at hh; cases hh
      | cons a as =>
        rw [hl] at hh
        simp only [List.head?_cons, Option.some.injEq] at hh
        show mentions ((x.1, x.2.tail) :: r) u = mentions (x :: r) u
        have htl : x.2.tail = as := by rw [hl]; rfl
        have hmem_iff : u ∈ x.2.tail ↔ u ∈ x.2 := by
          rw [htl, hl]
          simp only [List.mem_cons]
          constructor
          · exact Or.inr
          · rintro (rfl | hx)
            · exact absurd hh hu
            · exact hx
        by_cases hmem1 : u ∈ x.1
        · rw [mentions, mentions, if_pos hmem1, if_pos hmem1]
        · by_cases hmem : u ∈ x.2
          · rw [mentions, mentions, if_neg hmem1, if_neg hmem1, if_pos hmem,
              if_pos (hmem_iff.mpr hmem)]
          · rw [mentions, mentions, if_neg hmem1, if_neg hmem1, if_neg hmem,
              if_neg (fun hc => hmem (hmem_iff.mp hc))]
    | succ j =>
      simp only [List.get?_cons_succ] at hg
      show mentions (x :: popNeg r j) u = mentions (x :: r) u
      have := ih hg
      rw [mentions, mentions, this]

theorem mem_popPos {S : List (LayerIters α)} {i : ℕ} {x : LayerIters α}
    (h : x ∈ popPos S i) :
    x ∈ S ∨ ∃ l, S.get? i = some l ∧ x = (l.1.tail, l.2) := by
  induction S generalizing i with
  | nil => simp [popPos] at h
  | cons y r ih =>
    cases i with
    | zero =>
      rcases List.mem_cons.mp h with rfl | hr
      · exact Or.inr ⟨y, rfl, rfl⟩
      · exact Or.inl (List.mem_cons_of_mem _ hr)
    | succ i =>
      rcases List.mem_cons.mp h with rfl | hr
      · exact Or.inl (List.mem_cons_self _ _)
      · rcases ih hr with hc | ⟨l, hg, hx⟩
        · exact Or.inl (List.mem_cons_of_mem _ hc)
        · exact Or.inr ⟨l, by simpa using hg, hx⟩

theorem mem_popNeg {S : List (LayerIters α)} {j : ℕ} {x : LayerIters α}
    (h : x ∈ popNeg S j) :
    x ∈ S ∨ ∃ l, S.get? j = some l ∧ x = (l.1, l.2.tail) := by
  induction S generalizing j with
  | nil => simp [popNeg] at h
  | cons y r ih =>
    cases j with
    | zero =>
      rcases List.mem_cons.mp h with rfl | hr
      · exact Or.inr ⟨y, rfl, rfl⟩
      · exact Or.inl (List.mem_cons_of_mem _ hr)
    | succ j =>
      rcases List.mem_cons.mp h with rfl | hr
      · exact Or.inl (List.mem_cons_self _ _)
      · rcases ih hr with hc | ⟨l, hg, hx⟩
        · exact Or.inl (List.mem_cons_of_mem _ hc)
        · exact Or.inr ⟨l, by simpa using hg, hx⟩

theorem allEntries_popPos_subset {S : List (LayerIters α)} {i : ℕ} {u : α}
    (h : u ∈ allEntries (popPos S i)) : u ∈ allEntries S := by
  simp only [allEntries, List.mem_flatten] at h ⊢
  obtain ⟨b, hb, hub⟩ := h
  simp only [List.mem_map] at hb
  obtain ⟨x, hx, rfl⟩ := hb
  rcases mem_popPos hx with hc | ⟨l, hg, rfl⟩
  · exact ⟨x.1 ++ x.2, List.mem_map.mpr ⟨x, hc, rfl⟩, hub⟩
  · refine ⟨l.1 ++ l.2, List.mem_map.mpr ⟨l, List.get?_mem hg, rfl⟩, ?_⟩
    rcases List.mem_append.mp hub with hu1 | hu2
    · exact List.mem_append.mpr (Or.inl (List.mem_of_mem_tail hu1))
    · exact List.mem_append.mpr (Or.inr hu2)

theorem allEntries_popNeg_subset {S : List (LayerIters α)} {j : ℕ} {u : α}
    (h : u ∈ allEntries (popNeg S j)) : u ∈ allEntries S := by
  simp only [allEntries, List.mem_flatten] at h ⊢
  obtain ⟨b, hb, hub⟩ := h
  simp only [List.mem_map] at hb
  obtain ⟨x, hx, rfl⟩ := hb
  rcases mem_popNeg hx with hc | ⟨l, hg, rfl⟩
  · exact ⟨x.1 ++ x.2, List.mem_map.mpr ⟨x, hc, rfl⟩, hub⟩
  · refine ⟨l.1 ++ l.2, List.mem_map.mpr ⟨l, List.get?_mem hg, rfl⟩, ?_⟩
    rcases List.mem_append.mp hub with hu1 | hu2
    · exact List.mem_append.mpr (Or.inl hu1)
    · exact List.mem_append.mpr (Or.inr (List.mem_of_mem_tail hu2))

theorem sumPosLen_zero {S : List (LayerIters α)} (h : sumPosLen S = 0) :
    ∀ l ∈ S, l.1 = [] := by
  intro l hl
  induction S with
  | nil => cases hl
  | cons x r ih =>
    simp only [sumPosLen, List.map_cons, List.sum_cons, Nat.add_eq_zero] at h
    rcases List.mem_cons.mp hl with rfl | hr
    · exact List.length_eq_zero.mp h.1
    · exact ih (by simp [sumPosLen, h.2]) hr

theorem effB_false_of_all_nil {S : List (LayerIters α)} (h : ∀ l ∈ S, l.1 = []) (u : α) :
    effectiveB S u = false := by
  induction S with
  | nil => rfl
  | cons x r ih =>
    rw [effectiveB]
    have hx := h x (List.mem_cons_self _ _)
    rw [hx]
    simp only [List.not_mem_nil, if_false]
    by_cases h2 : u ∈ x.2
    · rw [if_pos h2]
    · rw [if_neg h2]
      exact ih (fun l hl => h l (List.mem_cons_of_mem _ hl))

theorem getD_false_of_head_ne {X : List Bool} (h : X.head? ≠ some true) :
    X.head?.getD false = false := by
  cases hx : X.head? with
  | none => rfl
  | some b =>
    cases b with
    | false => rfl
    | true => exact absurd hx h

theorem layerOk_posTail {l : LayerIters α} (h : layerOk l = true) :
    layerOk (l.1.tail, l.2) = true := by
  rw [layerOk, Bool.and_eq_true, Bool.and_eq_true] at h ⊢
  refine ⟨⟨strictAsc_tail h.1.1, h.1.2⟩, ?_⟩
  rw [List.all_eq_true]
  intro u hu
  exact List.all_eq_true.mp h.2 u (List.mem_of_mem_tail hu)

theorem layerOk_negTail {l : LayerIters α} (h : layerOk l = true) :
    layerOk (l.1, l.2.tail) = true := by
  rw [layerOk, Bool.and_eq_true, Bool.and_eq_true] at h ⊢
  refine ⟨⟨h.1.1, strictAsc_tail h.1.2⟩, ?_⟩
  rw [List.all_eq_true]
  intro u hu
  have := List.all_eq_true.mp h.2 u hu
  simp only [decide_eq_true_iff] at this ⊢
  exact fun hc => this (List.mem_of_mem_tail hc)

theorem emit_mentions_structure {S : List (LayerIters α)} {i : ℕ} {t : α}
    {l : LayerIters α} (hok : stackOk S = true) (hb : bestHead S = some (i, t))
    (hg : S.get? i = some l) (hh : l.1.head? = some t)
    (hn : negHeadIdx S i t = none) :
    mentions S t = true :: mentions (S.drop (i + 1)) t ∧
      mentions (popPos S i) t = mentions (S.drop (i + 1)) t := by
  have hbelow := no_mention_below_of_emit hok hb hn
  constructor
  · rw [mentions_eq_drop hbelow, drop_get_cons hg, mentions, if_pos (head?_mem hh)]
  · have hlo := stackOk_layer hok hg
    have hbelow2 : ∀ j, j < i + 1 → ∀ l2, (popPos S i).get? j = some l2 →
        t ∉ l2.1 ∧ t ∉ l2.2 := by
      intro j hj l2 hg2
      rcases Nat.lt_or_ge j i with hji | hji
      · rw [popPos_get?_ne S i j (Nat.ne_of_lt hji)] at hg2
        exact hbelow j hji l2 hg2
      · have hji2 : j = i := Nat.le_antisymm (Nat.lt_succ_iff.mp hj) hji
        subst hji2
        rw [popPos_get?_self S j, hg] at hg2
        simp only [Option.map_some', Option.some.injEq] at hg2
        subst hg2
        constructor
        · exact strictAsc_head_not_mem_tail (layerOk_pos_sorted hlo) hh
        · exact layerOk_disjoint hlo t (head?_mem hh)
    rw [mentions_eq_drop hbelow2, popPos_drop S i (i + 1) (Nat.lt_succ_self i)]

theorem cancel_mentions_structure {S : List (LayerIters α)} {i j : ℕ} {t : α}
    {l : LayerIters α} (hok : stackOk S = true) (hb : bestHead S = some (i, t))
    (hg : S.get? i = some l) (hh : l.1.head? = some t)
    (hn : negHeadIdx S i t = some j) :
    mentions S t = false :: true :: mentions (S.drop (i + 1)) t ∧
      mentions (popNeg (popPos S i) j) t = mentions (S.drop (i + 1)) t := by
  obtain ⟨hji, lj, hgj, hhj⟩ := negHeadIdx_some S i t j hn
  have htposi : t ∈ l.1 := head?_mem hh
  have htnegj : t ∈ lj.2 := head?_mem hhj
  have hbelowj : ∀ j2, j2 < j → ∀ l2, S.get? j2 = some l2 → t ∉ l2.1 ∧ t ∉ l2.2 := by
    intro j2 hj2 l2 hg2
    refine ⟨pos_first_not_mem hok hb j2 (Nat.lt_trans hj2 hji) l2 hg2, ?_⟩
    intro hmem
    exact negHeadIdx_first S i t j hn j2 hj2 l2 hg2
      ((neg_head_eq_iff_mem hok hb j2 l2 hg2).mpr hmem)
  have hnotposj : t ∉ lj.1 := pos_first_not_mem hok hb j hji lj hgj
  have hstep1 : mentions S t = false :: mentions (S.drop (j + 1)) t := by
    rw [mentions_eq_drop hbelowj, drop_get_cons hgj, mentions, if_neg hnotposj,
      if_pos htnegj]
  have hrelget : (S.drop (j + 1)).get? (i - j - 1) = some l := by
    rw [List.get?_drop]
    have : j + 1 + (i - j - 1) = i := by omega
    rw [this]
    exact hg
  have htrue : true ∈ mentions (S.drop (j + 1)) t :=
    true_mem_mentions_iff.mpr ⟨i - j - 1, l, hrelget, htposi⟩
  have halt : altOk (mentions S t) = true :=
    stackOk_alt hok (mem_allEntries_of_pos hg htposi)
  have hXne : mentions (S.drop (j + 1)) t ≠ [] := List.ne_nil_of_mem htrue
  have hXhead : (mentions (S.drop (j + 1)) t).head? = some true := by
    cases hX : mentions (S.drop (j + 1)) t with
    | nil => exact absurd hX hXne
    | cons c X2 =>
      rw [hstep1, hX] at halt
      rw [altOk, Bool.and_eq_true, bne_iff_ne] at halt
      have : c = true := by
        cases c
        · exact absurd rfl (Ne.symm halt.1)
        · rfl
      rw [this]
      rfl
  obtain ⟨i1, l2, hg2, hmem2, hbelow2⟩ := first_mention_pos hXhead
  have hi1 : i1 = i - j - 1 := by
    rcases Nat.lt_trichotomy i1 (i - j - 1) with hlt | heq | hgt
    · exfalso
      rw [List.get?_drop] at hg2
      have hidx : j + 1 + i1 < i := by omega
      exact pos_first_not_mem hok hb (j + 1 + i1) hidx l2 hg2 hmem2
    · exact heq
    · exfalso
      exact (hbelow2 (i - j - 1) hgt l hrelget).1 htposi
  have hstep2 : mentions (S.drop (j + 1)) t = true :: mentions (S.drop (i + 1)) t := by
    rw [@mentions_eq_drop α _ _ t i1 (fun j3 hj3 l3 hg3 => hbelow2 j3 hj3 l3 hg3),
      List.drop_drop, hi1]
    have heq1 : j + 1 + (i - j - 1) = i := by omega
    rw [heq1, drop_get_cons hg, mentions, if_pos htposi]
  constructor
  · rw [hstep1, hstep2]
  · have hlo := stackOk_layer hok hg
    have hloj := stackOk_layer hok hgj
    have hbelow3 : ∀ k, k < i + 1 → ∀ l3, (popNeg (popPos S i) j).get? k = some l3 →
        t ∉ l3.1 ∧ t ∉ l3.2 := by
      intro k hk l3 hg3
      rcases Nat.lt_trichotomy k j with hkj | hkj | hkj
      · rw [popNeg_get?_ne _ j k (Nat.ne_of_lt hkj),
          popPos_get?_ne S i k (Nat.ne_of_lt (Nat.lt_trans hkj hji))] at hg3
        exact hbelowj k hkj l3 hg3
      · subst hkj
        rw [popNeg_get?_self _ k, popPos_get?_ne S i k (Nat.ne_of_lt hji), hgj] at hg3
        simp only [Option.map_some', Option.some.injEq] at hg3
        subst hg3
        refine ⟨hnotposj, ?_⟩
        exact strictAsc_head_not_mem_tail (layerOk_neg_sorted hloj) hhj
      · rcases Nat.lt_or_ge k i with hki | hki
        · rw [popNeg_get?_ne _ j k (Nat.ne_of_gt hkj),
            popPos_get?_ne S i k (Nat.ne_of_lt hki)] at hg3
          have hrel : k - j - 1 < i1 := by omega
          have : (S.drop (j + 1)).get? (k - j - 1) = some l3 := by
            rw [List.get?_drop]
            have : j + 1 + (k - j - 1) = k := by omega
            rw [this]
            exact hg3
          exact hbelow2 (k - j - 1) hrel l3 this
        · have hki2 : k = i := Nat.le_antisymm (Nat.lt_succ_iff.mp hk) hki
          subst hki2
          rw [popNeg_get?_ne _ j k (Nat.ne_of_gt hkj), popPos_get?_self S k, hg] at hg3
          simp only [Option.map_some', Option.some.injEq] at hg3
          subst hg3
          constructor
          · exact strictAsc_head_not_mem_tail (layerOk_pos_sorted hlo) hh
          · exact layerOk_disjoint hlo t htposi
    rw [mentions_eq_drop hbelow3, popNeg_drop _ j (i + 1) (by omega),
      popPos_drop S i (i + 1) (Nat.lt_succ_self i)]

theorem stackOk_layers_all {S : List (LayerIters α)} (h : stackOk S = true) :
    ∀ x ∈ S, layerOk x = true := by
  rw [stackOk, Bool.and_eq_true] at h
  exact List.all_eq_true.mp h.1

theorem stackOk_emit {S : List (LayerIters α)} {i : ℕ} {t : α}
    {l : LayerIters α} (hok : stackOk S = true) (hb : bestHead S = some (i, t))
    (hg : S.get? i = some l) (hh : l.1.head? = some t)
    (hn : negHeadIdx S i t = none) : stackOk (popPos S i) = true := by
  obtain ⟨hm1, hm2⟩ := emit_mentions_structure hok hb hg hh hn
  rw [stackOk, Bool.and_eq_true, List.all_eq_true, List.all_eq_true]
  constructor
  · intro x hx
    rcases mem_popPos hx with hc | ⟨l2, hg2, rfl⟩
    · exact stackOk_layers_all hok x hc
    · exact layerOk_posTail (stackOk_layers_all hok l2 (List.get?_mem hg2))
  · intro u hu
    by_cases hut : u = t
    · subst hut
      rw [hm2]
      have halt : altOk (mentions S u) = true :=
        stackOk_alt hok (mem_allEntries_of_pos hg (head?_mem hh))
      rw [hm1] at halt
      exact altOk_tail halt
    · rw [mentions_popPos_ne hg hh hut]
      exact stackOk_alt hok (allEntries_popPos_subset hu)

theorem stackOk_cancel {S : List (LayerIters α)} {i j : ℕ} {t : α}
    {l : LayerIters α} (hok : stackOk S = true) (hb : bestHead S = some (i, t))
    (hg : S.get? i = some l) (hh : l.1.head? = some t)
    (hn : negHeadIdx S i t = some j) :
    stackOk (popNeg (popPos S i) j) = true := by
  obtain ⟨hji, lj, hgj, hhj⟩ := negHeadIdx_some S i t j hn
  obtain ⟨hm1, hm2⟩ := cancel_mentions_structure hok hb hg hh hn
  have hgj2 : (popPos S i).get? j = some lj := by
    rw [popPos_get?_ne S i j (Nat.ne_of_lt hji)]
    exact hgj
  rw [stackOk, Bool.and_eq_true, List.all_eq_true, List.all_eq_true]
  constructor
  · intro x hx
    rcases mem_popNeg hx with hc | ⟨l2, hg2, rfl⟩
    · rcases mem_popPos hc with hc2 | ⟨l3, hg3, rfl⟩
      · exact stackOk_layers_all hok x hc2
      · exact layerOk_posTail (stackOk_layers_all hok l3 (List.get?_mem hg3))
    · rw [hgj2] at hg2
      cases hg2
      exact layerOk_negTail (stackOk_layers_all hok lj (List.get?_mem hgj))
  · intro u hu
    by_cases hut : u = t
    · subst hut
      rw [hm2]
      have halt : altOk (mentions S u) = true :=
        stackOk_alt hok (mem_allEntries_of_pos hg (head?_mem hh))
      rw [hm1] at halt
      exact altOk_tail (altOk_tail halt)
    · rw [mentions_popNeg_ne hgj2 hhj hut, mentions_popPos_ne hg hh hut]
      exact stackOk_alt hok (allEntries_popPos_subset (allEntries_popNeg_subset hu))

theorem effB_popPos_pos_mem {S : List (LayerIters α)} {i : ℕ} {u : α}
    (h : effectiveB (popPos S i) u = true) :
    ∃ k l2, (popPos S i).get? k = some l2 ∧ u ∈ l2.1 := by
  rw [effectiveB_eq_mentions_head] at h
  have hhd : (mentions (popPos S i) u).head? = some true := by
    cases hx : (mentions (popPos S i) u).head? with
    | none => rw [hx] at h; cases h
    | some b =>
      rw [hx] at h
      simp only [Option.getD_some] at h
      rw [h]
  exact true_mem_mentions_iff.mp (head?_mem hhd)

theorem mergeAux_correct (n : ℕ) : ∀ (S : List (LayerIters α)),
    sumPosLen S ≤ n → stackOk S = true →
      List.Chain' (· < ·) (mergeAux n S) ∧
        ∀ u, u ∈ mergeAux n S ↔ effectiveB S u = true := by
  induction n with
  | zero =>
    intro S hfuel hok
    have hnil : ∀ l ∈ S, l.1 = [] := sumPosLen_zero (Nat.le_zero.mp hfuel)
    refine ⟨List.chain'_nil, ?_⟩
    intro u
    rw [mergeAux]
    simp only [List.not_mem_nil, false_iff]
    rw [effB_false_of_all_nil hnil u]
    simp
  | succ n ih =>
    intro S hfuel hok
    cases hb : bestHead S with
    | none =>
      have hnil : ∀ l ∈ S, l.1 = [] := bestHead_none_iff.mp hb
      rw [mergeAux, hb]
      refine ⟨List.chain'_nil, ?_⟩
      intro u
      simp only [List.not_mem_nil, false_iff]
      rw [effB_false_of_all_nil hnil u]
      simp
    | some v =>
      obtain ⟨i, t⟩ := v
      obtain ⟨l, hg, hh⟩ := bestHead_some_get hb
      have hlne : l.1 ≠ [] := by
        intro hc
        rw [hc] at hh
        cases hh
      cases hn : negHeadIdx S i t with
      | none =>
        rw [mergeAux, hb]
        dsimp only
        rw [hn]
        have hfuel1 : sumPosLen (popPos S i) ≤ n := by
          have := sumPosLen_popPos S i l hg hlne
          omega
        have hok1 := stackOk_emit hok hb hg hh hn
        obtain ⟨ihchain, ihmem⟩ := ih (popPos S i) hfuel1 hok1
        obtain ⟨hm1, hm2⟩ := emit_mentions_structure hok hb hg hh hn
        have halt : altOk (mentions S t) = true :=
          stackOk_alt hok (mem_allEntries_of_pos hg (head?_mem hh))
        have heffSt : effectiveB S t = true := by
          rw [effectiveB_eq_mentions_head, hm1]
          rfl
        have heffS1t : effectiveB (popPos S i) t = false := by
          rw [effectiveB_eq_mentions_head, hm2]
          rw [hm1] at halt
          exact getD_false_of_head_ne (altOk_head_ne halt)
        have heff_other : ∀ u, u ≠ t →
            effectiveB (popPos S i) u = effectiveB S u := by
          intro u hut
          rw [effectiveB_eq_mentions_head, effectiveB_eq_mentions_head,
            mentions_popPos_ne hg hh hut]
        have hgt : ∀ u ∈ mergeAux n (popPos S i), t < u := by
          intro u hu
          have he := (ihmem u).mp hu
          obtain ⟨k, l2, hg2, hmem2⟩ := effB_popPos_pos_mem he
          have hle : t ≤ u := by
            by_cases hki : k = i
            · subst hki
              rw [popPos_get?_self S k, hg] at hg2
              simp only [Option.map_some', Option.some.injEq] at hg2
              subst hg2
              exact pos_entries_ge hok hb k l hg u (List.mem_of_mem_tail hmem2)
            · rw [popPos_get?_ne S i k hki] at hg2
              exact pos_entries_ge hok hb k l2 hg2 u hmem2
          have hne : u ≠ t := by
            intro hc
            subst hc
            rw [heffS1t] at he
            cases he
          exact lt_of_le_of_ne hle (Ne.symm hne)
        constructor
        · rw [List.chain'_cons']
          refine ⟨?_, ihchain⟩
          intro y hy
          exact hgt y (head?_mem hy)
        · intro u
          rw [List.mem_cons]
          constructor
          · rintro (rfl | hu)
            · exact heffSt
            · have he := (ihmem u).mp hu
              have hne : u ≠ t := by
                intro hc
                subst hc
                rw [heffS1t] at he
                cases he
              rw [← heff_other u hne]
              exact he
          · intro he
            by_cases hut : u = t
            · exact Or.inl hut
            · refine Or.inr ((ihmem u).mpr ?_)
              rw [heff_other u hut]
              exact he
      | some j =>
        rw [mergeAux, hb]
        dsimp only
        rw [hn]
        obtain ⟨hji, lj, hgj, hhj⟩ := negHeadIdx_some S i t j hn
        have hgj2 : (popPos S i).get? j = some lj := by
          rw [popPos_get?_ne S i j (Nat.ne_of_lt hji)]
          exact hgj
        have hfuel2 : sumPosLen (popNeg (popPos S i) j) ≤ n := by
          rw [sumPosLen_popNeg]
          have := sumPosLen_popPos S i l hg hlne
          omega
        have hok2 := stackOk_cancel hok hb hg hh hn
        obtain ⟨ihchain, ihmem⟩ := ih (popNeg (popPos S i) j) hfuel2 hok2
        obtain ⟨hm1, hm2⟩ := cancel_mentions_structure hok hb hg hh hn
        have halt : altOk (mentions S t) = true :=
          stackOk_alt hok (mem_allEntries_of_pos hg (head?_mem hh))
        have heq : ∀ u, effectiveB (popNeg (popPos S i) j) u = effectiveB S u := by
          intro u
          by_cases hut : u = t
          · subst hut
            rw [effectiveB_eq_mentions_head, effectiveB_eq_mentions_head, hm1, hm2]
            rw [hm1] at halt
            have halt2 := altOk_tail halt
            simp only [List.tail_cons] at halt2
            rw [getD_false_of_head_ne (altOk_head_ne halt2)]
            rfl
          · rw [effectiveB_eq_mentions_head, effectiveB_eq_mentions_head,
              mentions_popNeg_ne hgj2 hhj hut, mentions_popPos_ne hg hh hut]
        refine ⟨ihchain, ?_⟩
        intro u
        rw [ihmem u, heq u]

theorem effectiveB_iff_exists {S : List (LayerIters α)} {t : α} :
    effectiveB S t = true ↔
      ∃ i l, S.get? i = some l ∧ t ∈ l.1 ∧
        ∀ j l2, j < i → S.get? j = some l2 → t ∉ l2.2 := by
  induction S with
  | nil => simp [effectiveB]
  | cons x r ih =>
    rw [effectiveB]
    by_cases h1 : t ∈ x.1
    · rw [if_pos h1]
      exact iff_of_true rfl
        ⟨0, x, rfl, h1, fun j l2 hj _ => absurd hj (Nat.not_lt_zero j)⟩
    · rw [if_neg h1]
      by_cases h2 : t ∈ x.2
      · rw [if_pos h2]
        constructor
        · intro hc
          cases hc
        · rintro ⟨i, l, hg, hmem, hforall⟩
          cases i with
          | zero =>
            simp only [List.get?_cons_zero, Option.some.injEq] at hg
            subst hg
            exact absurd hmem h1
          | succ i =>
            exact absurd h2 (hforall 0 x (Nat.succ_pos i) rfl)
      · rw [if_neg h2, ih]
        constructor
        · rintro ⟨i, l, hg, hmem, hf⟩
          refine ⟨i + 1, l, by simpa using hg, hmem, ?_⟩
          intro j l2 hj hg2
          cases j with
          | zero =>
            simp only [List.get?_cons_zero, Option.some.injEq] at hg2
            subst hg2
            exact h2
          | succ j =>
            simp only [List.get?_cons_succ] at hg2
            exact hf j l2 (Nat.lt_of_succ_lt_succ hj) hg2
        · rintro ⟨i, l, hg, hmem, hf⟩
          cases i with
          | zero =>
            simp only [List.get?_cons_zero, Option.some.injEq] at hg
            subst hg
            exact absurd hmem h1
          | succ i =>
            simp only [List.get?_cons_succ] at hg
            refine ⟨i, l, hg, hmem, ?_⟩
            intro j l2 hj hg2
            exact hf (j + 1) l2 (Nat.succ_lt_succ hj) (by simpa using hg2)

end MergeIteratorLemmas

section ClaimC1

/-- C1: for every well-formed layer stack (leaf first) whose per-layer
addition and removal sequences are strictly ascending, disjoint and respect
the child-layer invariants, the cross-layer merge iterator yields the
effective triple set in strictly ascending order: a triple is yielded iff
some layer adds it and no strictly more recent layer removes it more
recently than any re-addition. -/
theorem merge_iterator_yields_effective_set (S : List (LayerIters IdTriple))
    (hok : stackOk S = true) :
    List.Chain' (· < ·) (mergeTriples S) ∧
      ∀ t, t ∈ mergeTriples S ↔
        ∃ i l, S.get? i = some l ∧ t ∈ l.1 ∧
          ∀ j l2, j < i → S.get? j = some l2 → t ∉ l2.2 := by
  obtain ⟨hc, hm⟩ := mergeAux_correct (sumPosLen S) S (le_refl _) hok
  exact ⟨hc, fun t => (hm t).trans effectiveB_iff_exists⟩

/-- Witness for C1 on a two-layer stack: the leaf adds (1,1,1), removes
(1,1,2); the base adds (1,1,2) and (2,1,1). -/
theorem merge_iterator_yields_effective_set_witness :
    stackOk [([IdTriple.new 1 1 1], [IdTriple.new 1 1 2]),
        ([IdTriple.new 1 1 2, IdTriple.new 2 1 1], [])] = true ∧
      (List.Chain' (· < ·) (mergeTriples [([IdTriple.new 1 1 1], [IdTriple.new 1 1 2]),
          ([IdTriple.new 1 1 2, IdTriple.new 2 1 1], [])]) ∧
        ∀ t, t ∈ mergeTriples [([IdTriple.new 1 1 1], [IdTriple.new 1 1 2]),
            ([IdTriple.new 1 1 2, IdTriple.new 2 1 1], [])] ↔
          ∃ i l, [([IdTriple.new 1 1 1], [IdTriple.new 1 1 2]),
              ([IdTriple.new 1 1 2, IdTriple.new 2 1 1], [])].get? i = some l ∧ t ∈ l.1 ∧
            ∀ j l2, j < i →
              [([IdTriple.new 1 1 1], [IdTriple.new 1 1 2]),
                  ([IdTriple.new 1 1 2, IdTriple.new 2 1 1], [])].get? j = some l2 →
                t ∉ l2.2) :=
  ⟨by decide, merge_iterator_yields_effective_set _ (by decide)⟩

end ClaimC1

section RollupLemmas

variable {α : Type} [LinearOrder α]

theorem mergeAux_single : ∀ (n : ℕ) (A : List α), A.length ≤ n →
    mergeAux n [(A, ([] : List α))] = A
  | 0, [], _ => rfl
  | n + 1, [], _ => by
    rw [mergeAux]
    have hb : bestHead [(([] : List α), ([] : List α))] = none := rfl
    rw [hb]
  | 0, a :: A, h => by simp at h
  | n + 1, a :: A, h => by
    rw [mergeAux]
    have hb : bestHead [((a :: A : List α), ([] : List α))] = some (0, a) := rfl
    rw [hb]
    dsimp only
    have hn : negHeadIdx [((a :: A : List α), ([] : List α))] 0 a = none := rfl
    rw [hn]
    have hp : popPos [((a :: A : List α), ([] : List α))] 0 = [(A, [])] := rfl
    rw [hp, mergeAux_single n A (Nat.le_of_succ_le_succ h)]

theorem mentions_append : ∀ (A B : List (LayerIters α)) (t : α),
    mentions (A ++ B) t = mentions A t ++ mentions B t
  | [], B, t => rfl
  | x :: A, B, t => by
    show mentions (x :: (A ++ B)) t = mentions (x :: A) t ++ mentions B t
    rw [mentions, mentions]
    by_cases h1 : t ∈ x.1
    · rw [if_pos h1, if_pos h1, mentions_append A B t]
      rfl
    · rw [if_neg h1, if_neg h1]
      by_cases h2 : t ∈ x.2
      · rw [if_pos h2, if_pos h2, mentions_append A B t]
        rfl
      · rw [if_neg h2, if_neg h2, mentions_append A B t]

theorem allEntries_append (A B : List (LayerIters α)) :
    allEntries (A ++ B) = allEntries A ++ allEntries B := by
  simp [allEntries]

theorem mentions_ne_nil_iff_mem {S : List (LayerIters α)} {t : α} :
    mentions S t ≠ [] ↔ t ∈ allEntries S := by
  induction S with
  | nil => simp [mentions, allEntries]
  | cons x r ih =>
    rw [mem_allEntries_cons]
    by_cases h1 : t ∈ x.1
    · rw [mentions, if_pos h1]
      simp [h1]
    · by_cases h2 : t ∈ x.2
      · rw [mentions, if_neg h1, if_pos h2]
        simp [h2]
      · rw [mentions_skip h1 h2, ih]
        simp [h1, h2]

theorem netAdds_mem {S : List (LayerIters α)} {t : α} :
    t ∈ netAdds S ↔ changeOf S t = some true := by
  rw [netAdds, List.mem_filter, List.mem_dedup, decide_eq_true_iff]
  constructor
  · exact fun h => h.2
  · intro h
    refine ⟨?_, h⟩
    rw [← mentions_ne_nil_iff_mem]
    intro hnil
    rw [changeOf, hnil] at h
    simp at h

theorem netRems_mem {S : List (LayerIters α)} {t : α} :
    t ∈ netRems S ↔ changeOf S t = some false := by
  rw [netRems, List.mem_filter, List.mem_dedup, decide_eq_true_iff]
  constructor
  · exact fun h => h.2
  · intro h
    refine ⟨?_, h⟩
    rw [← mentions_ne_nil_iff_mem]
    intro hnil
    rw [changeOf, hnil] at h
    simp at h

theorem altOk_even_append : ∀ (mA mB : List Bool), altOk (mA ++ mB) = true →
    mA.length % 2 = 0 → (mA ++ mB).head?.getD false = mB.head?.getD false
  | [], mB, _, _ => rfl
  | [b], mB, _, hlen => by simp at hlen
  | b :: b2 :: mA2, mB, h, hlen => by
    have hall : altOk (b :: b2 :: (mA2 ++ mB)) = true := by simpa using h
    have hb2 : b2 = !b := by
      rw [altOk, Bool.and_eq_true, bne_iff_ne] at hall
      cases b <;> cases b2 <;> simp_all
    have h2 : altOk (b2 :: (mA2 ++ mB)) = true := by
      rw [altOk, Bool.and_eq_true] at hall
      exact hall.2
    cases hA2 : mA2 with
    | nil =>
      subst hA2
      cases hB : mB with
      | nil =>
        subst hB
        have : b2 = true := by
          simp only [List.nil_append, List.append_nil] at h2
          rw [altOk] at h2
          exact h2
        simp only [List.append_nil, List.head?_cons, Option.getD_some, List.head?_nil,
          Option.getD_none]
        rw [hb2] at this
        cases b
        · rfl
        · simp at this
      | cons c mB2 =>
        subst hB
        have hc : c = !b2 := by
          simp only [List.nil_append] at h2
          rw [altOk, Bool.and_eq_true, bne_iff_ne] at h2
          cases b2 <;> cases c <;> simp_all
        simp only [List.cons_append, List.nil_append, List.head?_cons, Option.getD_some]
        rw [hc, hb2]
        cases b <;> rfl
    | cons b3 mA3 =>
      subst hA2
      have h3 : altOk (b3 :: (mA3 ++ mB)) = true := by
        simp only [List.cons_append] at h2
        rw [altOk, Bool.and_eq_true] at h2
        exact h2.2
      have hb3 : b3 = !b2 := by
        simp only [List.cons_append] at h2
        rw [altOk, Bool.and_eq_true, bne_iff_ne] at h2
        cases b2 <;> cases b3 <;> simp_all
      have hlen3 : (b3 :: mA3).length % 2 = 0 := by
        simp only [List.length_cons] at hlen ⊢
        omega
      have ih := altOk_even_append (b3 :: mA3) mB (by simpa using h3) hlen3
      simp only [List.cons_append, List.head?_cons, Option.getD_some] at ih ⊢
      rw [← ih, hb3, hb2]
      cases b <;> rfl

theorem compress_effective {A B : List (LayerIters α)}
    (hok : stackOk (A ++ B) = true) (t : α) :
    effectiveB (stackChanges A :: B) t = effectiveB (A ++ B) t := by
  have hcomp : effectiveB (stackChanges A :: B) t =
      if t ∈ netAdds A then true else if t ∈ netRems A then false
      else effectiveB B t := rfl
  by_cases hnil : mentions A t = []
  · have hco : changeOf A t = none := by
      rw [changeOf, hnil]
      simp
    have hna : t ∉ netAdds A := by
      rw [netAdds_mem, hco]
      simp
    have hnr : t ∉ netRems A := by
      rw [netRems_mem, hco]
      simp
    rw [hcomp, if_neg hna, if_neg hnr, effectiveB_eq_mentions_head,
      effectiveB_eq_mentions_head, mentions_append, hnil, List.nil_append]
  · have hmemA : t ∈ allEntries A := mentions_ne_nil_iff_mem.mp hnil
    have hmem : t ∈ allEntries (A ++ B) := by
      rw [allEntries_append]
      exact List.mem_append_left _ hmemA
    have halt : altOk (mentions (A ++ B) t) = true := stackOk_alt hok hmem
    rw [mentions_append] at halt
    by_cases hpar : (mentions A t).length % 2 = 1
    · cases hm : mentions A t with
      | nil => exact absurd hm hnil
      | cons c rest =>
        have hco : changeOf A t = some c := by
          rw [changeOf, if_pos hpar, hm]
          rfl
        have hhead : (mentions (A ++ B) t).head? = some c := by
          rw [mentions_append, hm]
          rfl
        cases c with
        | true =>
          have hna : t ∈ netAdds A := netAdds_mem.mpr hco
          rw [hcomp, if_pos hna, effectiveB_eq_mentions_head, hhead]
          rfl
        | false =>
          have hna : t ∉ netAdds A := by
            rw [netAdds_mem, hco]
            simp
          have hnr : t ∈ netRems A := netRems_mem.mpr hco
          rw [hcomp, if_neg hna, if_pos hnr, effectiveB_eq_mentions_head, hhead]
          rfl
    · have hpar2 : (mentions A t).length % 2 = 0 := by omega
      have hco : changeOf A t = none := by
        rw [changeOf, if_neg hpar]
      have hna : t ∉ netAdds A := by
        rw [netAdds_mem, hco]
        simp
      have hnr : t ∉ netRems A := by
        rw [netRems_mem, hco]
        simp
      have heven := altOk_even_append (mentions A t) (mentions B t) halt hpar2
      rw [hcomp, if_neg hna, if_neg hnr, effectiveB_eq_mentions_head,
        effectiveB_eq_mentions_head, mentions_append, heven]

end RollupLemmas

section ClaimsC2C3

/-- C2: delta_rollup produces a base layer whose effective triple stream
equals the input layer stack's effective triple stream, the same triples in
the same order. In delta_rollup the triple ids are fed to the base builder
unchanged; the id-maps built from the merged dictionaries translate the
unchanged ids back to the original dictionary entries, so resolving either
stream through its dictionaries yields identical entries. -/
theorem delta_rollup_preserves_effective_stream (S : List (LayerIters IdTriple)) :
    mergeTriples (delta_rollup S) = mergeTriples S := by
  show mergeAux (sumPosLen [(mergeTriples S, [])]) [(mergeTriples S, [])] = mergeTriples S
  have hlen : sumPosLen [((mergeTriples S : List IdTriple), ([] : List IdTriple))] =
      (mergeTriples S).length := by
    simp [sumPosLen]
  rw [hlen]
  exact mergeAux_single _ _ (le_refl _)

/-- C3: the imprecise delta rollup, which compresses only the in-memory
layers above the safe bound and leaves the layers between the bound and
upto in place, yields the same effective triple set as the full delta
rollup with the same bound, and both equal the original stack's effective
set. S1 is the in-memory portion above the bound, S2 the layers between
the bound and upto, S3 the stack of upto. -/
theorem imprecise_rollup_matches_full_rollup
    (S1 S2 S3 : List (LayerIters IdTriple))
    (hok : stackOk (S1 ++ S2 ++ S3) = true) :
    ∀ t, effectiveB (imprecise_delta_rollup_upto S1 (S2 ++ S3)) t =
        effectiveB (delta_rollup_upto (S1 ++ S2) S3) t ∧
      effectiveB (delta_rollup_upto (S1 ++ S2) S3) t =
        effectiveB (S1 ++ S2 ++ S3) t := by
  intro t
  have hassoc : S1 ++ S2 ++ S3 = S1 ++ (S2 ++ S3) := List.append_assoc S1 S2 S3
  have h1 : effectiveB (stackChanges S1 :: (S2 ++ S3)) t =
      effectiveB (S1 ++ (S2 ++ S3)) t :=
    compress_effective (by rw [← hassoc]; exact hok) t
  have h2 : effectiveB (stackChanges (S1 ++ S2) :: S3) t =
      effectiveB (S1 ++ S2 ++ S3) t :=
    compress_effective hok t
  constructor
  · rw [imprecise_delta_rollup_upto, delta_rollup_upto, h1, h2, hassoc]
  · rw [delta_rollup_upto, h2]

/-- Witness for C3 on a three-portion stack: the in-memory leaf removes
(1,1,2); the middle layer adds (2,1,1); the base adds (1,1,2). -/
theorem imprecise_rollup_matches_full_rollup_witness :
    stackOk ([(([] : List IdTriple), [IdTriple.new 1 1 2])] ++
        [([IdTriple.new 2 1 1], ([] : List IdTriple))] ++
        [([IdTriple.new 1 1 2], ([] : List IdTriple))]) = true ∧
      ∀ t, effectiveB (imprecise_delta_rollup_upto
            [(([] : List IdTriple), [IdTriple.new 1 1 2])]
            ([([IdTriple.new 2 1 1], ([] : List IdTriple))] ++
              [([IdTriple.new 1 1 2], ([] : List IdTriple))])) t =
          effectiveB (delta_rollup_upto
            ([(([] : List IdTriple), [IdTriple.new 1 1 2])] ++
              [([IdTriple.new 2 1 1], ([] : List IdTriple))])
            [([IdTriple.new 1 1 2], ([] : List IdTriple))]) t ∧
        effectiveB (delta_rollup_upto
            ([(([] : List IdTriple), [IdTriple.new 1 1 2])] ++
              [([IdTriple.new 2 1 1], ([] : List IdTriple))])
            [([IdTriple.new 1 1 2], ([] : List IdTriple))]) t =
          effectiveB ([(([] : List IdTriple), [IdTriple.new 1 1 2])] ++
            [([IdTriple.new 2 1 1], ([] : List IdTriple))] ++
            [([IdTriple.new 1 1 2], ([] : List IdTriple))]) t :=
  ⟨by decide, imprecise_rollup_matches_full_rollup _ _ _ (by decide)⟩

end ClaimsC2C3

section ClaimC10

/-- C10: seeking a subject with predicate id 0 leaves the iterator in
exactly the state seek_subject produces, so the triples subsequently
yielded are the same. This is the first branch of
seek_subject_predicate_ref. -/
theorem seek_subject_predicate_zero_eq_seek_subject (L : TripleLayer) (s : ℕ) :
    seek_subject_predicate L s 0 = seek_subject L s ∧
      toTripleList L (seek_subject_predicate L s 0) =
        toTripleList L (seek_subject L s) := by
  have h : seek_subject_predicate L s 0 = seek_subject L s := by
    rw [seek_subject_predicate, if_pos rfl]
  exact ⟨h, by rw [h]⟩

end ClaimC10

section SubjectIteratorLemmas

theorem lenSum_zero {β : Type} (g : List (List β)) : lenSum g 0 = 0 := rfl

theorem lenSum_succ {β : Type} : ∀ (g : List (List β)) (k : ℕ), k < g.length →
    lenSum g (k + 1) = lenSum g k + (g.getD k []).length
  | [], k, h => by simp at h
  | x :: r, 0, _ => by simp [lenSum]
  | x :: r, k + 1, h => by
    have ih := lenSum_succ r k (by simpa using h)
    simp only [lenSum, List.take_succ_cons, List.map_cons, List.sum_cons,
      List.getD_cons_succ] at ih ⊢
    omega

theorem lenSum_full {β : Type} : ∀ (g : List (List β)),
    lenSum g g.length = g.flatten.length
  | [] => rfl
  | x :: r => by
    have ih := lenSum_full r
    simp only [lenSum, List.length_cons, List.take_succ_cons, List.map_cons,
      List.sum_cons, List.flatten_cons, List.length_append] at ih ⊢
    omega

theorem flatten_getD {β : Type} (d : β) : ∀ (g : List (List β)) (k j : ℕ),
    k < g.length → j < (g.getD k []).length →
      g.flatten.getD (lenSum g k + j) d = (g.getD k []).getD j d
  | [], k, j, hk, _ => by simp at hk
  | x :: r, 0, j, _, hj => by
    simp only [List.getD_cons_zero] at hj ⊢
    simp only [lenSum, List.take_zero, List.map_nil, List.sum_nil, Nat.zero_add,
      List.flatten_cons]
    rw [List.getD_eq_getElem?_getD, List.getElem?_append_left hj,
      ← List.getD_eq_getElem?_getD]
  | x :: r, k + 1, j, hk, hj => by
    have ih := flatten_getD d r k j (by simpa using hk) (by simpa using hj)
    simp only [lenSum, List.take_succ_cons, List.map_cons, List.sum_cons,
      List.getD_cons_succ, List.flatten_cons] at ih ⊢
    rw [List.getD_eq_getElem?_getD, Nat.add_assoc,
      List.getElem?_append_right (by omega), Nat.add_sub_cancel_left,
      ← List.getD_eq_getElem?_getD]
    exact ih

theorem pos_lt_flatten {β : Type} : ∀ (g : List (List β)) (k j : ℕ),
    k < g.length → j < (g.getD k []).length →
      lenSum g k + j < g.flatten.length
  | [], k, j, hk, _ => by simp at hk
  | x :: r, 0, j, _, hj => by
    simp only [List.getD_cons_zero] at hj
    simp only [lenSum, List.take_zero, List.map_nil, List.sum_nil, Nat.zero_add,
      List.flatten_cons, List.length_append]
    omega
  | x :: r, k + 1, j, hk, hj => by
    have ih := pos_lt_flatten r k j (by simpa using hk) (by simpa using hj)
    simp only [lenSum, List.take_succ_cons, List.map_cons, List.sum_cons,
      List.flatten_cons, List.length_append] at ih ⊢
    omega

theorem groupBits_group_length (grp : List ℕ) (h : grp ≠ []) :
    (List.replicate (grp.length - 1) false ++ [true]).length = grp.length := by
  have : 1 ≤ grp.length := List.length_pos.mpr h
  simp only [List.length_append, List.length_replicate, List.length_cons,
    List.length_nil]
  omega

theorem groupBits_entry (grp : List ℕ) (j : ℕ) (hne : grp ≠ [])
    (hj : j < grp.length) :
    (List.replicate (grp.length - 1) false ++ [true]).getD j false =
      decide (j + 1 = grp.length) := by
  have h1 : 1 ≤ grp.length := List.length_pos.mpr hne
  rcases Nat.lt_or_ge j (grp.length - 1) with hlt | hge
  · rw [List.getD_eq_getElem?_getD,
      List.getElem?_append_left (by simpa using hlt)]
    rw [List.getElem?_replicate, if_pos hlt]
    have : ¬ (j + 1 = grp.length) := by omega
    simp [this]
  · have hj2 : j = grp.length - 1 := by omega
    subst hj2
    rw [List.getD_eq_getElem?_getD,
      List.getElem?_append_right (by simp)]
    simp only [List.length_replicate, Nat.sub_self, List.getElem?_cons_zero]
    have : grp.length - 1 + 1 = grp.length := by omega
    simp [this]

theorem groupBits_getD : ∀ (g : List (List ℕ)) (k j : ℕ),
    (∀ grp ∈ g, grp ≠ []) → k < g.length → j < (g.getD k []).length →
      bit_at_pos g (lenSum g k + j) = decide (j + 1 = (g.getD k []).length)
  | [], k, j, _, hk, _ => by simp at hk
  | x :: r, 0, j, hne, _, hj => by
    simp only [List.getD_cons_zero] at hj ⊢
    have hxne : x ≠ [] := hne x (List.mem_cons_self _ _)
    rw [bit_at_pos, groupBits, List.map_cons, List.flatten_cons]
    simp only [lenSum, List.take_zero, List.map_nil, List.sum_nil, Nat.zero_add]
    rw [List.getD_eq_getElem?_getD,
      List.getElem?_append_left (by rw [groupBits_group_length x hxne]; exact hj),
      ← List.getD_eq_getElem?_getD]
    exact groupBits_entry x j hxne hj
  | x :: r, k + 1, j, hne, hk, hj => by
    have hxne : x ≠ [] := hne x (List.mem_cons_self _ _)
    have ih := groupBits_getD r k j (fun grp hg => hne grp (List.mem_cons_of_mem _ hg))
      (by simpa using hk) (by simpa using hj)
    simp only [List.getD_cons_succ] at hj ⊢
    rw [bit_at_pos, groupBits, List.map_cons, List.flatten_cons]
    simp only [lenSum, List.take_succ_cons, List.map_cons, List.sum_cons]
    rw [List.getD_eq_getElem?_getD, Nat.add_assoc,
      List.getElem?_append_right (by rw [groupBits_group_length x hxne]; omega)]
    rw [groupBits_group_length x hxne, Nat.add_sub_cancel_left,
      ← List.getD_eq_getElem?_getD]
    exact ih

theorem getD_map_lt {β γ : Type} (f : β → γ) (l : List β) (k : ℕ) (d : γ) (d2 : β)
    (h : k < l.length) : (l.map f).getD k d = f (l.getD k d2) := by
  rw [List.getD_eq_getElem?_getD, List.getElem?_map, List.getD_eq_getElem?_getD,
    List.getElem?_eq_getElem h]
  simp

theorem s_p_of_length (D : LayerDesc) : (s_p_of D).length = D.length := by
  simp [s_p_of]

theorem s_p_of_getD (D : LayerDesc) (k : ℕ) (h : k < D.length) :
    (s_p_of D).getD k [] =
      (if (D.getD k (0, [])).2.isEmpty then [0]
        else (D.getD k (0, [])).2.map Prod.fst) := by
  rw [s_p_of, getD_map_lt _ D k [] (0, []) h]

theorem s_p_groups_ne (D : LayerDesc) : ∀ grp ∈ s_p_of D, grp ≠ [] := by
  intro grp hg
  rw [s_p_of, List.mem_map] at hg
  obtain ⟨r, _, rfl⟩ := hg
  by_cases he : r.2.isEmpty
  · rw [if_pos he]
    simp
  · rw [if_neg he]
    simp only [ne_eq, List.map_eq_nil_iff]
    exact fun hc => he (by rw [hc]; rfl)

theorem sp_o_groups_ne (D : LayerDesc) (hw : rowsWf D = true) :
    ∀ grp ∈ sp_o_of D, grp ≠ [] := by
  intro grp hg
  rw [sp_o_of, List.mem_flatten] at hg
  obtain ⟨gs, hgs, hmem⟩ := hg
  rw [List.mem_map] at hgs
  obtain ⟨r, hr, rfl⟩ := hgs
  rw [rowObjGroups] at hmem
  by_cases he : r.2.isEmpty
  · rw [if_pos he] at hmem
    simp only [List.mem_cons, List.not_mem_nil, or_false] at hmem
    subst hmem
    simp
  · rw [if_neg he] at hmem
    rw [List.mem_map] at hmem
    obtain ⟨po, hpo, rfl⟩ := hmem
    have hrw := List.all_eq_true.mp hw r hr
    rw [Bool.and_eq_true, List.all_eq_true] at hrw
    have hpw := hrw.2 po hpo
    rw [Bool.and_eq_true, Bool.and_eq_true, Bool.and_eq_true] at hpw
    have := hpw.1.1.2
    simpa using this

theorem widths_eq (D : LayerDesc) :
    (D.map rowObjGroups).map List.length = (s_p_of D).map List.length := by
  induction D with
  | nil => rfl
  | cons r R ih =>
    simp only [List.map_cons, s_p_of] at ih ⊢
    rw [ih]
    by_cases he : r.2.isEmpty
    · rw [rowObjGroups, if_pos he, if_pos he]
      rfl
    · rw [rowObjGroups, if_neg he, if_neg he]
      simp

theorem lenSum_rows_eq (D : LayerDesc) (k : ℕ) :
    lenSum (D.map rowObjGroups) k = lenSum (s_p_of D) k := by
  rw [lenSum, lenSum, List.map_take, List.map_take, widths_eq]

theorem rowObjGroups_length (r : ℕ × List (ℕ × List ℕ)) :
    (rowObjGroups r).length =
      (if r.2.isEmpty then [0] else r.2.map Prod.fst).length := by
  by_cases he : r.2.isEmpty
  · rw [rowObjGroups, if_pos he, if_pos he]
    rfl
  · rw [rowObjGroups, if_neg he, if_neg he]
    simp

theorem sp_o_groups_count (D : LayerDesc) :
    (sp_o_of D).length = (s_p_of D).flatten.length := by
  have h1 : (sp_o_of D).length = lenSum (D.map rowObjGroups) (D.map rowObjGroups).length := by
    rw [lenSum_full]
    rfl
  rw [h1, List.length_map, ← s_p_of_length D, lenSum_rows_eq, lenSum_full]

theorem spo_group_at (D : LayerDesc) (k j : ℕ) (hk : k < D.length)
    (hj : j < ((s_p_of D).getD k []).length) :
    (sp_o_of D).getD (lenSum (s_p_of D) k + j) [] =
      (rowObjGroups (D.getD k (0, []))).getD j [] := by
  have hk2 : k < (D.map rowObjGroups).length := by simpa using hk
  have hgd : (D.map rowObjGroups).getD k [] = rowObjGroups (D.getD k (0, [])) :=
    getD_map_lt _ D k [] (0, []) hk
  have hj2 : j < ((D.map rowObjGroups).getD k []).length := by
    rw [hgd, rowObjGroups_length]
    rw [s_p_of_getD D k hk] at hj
    exact hj
  have := flatten_getD ([] : List ℕ) (D.map rowObjGroups) k j hk2 hj2
  rw [lenSum_rows_eq] at this
  rw [show sp_o_of D = (D.map rowObjGroups).flatten from rfl, this, hgd]

theorem nextAux_congr (L : TripleLayer) : ∀ (f1 f2 : ℕ) (st : SubjectIterState),
    right_count L.sp_o < st.sp_o_position + f1 →
    right_count L.sp_o < st.sp_o_position + f2 →
      nextAux L f1 st = nextAux L f2 st := by
  intro f1
  induction f1 with
  | zero =>
    intro f2 st h1 h2
    cases f2 with
    | zero => rfl
    | succ k =>
      rw [nextAux, nextAux, if_pos (by omega)]
  | succ k ih =>
    intro f2 st h1 h2
    cases f2 with
    | zero =>
      rw [nextAux, nextAux, if_pos (by omega)]
    | succ k2 =>
      rw [nextAux, nextAux]
      by_cases hend : st.sp_o_position ≥ right_count L.sp_o
      · rw [if_pos hend, if_pos hend]
      · rw [if_neg hend, if_neg hend]
        by_cases hpred : num_at_pos L.s_p st.s_p_position = 0
        · rw [if_pos hpred, if_pos hpred]
          exact ih k2 _ (by simp only []; omega) (by simp only []; omega)
        · rw [if_neg hpred, if_neg hpred]
          by_cases hobj : num_at_pos L.sp_o st.sp_o_position = 0
          · rw [if_pos hobj, if_pos hobj]
            exact ih k2 _ (by simp only []; omega) (by simp only []; omega)
          · rw [if_neg hobj, if_neg hobj]

theorem getD_mem {β : Type} {l : List β} {n : ℕ} (d : β) (h : n < l.length) :
    l.getD n d ∈ l := by
  rw [List.getD_eq_getElem?_getD, List.getElem?_eq_getElem h]
  exact List.getElem_mem h

theorem drop_eq_getD_cons {β : Type} {l : List β} {m : ℕ} (d : β)
    (h : m < l.length) : l.drop m = l.getD m d :: l.drop (m + 1) := by
  rw [List.getD_eq_getElem?_getD, List.getElem?_eq_getElem h]
  exact List.drop_eq_getElem_cons h

theorem row_not_isEmpty {D : LayerDesc} {k j : ℕ}
    (hj : j < (D.getD k (0, [])).2.length) :
    (D.getD k (0, [])).2.isEmpty = false := by
  cases hrow : (D.getD k (0, [])).2 with
  | nil => rw [hrow] at hj; simp at hj
  | cons a r => rfl

theorem s_p_group_of_row {D : LayerDesc} {k : ℕ} (hk : k < D.length)
    (hne : (D.getD k (0, [])).2.isEmpty = false) :
    (s_p_of D).getD k [] = (D.getD k (0, [])).2.map Prod.fst := by
  rw [s_p_of_getD D k hk, hne]
  rfl

theorem sp_o_group_of_row {D : LayerDesc} {k j : ℕ} (hk : k < D.length)
    (hj : j < (D.getD k (0, [])).2.length) :
    (sp_o_of D).getD (lenSum (s_p_of D) k + j) [] =
      ((D.getD k (0, [])).2.getD j (0, [])).2 := by
  have hne := row_not_isEmpty hj
  have hj2 : j < ((s_p_of D).getD k []).length := by
    rw [s_p_group_of_row hk hne]
    simpa using hj
  rw [spo_group_at D k j hk hj2, rowObjGroups, hne]
  simp only [Bool.false_eq_true, if_false]
  exact getD_map_lt _ _ j [] (0, []) hj

theorem stateAt_succ_of_placeholder {D : LayerDesc} {k : ℕ} (hk : k < D.length)
    (he : (D.getD k (0, [])).2.isEmpty = true) :
    lenSum (s_p_of D) (k + 1) = lenSum (s_p_of D) k + 1 ∧
      lenSum (sp_o_of D) (lenSum (s_p_of D) k + 1) =
        lenSum (sp_o_of D) (lenSum (s_p_of D) k) + 1 := by
  have hk2 : k < (s_p_of D).length := by rw [s_p_of_length]; exact hk
  have hgrp : (s_p_of D).getD k [] = [0] := by
    rw [s_p_of_getD D k hk, he]
    rfl
  constructor
  · rw [lenSum_succ _ k hk2, hgrp]
    rfl
  · have hkpos : lenSum (s_p_of D) k < (sp_o_of D).length := by
      rw [sp_o_groups_count]
      have := pos_lt_flatten (s_p_of D) k 0 hk2 (by rw [hgrp]; simp)
      simpa using this
    rw [lenSum_succ _ _ hkpos]
    have hspo : (sp_o_of D).getD (lenSum (s_p_of D) k) [] = [0] := by
      have := spo_group_at D k 0 hk (by rw [hgrp]; simp)
      simp only [Nat.add_zero] at this
      rw [this, rowObjGroups, he]
      rfl
    rw [hspo]
    rfl

theorem nextAux_placeholder (sparse : Bool) (D : LayerDesc) (k f : ℕ)
    (hk : k < D.length) (he : (D.getD k (0, [])).2.isEmpty = true) :
    nextAux (layerOf sparse D) (f + 1) (stateAt D k) =
      nextAux (layerOf sparse D) f (stateAt D (k + 1)) := by
  have hk2 : k < (s_p_of D).length := by rw [s_p_of_length]; exact hk
  have hgrp : (s_p_of D).getD k [] = [0] := by
    rw [s_p_of_getD D k hk, he]
    rfl
  have h01 : (0 : ℕ) < ((s_p_of D).getD k []).length := by rw [hgrp]; simp
  have hkpos : lenSum (s_p_of D) k < (sp_o_of D).length := by
    rw [sp_o_groups_count]
    have := pos_lt_flatten (s_p_of D) k 0 hk2 h01
    simpa using this
  have hspo : (sp_o_of D).getD (lenSum (s_p_of D) k) [] = [0] := by
    have := spo_group_at D k 0 hk h01
    simp only [Nat.add_zero] at this
    rw [this, rowObjGroups, he]
    rfl
  have hbound : lenSum (sp_o_of D) (lenSum (s_p_of D) k) < right_count (sp_o_of D) := by
    have := pos_lt_flatten (sp_o_of D) (lenSum (s_p_of D) k) 0 hkpos
      (by rw [hspo]; simp)
    simpa [right_count] using this
  have hnum : num_at_pos (s_p_of D) (lenSum (s_p_of D) k) = 0 := by
    have := flatten_getD 0 (s_p_of D) k 0 hk2 h01
    simp only [Nat.add_zero] at this
    rw [num_at_pos, this, hgrp]
    rfl
  have hbit : bit_at_pos (s_p_of D) (lenSum (s_p_of D) k) = true := by
    have := groupBits_getD (s_p_of D) k 0 (s_p_groups_ne D) hk2 h01
    simp only [Nat.add_zero] at this
    rw [this, hgrp]
    rfl
  obtain ⟨hsp1, hsp2⟩ := stateAt_succ_of_placeholder hk he
  rw [nextAux]
  dsimp only [stateAt, layerOf]
  rw [if_neg (by omega), if_pos hnum, hbit, hsp1, hsp2, if_pos rfl]

theorem emit_state_eq (D : LayerDesc) (k j m : ℕ)
    (hk : k < D.length) (hj : j < (D.getD k (0, [])).2.length)
    (_hm : m < ((D.getD k (0, [])).2.getD j (0, [])).2.length) :
    (⟨if decide (m + 1 = ((D.getD k (0, [])).2.getD j (0, [])).2.length) &&
          decide (j + 1 = (D.getD k (0, [])).2.length) then k + 1 else k,
      if decide (m + 1 = ((D.getD k (0, [])).2.getD j (0, [])).2.length) then
          lenSum (s_p_of D) k + j + 1 else lenSum (s_p_of D) k + j,
      lenSum (sp_o_of D) (lenSum (s_p_of D) k + j) + m + 1, none⟩ : SubjectIterState) =
      (if m + 1 = ((D.getD k (0, [])).2.getD j (0, [])).2.length then
        if j + 1 = (D.getD k (0, [])).2.length then stateAt D (k + 1)
        else midState D k (j + 1) 0
      else midState D k j (m + 1)) := by
  have hne := row_not_isEmpty hj
  have hk2 : k < (s_p_of D).length := by rw [s_p_of_length]; exact hk
  have hgrp := s_p_group_of_row hk hne
  have hj2 : j < ((s_p_of D).getD k []).length := by rw [hgrp]; simpa using hj
  have hspPos : lenSum (s_p_of D) k + j < (sp_o_of D).length := by
    rw [sp_o_groups_count]; exact pos_lt_flatten _ k j hk2 hj2
  have hogrp := sp_o_group_of_row hk hj
  have e2 : lenSum (sp_o_of D) (lenSum (s_p_of D) k + j + 1) =
      lenSum (sp_o_of D) (lenSum (s_p_of D) k + j) +
        ((D.getD k (0, [])).2.getD j (0, [])).2.length := by
    rw [lenSum_succ _ _ hspPos, hogrp]
  by_cases hmend : m + 1 = ((D.getD k (0, [])).2.getD j (0, [])).2.length
  · by_cases hjend : j + 1 = (D.getD k (0, [])).2.length
    · rw [if_pos hmend, if_pos hjend]
      have e1 : lenSum (s_p_of D) (k + 1) = lenSum (s_p_of D) k + j + 1 := by
        rw [lenSum_succ _ k hk2, hgrp, List.length_map, ← hjend]
        omega
      have b1 : decide (m + 1 = ((D.getD k (0, [])).2.getD j (0, [])).2.length) = true :=
        decide_eq_true hmend
      have b2 : decide (j + 1 = (D.getD k (0, [])).2.length) = true :=
        decide_eq_true hjend
      rw [b1, b2]
      simp only [stateAt]
      rw [e1, e2, ← hmend]
      simp
      omega
    · rw [if_pos hmend, if_neg hjend]
      have b1 : decide (m + 1 = ((D.getD k (0, [])).2.getD j (0, [])).2.length) = true :=
        decide_eq_true hmend
      have b2 : decide (j + 1 = (D.getD k (0, [])).2.length) = false :=
        decide_eq_false hjend
      have e2b : lenSum (sp_o_of D) (lenSum (s_p_of D) k + (j + 1)) =
          lenSum (sp_o_of D) (lenSum (s_p_of D) k + j) + (m + 1) := by
        rw [← Nat.add_assoc, e2, ← hmend]
      rw [b1, b2]
      simp only [midState]
      rw [e2b]
      simp
      omega
  · rw [if_neg hmend]
    have b1 : decide (m + 1 = ((D.getD k (0, [])).2.getD j (0, [])).2.length) = false :=
      decide_eq_false hmend
    rw [b1]
    simp [midState]
    omega

theorem nextAux_emit (sparse : Bool) (D : LayerDesc) (k j m f : ℕ)
    (hw : rowsWf D = true) (hk : k < D.length)
    (hj : j < (D.getD k (0, [])).2.length)
    (hm : m < ((D.getD k (0, [])).2.getD j (0, [])).2.length)
    (hsub : (if sparse then (D.map Prod.fst).getD k 0 else k + 1) =
      (D.getD k (0, [])).1) :
    nextAux (layerOf sparse D) (f + 1) (midState D k j m) =
      some (IdTriple.new (D.getD k (0, [])).1
          ((D.getD k (0, [])).2.getD j (0, [])).1
          (((D.getD k (0, [])).2.getD j (0, [])).2.getD m 0),
        if m + 1 = ((D.getD k (0, [])).2.getD j (0, [])).2.length then
          if j + 1 = (D.getD k (0, [])).2.length then stateAt D (k + 1)
          else midState D k (j + 1) 0
        else midState D k j (m + 1)) := by
  have hne := row_not_isEmpty hj
  have hk2 : k < (s_p_of D).length := by rw [s_p_of_length]; exact hk
  have hgrp := s_p_group_of_row hk hne
  have hj2 : j < ((s_p_of D).getD k []).length := by rw [hgrp]; simpa using hj
  have hspPos : lenSum (s_p_of D) k + j < (sp_o_of D).length := by
    rw [sp_o_groups_count]; exact pos_lt_flatten _ k j hk2 hj2
  have hogrp := sp_o_group_of_row hk hj
  have hm2 : m < ((sp_o_of D).getD (lenSum (s_p_of D) k + j) []).length := by
    rw [hogrp]; exact hm
  have hoPos : lenSum (sp_o_of D) (lenSum (s_p_of D) k + j) + m <
      (sp_o_of D).flatten.length := pos_lt_flatten _ _ m hspPos hm2
  have hrc : right_count (sp_o_of D) = (sp_o_of D).flatten.length := rfl
  have hnend : ¬ lenSum (sp_o_of D) (lenSum (s_p_of D) k + j) + m ≥
      right_count (sp_o_of D) := by rw [hrc]; omega
  have hpredv : num_at_pos (s_p_of D) (lenSum (s_p_of D) k + j) =
      ((D.getD k (0, [])).2.getD j (0, [])).1 := by
    rw [num_at_pos, flatten_getD 0 _ k j hk2 hj2, hgrp]
    exact getD_map_lt Prod.fst _ j 0 (0, []) hj
  have hrow_mem : D.getD k (0, []) ∈ D := getD_mem (0, []) hk
  have hpo_mem : (D.getD k (0, [])).2.getD j (0, []) ∈ (D.getD k (0, [])).2 :=
    getD_mem (0, []) hj
  have hwr := List.all_eq_true.mp hw _ hrow_mem
  rw [Bool.and_eq_true, List.all_eq_true] at hwr
  have hwp := hwr.2 _ hpo_mem
  rw [Bool.and_eq_true, Bool.and_eq_true, Bool.and_eq_true] at hwp
  have hppos : 0 < ((D.getD k (0, [])).2.getD j (0, [])).1 := by
    have := hwp.1.1.1; simpa using this
  have hpred_ne : ¬ num_at_pos (s_p_of D) (lenSum (s_p_of D) k + j) = 0 := by
    rw [hpredv]; omega
  have hobjv : num_at_pos (sp_o_of D)
      (lenSum (sp_o_of D) (lenSum (s_p_of D) k + j) + m) =
      (((D.getD k (0, [])).2.getD j (0, [])).2).getD m 0 := by
    rw [num_at_pos, flatten_getD 0 _ _ m hspPos hm2, hogrp]
  have hom : (((D.getD k (0, [])).2.getD j (0, [])).2).getD m 0 ∈
      ((D.getD k (0, [])).2.getD j (0, [])).2 := getD_mem 0 hm
  have hopos : 0 < (((D.getD k (0, [])).2.getD j (0, [])).2).getD m 0 := by
    have ha := hwp.2
    rw [List.all_eq_true] at ha
    have := ha _ hom; simpa using this
  have hobj_ne : ¬ (((D.getD k (0, [])).2.getD j (0, [])).2).getD m 0 = 0 := by
    omega
  have hspbit : bit_at_pos (s_p_of D) (lenSum (s_p_of D) k + j) =
      decide (j + 1 = (D.getD k (0, [])).2.length) := by
    rw [groupBits_getD _ k j (s_p_groups_ne D) hk2 hj2, hgrp]
    simp
  have hsobit : bit_at_pos (sp_o_of D)
      (lenSum (sp_o_of D) (lenSum (s_p_of D) k + j) + m) =
      decide (m + 1 = ((D.getD k (0, [])).2.getD j (0, [])).2.length) := by
    rw [groupBits_getD _ _ m (sp_o_groups_ne D hw) hspPos hm2, hogrp]
  cases sparse with
  | false =>
    rw [if_neg (by simp)] at hsub
    have hL : layerOf false D = ⟨none, s_p_of D, sp_o_of D⟩ := rfl
    rw [hL, nextAux]
    simp only [midState]
    rw [if_neg hnend, if_neg hpred_ne, hpredv, hspbit, hsobit, hobjv,
      if_neg hobj_ne]
    rw [emit_state_eq D k j m hk hj hm, hsub]
    rfl
  | true =>
    rw [if_pos rfl] at hsub
    have hL : layerOf true D = ⟨some (D.map Prod.fst), s_p_of D, sp_o_of D⟩ := rfl
    rw [hL, nextAux]
    simp only [midState]
    rw [if_neg hnend, if_neg hpred_ne, hpredv, hspbit, hsobit, hobjv,
      if_neg hobj_ne]
    rw [emit_state_eq D k j m hk hj hm, hsub]
    rfl

theorem triplesOf_cons (r : ℕ × List (ℕ × List ℕ)) (E : LayerDesc) :
    triplesOf (r :: E) = rowTriples r ++ triplesOf E := by
  rw [triplesOf, List.flatMap_cons]
  rfl

theorem midTriples_zero (D : LayerDesc) : ∀ k, k ≤ D.length →
    midTriples D k 0 0 = triplesOf (D.drop k) := by
  intro k hk
  rcases Nat.lt_or_ge k D.length with hlt | hge
  · have hdrop : D.drop k = D.getD k (0, []) :: D.drop (k + 1) :=
      drop_eq_getD_cons (0, []) hlt
    rw [hdrop, triplesOf_cons, midTriples]
    cases hr2 : (D.getD k (0, [])).2 with
    | nil =>
      rw [rowTriples, hr2]
      simp
    | cons po rest2 =>
      rw [rowTriples, hr2]
      simp [List.append_assoc]
  · have hdrop : D.drop k = [] := List.drop_eq_nil_of_le hge
    have hdrop2 : D.drop (k + 1) = [] := List.drop_eq_nil_of_le (by omega)
    have hgd : D.getD k (0, []) = (0, []) := List.getD_eq_default _ _ hge
    rw [midTriples, hgd, hdrop, hdrop2]
    simp [triplesOf]

theorem midTriples_head (D : LayerDesc) (k j m : ℕ) (hk : k < D.length)
    (hj : j < (D.getD k (0, [])).2.length)
    (hm : m < ((D.getD k (0, [])).2.getD j (0, [])).2.length) :
    midTriples D k j m =
      IdTriple.new (D.getD k (0, [])).1 ((D.getD k (0, [])).2.getD j (0, [])).1
          (((D.getD k (0, [])).2.getD j (0, [])).2.getD m 0) ::
        (if m + 1 = ((D.getD k (0, [])).2.getD j (0, [])).2.length then
          if j + 1 = (D.getD k (0, [])).2.length then midTriples D (k + 1) 0 0
          else midTriples D k (j + 1) 0
        else midTriples D k j (m + 1)) := by
  have hdropm : ((D.getD k (0, [])).2.getD j (0, [])).2.drop m =
      ((D.getD k (0, [])).2.getD j (0, [])).2.getD m 0 ::
        ((D.getD k (0, [])).2.getD j (0, [])).2.drop (m + 1) :=
    drop_eq_getD_cons 0 hm
  rw [midTriples, hdropm, List.map_cons, List.cons_append, List.cons_append]
  by_cases hmend : m + 1 = ((D.getD k (0, [])).2.getD j (0, [])).2.length
  · rw [if_pos hmend]
    have hdm : ((D.getD k (0, [])).2.getD j (0, [])).2.drop (m + 1) = [] := by
      rw [hmend]
      exact List.drop_length _
    rw [hdm, List.map_nil, List.nil_append]
    by_cases hjend : j + 1 = (D.getD k (0, [])).2.length
    · rw [if_pos hjend]
      have hdj : (D.getD k (0, [])).2.drop (j + 1) = [] := by
        rw [hjend]
        exact List.drop_length _
      rw [hdj, midTriples_zero D (k + 1) (by omega)]
      simp
    · rw [if_neg hjend]
      have hj1 : j + 1 < (D.getD k (0, [])).2.length := by omega
      have hdj : (D.getD k (0, [])).2.drop (j + 1) =
          (D.getD k (0, [])).2.getD (j + 1) (0, []) ::
            (D.getD k (0, [])).2.drop (j + 2) :=
        drop_eq_getD_cons (0, []) hj1
      rw [hdj, List.flatMap_cons, midTriples, List.drop_zero, List.append_assoc]
  · rw [if_neg hmend, midTriples]

theorem po_objs_pos (D : LayerDesc) (hw : rowsWf D = true) {k j : ℕ}
    (hk : k < D.length) (hj : j < (D.getD k (0, [])).2.length) :
    0 < ((D.getD k (0, [])).2.getD j (0, [])).2.length := by
  have hrow_mem : D.getD k (0, []) ∈ D := getD_mem (0, []) hk
  have hpo_mem : (D.getD k (0, [])).2.getD j (0, []) ∈ (D.getD k (0, [])).2 :=
    getD_mem (0, []) hj
  have hwr := List.all_eq_true.mp hw _ hrow_mem
  rw [Bool.and_eq_true, List.all_eq_true] at hwr
  have hwp := hwr.2 _ hpo_mem
  rw [Bool.and_eq_true, Bool.and_eq_true, Bool.and_eq_true] at hwp
  have hne := hwp.1.1.2
  rw [decide_eq_true_eq] at hne
  exact List.length_pos.mpr hne

theorem placeholder_pos_lt (D : LayerDesc) {k : ℕ} (hk : k < D.length)
    (he : (D.getD k (0, [])).2.isEmpty = true) :
    lenSum (sp_o_of D) (lenSum (s_p_of D) k) < right_count (sp_o_of D) := by
  have hk2 : k < (s_p_of D).length := by rw [s_p_of_length]; exact hk
  have hgrp : (s_p_of D).getD k [] = [0] := by
    rw [s_p_of_getD D k hk, he]
    rfl
  have h01 : (0 : ℕ) < ((s_p_of D).getD k []).length := by rw [hgrp]; simp
  have hkpos : lenSum (s_p_of D) k < (sp_o_of D).length := by
    rw [sp_o_groups_count]
    have := pos_lt_flatten (s_p_of D) k 0 hk2 h01
    simpa using this
  have hspo : (sp_o_of D).getD (lenSum (s_p_of D) k) [] = [0] := by
    have := spo_group_at D k 0 hk h01
    simp only [Nat.add_zero] at this
    rw [this, rowObjGroups, he]
    rfl
  have := pos_lt_flatten (sp_o_of D) (lenSum (s_p_of D) k) 0 hkpos
    (by rw [hspo]; simp)
  simpa [right_count] using this

theorem midTriples_placeholder (D : LayerDesc) {k : ℕ} (hk : k < D.length)
    (he : (D.getD k (0, [])).2.isEmpty = true) :
    midTriples D k 0 0 = midTriples D (k + 1) 0 0 := by
  rw [midTriples_zero D k (by omega), midTriples_zero D (k + 1) (by omega),
    drop_eq_getD_cons (0, []) hk, triplesOf_cons]
  have he2 : (D.getD k (0, [])).2 = [] := by
    cases hc : (D.getD k (0, [])).2 with
    | nil => rfl
    | cons a r => rw [hc] at he; simp at he
  have hrt : rowTriples (D.getD k (0, [])) = [] := by
    rw [rowTriples, he2]
    rfl
  rw [hrt, List.nil_append]

theorem midTriples_end (D : LayerDesc) : midTriples D D.length 0 0 = [] := by
  rw [midTriples_zero D D.length le_rfl, List.drop_length]
  rfl

theorem nextAux_end (sparse : Bool) (D : LayerDesc) (f : ℕ) :
    nextAux (layerOf sparse D) f (midState D D.length 0 0) = none := by
  have h1 : lenSum (s_p_of D) D.length = (sp_o_of D).length := by
    rw [← s_p_of_length D, lenSum_full, ← sp_o_groups_count]
  have h2 : lenSum (sp_o_of D) ((sp_o_of D).length) = right_count (sp_o_of D) :=
    lenSum_full _
  have hge : (midState D D.length 0 0).sp_o_position ≥
      right_count ((layerOf sparse D).sp_o) := by
    show lenSum (sp_o_of D) (lenSum (s_p_of D) D.length + 0) + 0 ≥
      right_count (sp_o_of D)
    simp only [Nat.add_zero]
    rw [h1, h2]
  cases f with
  | zero => rfl
  | succ f2 => rw [nextAux, if_pos hge]

theorem nextAux_mid_emit (sparse : Bool) (D : LayerDesc)
    (hw : rowsWf D = true) (k j m f : ℕ)
    (hsub : (if sparse then (D.map Prod.fst).getD k 0 else k + 1) =
      (D.getD k (0, [])).1)
    (hk : k < D.length) (hj : j < (D.getD k (0, [])).2.length)
    (hm : m < ((D.getD k (0, [])).2.getD j (0, [])).2.length)
    (hf : right_count (sp_o_of D) <
      lenSum (sp_o_of D) (lenSum (s_p_of D) k + j) + m + f) :
    (midTriples D k j m = [] →
        nextAux (layerOf sparse D) f (midState D k j m) = none) ∧
      ∀ t rest, midTriples D k j m = t :: rest →
        ∃ k2 j2 m2, validPos D k2 j2 m2 ∧
          nextAux (layerOf sparse D) f (midState D k j m) =
            some (t, midState D k2 j2 m2) ∧ midTriples D k2 j2 m2 = rest := by
  have hne := row_not_isEmpty hj
  have hk2 : k < (s_p_of D).length := by rw [s_p_of_length]; exact hk
  have hgrp := s_p_group_of_row hk hne
  have hj2 : j < ((s_p_of D).getD k []).length := by rw [hgrp]; simpa using hj
  have hspPos : lenSum (s_p_of D) k + j < (sp_o_of D).length := by
    rw [sp_o_groups_count]; exact pos_lt_flatten _ k j hk2 hj2
  have hogrp := sp_o_group_of_row hk hj
  have hm2 : m < ((sp_o_of D).getD (lenSum (s_p_of D) k + j) []).length := by
    rw [hogrp]; exact hm
  have hoPos : lenSum (sp_o_of D) (lenSum (s_p_of D) k + j) + m <
      (sp_o_of D).flatten.length := pos_lt_flatten _ _ m hspPos hm2
  have hrc : right_count (sp_o_of D) = (sp_o_of D).flatten.length := rfl
  cases f with
  | zero => omega
  | succ f2 =>
    have hstep := nextAux_emit sparse D k j m f2 hw hk hj hm hsub
    have hhead := midTriples_head D k j m hk hj hm
    constructor
    · intro hnil
      rw [hhead] at hnil
      simp at hnil
    · intro t rest hcons
      rw [hhead] at hcons
      injection hcons with h1 h2
      by_cases hmend : m + 1 = ((D.getD k (0, [])).2.getD j (0, [])).2.length
      · by_cases hjend : j + 1 = (D.getD k (0, [])).2.length
        · refine ⟨k + 1, 0, 0, Or.inl ⟨rfl, rfl, by omega⟩, ?_, ?_⟩
          · rw [if_pos hmend, if_pos hjend] at hstep
            rw [← h1]
            exact hstep
          · rw [if_pos hmend, if_pos hjend] at h2
            exact h2
        · refine ⟨k, j + 1, 0,
            Or.inr ⟨hk, by omega, po_objs_pos D hw hk (by omega)⟩, ?_, ?_⟩
          · rw [if_pos hmend, if_neg hjend] at hstep
            rw [← h1]
            exact hstep
          · rw [if_pos hmend, if_neg hjend] at h2
            exact h2
      · refine ⟨k, j, m + 1, Or.inr ⟨hk, hj, by omega⟩, ?_, ?_⟩
        · rw [if_neg hmend] at hstep
          rw [← h1]
          exact hstep
        · rw [if_neg hmend] at h2
          exact h2

theorem nextAux_mid (sparse : Bool) (D : LayerDesc)
    (hw : rowsWf D = true)
    (hsub : ∀ k2, k2 < D.length →
      (if sparse then (D.map Prod.fst).getD k2 0 else k2 + 1) =
        (D.getD k2 (0, [])).1) :
    ∀ n k j m f, D.length - k ≤ n → validPos D k j m →
      right_count (sp_o_of D) <
        lenSum (sp_o_of D) (lenSum (s_p_of D) k + j) + m + f →
      (midTriples D k j m = [] →
          nextAux (layerOf sparse D) f (midState D k j m) = none) ∧
      ∀ t rest, midTriples D k j m = t :: rest →
        ∃ k2 j2 m2, validPos D k2 j2 m2 ∧
          nextAux (layerOf sparse D) f (midState D k j m) =
            some (t, midState D k2 j2 m2) ∧ midTriples D k2 j2 m2 = rest := by
  intro n
  induction n with
  | zero =>
    intro k j m f hn hv hf
    have hk : k = D.length := by
      rcases hv with ⟨_, _, hkle⟩ | ⟨hklt, _, _⟩
      · omega
      · omega
    have hjm : j = 0 ∧ m = 0 := by
      rcases hv with ⟨hj0, hm0, _⟩ | ⟨hklt, _, _⟩
      · exact ⟨hj0, hm0⟩
      · omega
    obtain ⟨rfl, rfl⟩ := hjm
    subst hk
    refine ⟨fun _ => nextAux_end sparse D f, ?_⟩
    intro t rest hcons
    rw [midTriples_end] at hcons
    simp at hcons
  | succ n ih =>
    intro k j m f hn hv hf
    rcases hv with ⟨rfl, rfl, hkle⟩ | ⟨hklt, hj, hm⟩
    · rcases Nat.lt_or_ge k D.length with hklt | hkge
      · cases hrow : (D.getD k (0, [])).2.isEmpty with
        | false =>
          have hj0 : 0 < (D.getD k (0, [])).2.length := by
            cases hc : (D.getD k (0, [])).2 with
            | nil => rw [hc] at hrow; simp at hrow
            | cons a r => simp
          exact nextAux_mid_emit sparse D hw k 0 0 f (hsub k hklt) hklt hj0
            (po_objs_pos D hw hklt hj0) hf
        | true =>
          simp only [Nat.add_zero] at hf
          have hplt := placeholder_pos_lt D hklt hrow
          obtain ⟨hsp1, hsp2⟩ := stateAt_succ_of_placeholder hklt hrow
          cases f with
          | zero => omega
          | succ f2 =>
            have hstep : nextAux (layerOf sparse D) (f2 + 1) (midState D k 0 0) =
                nextAux (layerOf sparse D) f2 (midState D (k + 1) 0 0) :=
              nextAux_placeholder sparse D k f2 hklt hrow
            have hmid := midTriples_placeholder D hklt hrow
            have hrec := ih (k + 1) 0 0 f2 (by omega)
              (Or.inl ⟨rfl, rfl, by omega⟩)
              (by simp only [Nat.add_zero]; rw [hsp1, hsp2]; omega)
            refine ⟨?_, ?_⟩
            · intro hnil
              rw [hmid] at hnil
              rw [hstep]
              exact hrec.1 hnil
            · intro t rest hcons
              rw [hmid] at hcons
              obtain ⟨k2, j2, m2, hv2, heq, hrest⟩ := hrec.2 t rest hcons
              exact ⟨k2, j2, m2, hv2, by rw [hstep]; exact heq, hrest⟩
      · have hk : k = D.length := by omega
        subst hk
        refine ⟨fun _ => nextAux_end sparse D f, ?_⟩
        intro t rest hcons
        rw [midTriples_end] at hcons
        simp at hcons
    · exact nextAux_mid_emit sparse D hw k j m f (hsub k hklt) hklt hj hm hf

theorem runIter_mid (sparse : Bool) (D : LayerDesc) (hw : rowsWf D = true)
    (hsub : ∀ k2, k2 < D.length →
      (if sparse then (D.map Prod.fst).getD k2 0 else k2 + 1) =
        (D.getD k2 (0, [])).1) :
    ∀ fuel k j m, validPos D k j m → (midTriples D k j m).length < fuel →
      runIter (layerOf sparse D) fuel (midState D k j m) = midTriples D k j m := by
  intro fuel
  induction fuel with
  | zero =>
    intro k j m hv hlen
    omega
  | succ f ihf =>
    intro k j m hv hlen
    have hnext := nextAux_mid sparse D hw hsub (D.length - k) k j m
      (right_count (sp_o_of D) + 1) le_rfl hv (by omega)
    have hpeek : nextIter (layerOf sparse D) (midState D k j m) =
        nextAux (layerOf sparse D) (right_count (sp_o_of D) + 1)
          (midState D k j m) := rfl
    rw [runIter]
    cases hmt : midTriples D k j m with
    | nil =>
      rw [hpeek, hnext.1 hmt]
    | cons t rest =>
      obtain ⟨k2, j2, m2, hv2, heq, hrest⟩ := hnext.2 t rest hmt
      rw [hmt] at hlen
      simp only [List.length_cons] at hlen
      have hrun := ihf k2 j2 m2 hv2 (by rw [hrest]; omega)
      rw [hpeek, heq]
      show t :: runIter (layerOf sparse D) f (midState D k2 j2 m2) = t :: rest
      rw [hrun, hrest]

theorem triplesOf_append (A B : LayerDesc) :
    triplesOf (A ++ B) = triplesOf A ++ triplesOf B := by
  rw [triplesOf, List.flatMap_append]
  rfl

theorem triplesOf_length_le (D : LayerDesc) :
    (triplesOf D).length ≤ right_count (sp_o_of D) := by
  induction D with
  | nil => simp [triplesOf, right_count, sp_o_of]
  | cons r E ih =>
    rw [triplesOf_cons]
    have hso : sp_o_of (r :: E) = rowObjGroups r ++ sp_o_of E := by
      rw [sp_o_of, List.map_cons, List.flatten_cons]
      rfl
    have hrc : right_count (sp_o_of (r :: E)) =
        (rowObjGroups r).flatten.length + right_count (sp_o_of E) := by
      rw [hso, right_count, List.flatten_append, List.length_append]
      rfl
    have hrow : (rowTriples r).length ≤ (rowObjGroups r).flatten.length := by
      by_cases he : r.2.isEmpty
      · have he2 : r.2 = [] := by
          cases hc : r.2 with
          | nil => rfl
          | cons a l => rw [hc] at he; simp at he
        rw [rowTriples, rowObjGroups, if_pos he, he2]
        simp
      · rw [rowTriples, rowObjGroups, if_neg he]
        apply le_of_eq
        simp [List.length_flatMap, List.length_flatten, List.map_map,
          Function.comp]
        apply congrArg List.sum
        apply List.map_congr_left
        intro po _
        simp [Function.comp]
    rw [List.length_append, hrc]
    omega

theorem midTriples_zero_length_le (D : LayerDesc) (k : ℕ) (hk : k ≤ D.length) :
    (midTriples D k 0 0).length ≤ right_count (sp_o_of D) := by
  rw [midTriples_zero D k hk]
  have hle := triplesOf_length_le D
  have hsplit : triplesOf D = triplesOf (D.take k) ++ triplesOf (D.drop k) := by
    rw [← triplesOf_append, List.take_append_drop]
  rw [hsplit, List.length_append] at hle
  omega

theorem toTripleList_stateAt (sparse : Bool) (D : LayerDesc)
    (hw : rowsWf D = true)
    (hsub : ∀ k2, k2 < D.length →
      (if sparse then (D.map Prod.fst).getD k2 0 else k2 + 1) =
        (D.getD k2 (0, [])).1)
    (k : ℕ) (hk : k ≤ D.length) :
    toTripleList (layerOf sparse D) (stateAt D k) = triplesOf (D.drop k) := by
  have h := runIter_mid sparse D hw hsub (right_count (sp_o_of D) + 1) k 0 0
    (Or.inl ⟨rfl, rfl, hk⟩)
    (by have := midTriples_zero_length_le D k hk; omega)
  rw [midTriples_zero D k hk] at h
  exact h

theorem toTripleList_pastEnd (sparse : Bool) (D : LayerDesc) (σ : ℕ) :
    toTripleList (layerOf sparse D)
      ⟨σ, right_count (s_p_of D), right_count (sp_o_of D), none⟩ = [] := by
  have hge : (⟨σ, right_count (s_p_of D), right_count (sp_o_of D), none⟩ :
      SubjectIterState).sp_o_position ≥ right_count ((layerOf sparse D).sp_o) := by
    show right_count (sp_o_of D) ≤ right_count (sp_o_of D)
    exact le_rfl
  have hnone : nextIter (layerOf sparse D)
      ⟨σ, right_count (s_p_of D), right_count (sp_o_of D), none⟩ = none := by
    show nextAux (layerOf sparse D) (right_count ((layerOf sparse D).sp_o) + 1)
      ⟨σ, right_count (s_p_of D), right_count (sp_o_of D), none⟩ = none
    rw [nextAux, if_pos hge]
  show runIter (layerOf sparse D) (right_count ((layerOf sparse D).sp_o) + 1)
    ⟨σ, right_count (s_p_of D), right_count (sp_o_of D), none⟩ = []
  rw [runIter, hnone]

theorem sorted_countP_split (s : ℕ) : ∀ (l : List ℕ), strictAsc l = true →
    (∀ x ∈ l.take (l.countP (fun x => decide (x < s))), x < s) ∧
    (∀ x ∈ l.drop (l.countP (fun x => decide (x < s))), s ≤ x) := by
  intro l
  induction l with
  | nil =>
    intro _
    constructor <;> intro x hx <;> simp at hx
  | cons a t iht =>
    intro hsa
    have hta : strictAsc t = true := strictAsc_tail hsa
    have hpw := (List.chain'_iff_pairwise).mp ((strictAsc_iff_chain _).mp hsa)
    rw [List.pairwise_cons] at hpw
    by_cases ha : a < s
    · have hc : (a :: t).countP (fun x => decide (x < s)) =
          t.countP (fun x => decide (x < s)) + 1 := by
        rw [List.countP_cons]
        simp [ha]
      rw [hc]
      constructor
      · intro x hx
        rw [List.take_succ_cons] at hx
        rcases List.mem_cons.mp hx with rfl | hx2
        · exact ha
        · exact (iht hta).1 x hx2
      · intro x hx
        rw [List.drop_succ_cons] at hx
        exact (iht hta).2 x hx
    · have hc : (a :: t).countP (fun x => decide (x < s)) = 0 := by
        rw [List.countP_cons, List.countP_eq_zero.mpr]
        · simp [ha]
        · intro x hx
          have := hpw.1 x hx
          simp only [decide_eq_true_eq]
          omega
      rw [hc]
      constructor
      · intro x hx
        simp at hx
      · intro x hx
        rw [List.drop_zero] at hx
        rcases List.mem_cons.mp hx with rfl | hx2
        · omega
        · have := hpw.1 x hx2
          omega

theorem sparse_seek_bounds (D : LayerDesc) (s : ℕ)
    (hs : strictAsc (D.map Prod.fst) = true) :
    (∀ r ∈ D.take (nearest_index_of (D.map Prod.fst) s), r.1 < s) ∧
    (∀ r ∈ D.drop (nearest_index_of (D.map Prod.fst) s), s ≤ r.1) := by
  have h := sorted_countP_split s (D.map Prod.fst) hs
  constructor
  · intro r hr
    apply h.1
    rw [← List.map_take]
    exact List.mem_map_of_mem _ hr
  · intro r hr
    apply h.2
    rw [← List.map_drop]
    exact List.mem_map_of_mem _ hr

theorem sparse_seek_pastEnd (D : LayerDesc) (s : ℕ)
    (hge : nearest_index_of (D.map Prod.fst) s ≥ D.length) :
    ∀ r ∈ D, r.1 < s := by
  have hlen : (D.map Prod.fst).length = D.length := List.length_map _ _
  have hle := List.countP_le_length (l := D.map Prod.fst)
    (p := fun x => decide (x < s))
  rw [nearest_index_of] at hge
  have heq : (D.map Prod.fst).countP (fun x => decide (x < s)) =
      (D.map Prod.fst).length := by omega
  have hall := List.countP_eq_length.mp heq
  intro r hr
  have := hall r.1 (List.mem_map_of_mem _ hr)
  simpa using this

theorem dense_getD_fst (D : LayerDesc) (hd : denseWf D = true) {i : ℕ}
    (hi : i < D.length) : (D.getD i (0, [])).1 = i + 1 := by
  rw [denseWf, decide_eq_true_eq] at hd
  have h1 : (D.map Prod.fst).getD i 0 = (D.getD i (0, [])).1 :=
    getD_map_lt Prod.fst D i 0 (0, []) hi
  rw [hd] at h1
  have h2 : (List.range' 1 D.length).getD i 0 = 1 + i := by
    rw [List.getD_eq_getElem?_getD, List.getElem?_eq_getElem (by simpa using hi)]
    simp [List.getElem_range']
  omega

theorem getElem_eq_getD (D : LayerDesc) {i : ℕ} (hi : i < D.length) :
    D[i] = D.getD i (0, []) := by
  rw [List.getD_eq_getElem?_getD, List.getElem?_eq_getElem hi]
  rfl

theorem dense_seek_bounds (D : LayerDesc) (s : ℕ) (hd : denseWf D = true)
    (hs1 : 1 ≤ s) :
    (∀ r ∈ D.take (s - 1), r.1 < s) ∧ (∀ r ∈ D.drop (s - 1), s ≤ r.1) := by
  constructor
  · intro r hr
    rw [List.mem_iff_getElem] at hr
    obtain ⟨i, hi, hget⟩ := hr
    have hi2 : i < D.length := by
      have := hi
      rw [List.length_take] at this
      omega
    have hilt : i < s - 1 := by
      have := hi
      rw [List.length_take] at this
      omega
    rw [List.getElem_take] at hget
    have := dense_getD_fst D hd hi2
    rw [← getElem_eq_getD D hi2, hget] at this
    omega
  · intro r hr
    rw [List.mem_iff_getElem] at hr
    obtain ⟨i, hi, hget⟩ := hr
    have hi2 : s - 1 + i < D.length := by
      have := hi
      rw [List.length_drop] at this
      omega
    rw [List.getElem_drop] at hget
    have := dense_getD_fst D hd hi2
    rw [← getElem_eq_getD D hi2, hget] at this
    omega

theorem dense_seek_pastEnd (D : LayerDesc) (s : ℕ) (hd : denseWf D = true)
    (hge : s - 1 ≥ D.length) (hs1 : 1 ≤ s) : ∀ r ∈ D, r.1 < s := by
  intro r hr
  rw [List.mem_iff_getElem] at hr
  obtain ⟨i, hi, hget⟩ := hr
  have := dense_getD_fst D hd hi
  rw [← getElem_eq_getD D hi, hget] at this
  omega

theorem triplesOf_subj_mem (E : LayerDesc) (t : IdTriple) (ht : t ∈ triplesOf E) :
    ∃ r ∈ E, IdTriple.subj t = r.1 := by
  rw [triplesOf, List.mem_flatMap] at ht
  obtain ⟨r, hr, ht2⟩ := ht
  rw [List.mem_flatMap] at ht2
  obtain ⟨po, hpo, ht3⟩ := ht2
  rw [List.mem_map] at ht3
  obtain ⟨o, ho, rfl⟩ := ht3
  exact ⟨r, hr, rfl⟩

theorem filter_triplesOf_ge (E : LayerDesc) (s : ℕ)
    (hall : ∀ r ∈ E, s ≤ r.1) :
    (triplesOf E).filter (fun t => decide (s ≤ IdTriple.subj t)) = triplesOf E := by
  rw [List.filter_eq_self]
  intro t ht
  obtain ⟨r, hr, hsubj⟩ := triplesOf_subj_mem E t ht
  rw [decide_eq_true_eq, hsubj]
  exact hall r hr

theorem filter_triplesOf_lt (E : LayerDesc) (s : ℕ)
    (hall : ∀ r ∈ E, r.1 < s) :
    (triplesOf E).filter (fun t => decide (s ≤ IdTriple.subj t)) = [] := by
  rw [List.filter_eq_nil_iff]
  intro t ht
  obtain ⟨r, hr, hsubj⟩ := triplesOf_subj_mem E t ht
  rw [decide_eq_true_eq, hsubj]
  have := hall r hr
  omega

theorem filter_split (D : LayerDesc) (s σ : ℕ)
    (hlt : ∀ r ∈ D.take σ, r.1 < s) (hge : ∀ r ∈ D.drop σ, s ≤ r.1) :
    (triplesOf D).filter (fun t => decide (s ≤ IdTriple.subj t)) =
      triplesOf (D.drop σ) := by
  conv_lhs => rw [← List.take_append_drop σ D]
  rw [triplesOf_append, List.filter_append, filter_triplesOf_lt _ s hlt,
    filter_triplesOf_ge _ s hge, List.nil_append]

theorem idTriple_lt_subj {t u : IdTriple} (h : IdTriple.subj t < IdTriple.subj u) :
    t < u :=
  (Prod.Lex.lt_iff (ofLex t) (ofLex u)).mpr (Or.inl h)

theorem idTriple_new_lt_mid {a b c b2 c2 : ℕ} (h : b < b2) :
    IdTriple.new a b c < IdTriple.new a b2 c2 :=
  (Prod.Lex.lt_iff _ _).mpr (Or.inr ⟨rfl, (Prod.Lex.lt_iff _ _).mpr (Or.inl h)⟩)

theorem idTriple_new_lt_right {a b c c2 : ℕ} (h : c < c2) :
    IdTriple.new a b c < IdTriple.new a b c2 :=
  (Prod.Lex.lt_iff _ _).mpr
    (Or.inr ⟨rfl, (Prod.Lex.lt_iff _ _).mpr (Or.inr ⟨rfl, h⟩)⟩)

theorem strictAsc_pairwise {l : List ℕ} (h : strictAsc l = true) :
    List.Pairwise (· < ·) l :=
  List.chain'_iff_pairwise.mp ((strictAsc_iff_chain l).mp h)

theorem rowTriples_subj (r : ℕ × List (ℕ × List ℕ)) (t : IdTriple)
    (ht : t ∈ rowTriples r) : IdTriple.subj t = r.1 := by
  rw [rowTriples, List.mem_flatMap] at ht
  obtain ⟨po, hpo, ht2⟩ := ht
  rw [List.mem_map] at ht2
  obtain ⟨o, ho, rfl⟩ := ht2
  rfl

theorem rowTriples_pairwise (r : ℕ × List (ℕ × List ℕ))
    (hp : strictAsc (r.2.map Prod.fst) = true)
    (ho : ∀ po ∈ r.2, strictAsc po.2 = true) :
    List.Pairwise (· < ·) (rowTriples r) := by
  rw [rowTriples, List.flatMap_def, List.pairwise_flatten]
  constructor
  · intro grp hgrp
    rw [List.mem_map] at hgrp
    obtain ⟨po, hpo, rfl⟩ := hgrp
    rw [List.pairwise_map]
    apply List.Pairwise.imp ?_ (strictAsc_pairwise (ho po hpo))
    intro o1 o2 h12
    exact idTriple_new_lt_right h12
  · rw [List.pairwise_map]
    have hpw := strictAsc_pairwise hp
    rw [List.pairwise_map] at hpw
    apply List.Pairwise.imp ?_ hpw
    intro po1 po2 h12 x hx y hy
    rw [List.mem_map] at hx hy
    obtain ⟨o1, _, rfl⟩ := hx
    obtain ⟨o2, _, rfl⟩ := hy
    exact idTriple_new_lt_mid h12

theorem triplesOf_pairwise (D : LayerDesc) (hw : rowsWf D = true)
    (hs : strictAsc (D.map Prod.fst) = true) :
    List.Pairwise (· < ·) (triplesOf D) := by
  have htd : triplesOf D = (D.map rowTriples).flatten := by
    rw [triplesOf, List.flatMap_def]
    rfl
  rw [htd, List.pairwise_flatten]
  constructor
  · intro grp hgrp
    rw [List.mem_map] at hgrp
    obtain ⟨r, hr, rfl⟩ := hgrp
    have hwr := List.all_eq_true.mp hw _ hr
    rw [Bool.and_eq_true, List.all_eq_true] at hwr
    apply rowTriples_pairwise r hwr.1
    intro po hpo
    have hwp := hwr.2 po hpo
    rw [Bool.and_eq_true, Bool.and_eq_true, Bool.and_eq_true] at hwp
    exact hwp.1.2
  · rw [List.pairwise_map]
    have hpw := strictAsc_pairwise hs
    rw [List.pairwise_map] at hpw
    apply List.Pairwise.imp ?_ hpw
    intro r1 r2 h12 x hx y hy
    apply idTriple_lt_subj
    rw [rowTriples_subj r1 x hx, rowTriples_subj r2 y hy]
    exact h12

theorem triplesOf_sorted (D : LayerDesc) (hw : rowsWf D = true)
    (hs : strictAsc (D.map Prod.fst) = true) :
    List.Chain' (· < ·) (triplesOf D) :=
  List.chain'_iff_pairwise.mpr (triplesOf_pairwise D hw hs)

theorem strictAsc_range' : ∀ (n s : ℕ), strictAsc (List.range' s n) = true := by
  intro n
  induction n with
  | zero => intro s; rfl
  | succ n ihn =>
    intro s
    rw [List.range'_succ]
    cases n with
    | zero => rfl
    | succ n2 =>
      rw [List.range'_succ, strictAsc, Bool.and_eq_true]
      refine ⟨by simp, ?_⟩
      rw [← List.range'_succ]
      exact ihn (s + 1)

theorem hsub_of_wf (sparse : Bool) (D : LayerDesc)
    (hx : (if sparse then sparseWf D else denseWf D) = true) :
    ∀ k2, k2 < D.length →
      (if sparse then (D.map Prod.fst).getD k2 0 else k2 + 1) =
        (D.getD k2 (0, [])).1 := by
  intro k2 hk2
  cases sparse with
  | false =>
    rw [if_neg (by simp)]
    rw [if_neg (by simp)] at hx
    exact (dense_getD_fst D hx hk2).symm
  | true =>
    rw [if_pos rfl]
    exact getD_map_lt Prod.fst D k2 0 (0, []) hk2

theorem subjects_asc_of_wf (sparse : Bool) (D : LayerDesc)
    (hx : (if sparse then sparseWf D else denseWf D) = true) :
    strictAsc (D.map Prod.fst) = true := by
  cases sparse with
  | false =>
    rw [if_neg (by simp)] at hx
    rw [denseWf, decide_eq_true_eq] at hx
    rw [hx]
    exact strictAsc_range' _ _
  | true =>
    rw [if_pos rfl] at hx
    rw [sparseWf, Bool.and_eq_true, Bool.and_eq_true] at hx
    exact hx.1.1

theorem left_count_s_p (D : LayerDesc) : left_count (s_p_of D) = D.length := by
  rw [left_count, s_p_of_length]

theorem toTripleList_seek (sparse : Bool) (D : LayerDesc)
    (hw : rowsWf D = true)
    (hx : (if sparse then sparseWf D else denseWf D) = true)
    (s : ℕ) :
    toTripleList (layerOf sparse D) (seek_subject (layerOf sparse D) s) =
      (triplesOf D).filter (fun t => decide (s ≤ IdTriple.subj t)) := by
  have hsub := hsub_of_wf sparse D hx
  by_cases hs0 : s = 0
  · subst hs0
    have hseek : seek_subject (layerOf sparse D) 0 = ⟨0, 0, 0, none⟩ := by
      rw [seek_subject, if_pos rfl]
    rw [hseek, filter_triplesOf_ge D 0 (fun r _ => Nat.zero_le _)]
    have h0 : toTripleList (layerOf sparse D) (stateAt D 0) =
        triplesOf (D.drop 0) :=
      toTripleList_stateAt sparse D hw hsub 0 (Nat.zero_le _)
    rw [List.drop_zero] at h0
    exact h0
  · cases sparse with
    | true =>
      by_cases hrange : nearest_index_of (D.map Prod.fst) s ≥ D.length
      · have hseek : seek_subject (layerOf true D) s =
            ⟨nearest_index_of (D.map Prod.fst) s, right_count (s_p_of D),
              right_count (sp_o_of D), none⟩ := by
          rw [seek_subject, if_neg hs0]
          simp only [layerOf, if_true, Bool.false_eq_true, if_false]
          rw [if_pos (by rw [left_count_s_p]; exact hrange)]
        rw [hseek, toTripleList_pastEnd,
          filter_triplesOf_lt D s (sparse_seek_pastEnd D s hrange)]
      · have hlt : nearest_index_of (D.map Prod.fst) s < D.length := by omega
        have hseek : seek_subject (layerOf true D) s =
            stateAt D (nearest_index_of (D.map Prod.fst) s) := by
          rw [seek_subject, if_neg hs0]
          simp only [layerOf, if_true, Bool.false_eq_true, if_false]
          rw [if_neg (by rw [left_count_s_p]; omega)]
          rfl
        have hb := sparse_seek_bounds D s
          (subjects_asc_of_wf true D hx)
        rw [hseek,
          toTripleList_stateAt true D hw hsub _ (le_of_lt hlt),
          filter_split D s _ hb.1 hb.2]
    | false =>
      by_cases hrange : s - 1 ≥ D.length
      · have hseek : seek_subject (layerOf false D) s =
            ⟨s - 1, right_count (s_p_of D), right_count (sp_o_of D), none⟩ := by
          rw [seek_subject, if_neg hs0]
          simp only [layerOf, if_true, Bool.false_eq_true, if_false]
          rw [if_pos (by rw [left_count_s_p]; exact hrange)]
        rw [hseek, toTripleList_pastEnd, filter_triplesOf_lt D s
          (dense_seek_pastEnd D s (by rw [if_neg (by simp)] at hx; exact hx)
            hrange (by omega))]
      · have hlt : s - 1 < D.length := by omega
        have hseek : seek_subject (layerOf false D) s = stateAt D (s - 1) := by
          rw [seek_subject, if_neg hs0]
          simp only [layerOf, if_true, Bool.false_eq_true, if_false]
          rw [if_neg (by rw [left_count_s_p]; omega)]
          rfl
        have hb := dense_seek_bounds D s
          (by rw [if_neg (by simp)] at hx; exact hx) (by omega)
        rw [hseek, toTripleList_stateAt false D hw hsub _ (le_of_lt hlt),
          filter_split D s _ hb.1 hb.2]

end SubjectIteratorLemmas

section ClaimC4

/-- C4: after seek_subject(s) the per-layer subject iterator yields exactly
the layer's triples with subject at least s (nearest-greater semantics), in
ascending order; seek_subject(0) yields the full sequence; seeking past the
last present subject yields the empty sequence. Shown for both the sparse
(subjects array) and dense indexing modes. -/
theorem seek_subject_yields_suffix (sparse : Bool) (D : LayerDesc) (s : ℕ)
    (hw : rowsWf D = true)
    (hx : (if sparse then sparseWf D else denseWf D) = true) :
    toTripleList (layerOf sparse D) (seek_subject (layerOf sparse D) s) =
      (triplesOf D).filter (fun t => decide (s ≤ IdTriple.subj t)) ∧
    List.Chain' (· < ·)
      (toTripleList (layerOf sparse D) (seek_subject (layerOf sparse D) s)) ∧
    toTripleList (layerOf sparse D) (seek_subject (layerOf sparse D) 0) =
      triplesOf D ∧
    ((∀ r ∈ D, r.1 < s) →
      toTripleList (layerOf sparse D) (seek_subject (layerOf sparse D) s) = []) := by
  have h1 := toTripleList_seek sparse D hw hx s
  have h0 := toTripleList_seek sparse D hw hx 0
  refine ⟨h1, ?_, ?_, ?_⟩
  · rw [h1]
    apply List.chain'_iff_pairwise.mpr
    apply List.Pairwise.sublist (List.filter_sublist _)
    exact triplesOf_pairwise D hw (subjects_asc_of_wf sparse D hx)
  · rw [h0, filter_triplesOf_ge D 0 (fun r _ => Nat.zero_le _)]
  · intro hall
    rw [h1, filter_triplesOf_lt D s hall]

/-- Witness: the spec's example — a sparse layer with subjects 1, 3, 5;
seeking subject 4 yields exactly the triples from subject 5 onward. -/
theorem seek_subject_yields_suffix_witness :
    rowsWf [(1, [(2, [3])]), (3, [(1, [2, 5])]), (5, [(7, [1])])] = true ∧
      toTripleList
          (layerOf true [(1, [(2, [3])]), (3, [(1, [2, 5])]), (5, [(7, [1])])])
          (seek_subject
            (layerOf true [(1, [(2, [3])]), (3, [(1, [2, 5])]), (5, [(7, [1])])])
            4) =
        (triplesOf [(1, [(2, [3])]), (3, [(1, [2, 5])]), (5, [(7, [1])])]).filter
          (fun t => decide (4 ≤ IdTriple.subj t)) :=
  ⟨by decide,
    (seek_subject_yields_suffix true
      [(1, [(2, [3])]), (3, [(1, [2, 5])]), (5, [(7, [1])])] 4
      (by decide) (by decide)).1⟩

end ClaimC4

section TfcLemmas

theorem vbyteDec_encAux (tail : List ℕ) : ∀ f n, n ≤ f →
    vbyteDec (vbyteEncAux f n ++ tail) = some (n, tail) := by
  intro f
  induction f with
  | zero =>
    intro n hn
    have hn0 : n = 0 := by omega
    subst hn0
    rfl
  | succ f ihf =>
    intro n hn
    rw [vbyteEncAux]
    by_cases h : n < 128
    · rw [if_pos h]
      rw [List.cons_append, vbyteDec, if_pos h]
      rfl
    · rw [if_neg h, List.cons_append, vbyteDec, if_neg (by omega)]
      have hdivlt : n / 128 < n :=
        Nat.div_lt_self (by omega) (by omega)
      rw [ihf (n / 128) (by omega)]
      show some (n / 128 * 128 + (n % 128 + 128 - 128), tail) = some (n, tail)
      have hval : n / 128 * 128 + (n % 128 + 128 - 128) = n := by omega
      rw [hval]

theorem vbyteDec_enc (n : ℕ) (tail : List ℕ) :
    vbyteDec (vbyteEnc n ++ tail) = some (n, tail) :=
  vbyteDec_encAux tail n n le_rfl

theorem parseHeaderLoop_build (tail : List ℕ) :
    ∀ (rest : List (List ℕ)) (last : List ℕ),
      parseHeaderLoop rest.length (buildPairs last rest ++ tail) =
        some (List.zipWith commonPrefixLen (last :: rest) rest,
          List.zipWith (fun a b => b.length - commonPrefixLen a b)
            (last :: rest) rest, tail) := by
  intro rest
  induction rest with
  | nil => intro last; rfl
  | cons cur more ih =>
    intro last
    rw [List.length_cons, buildPairs, parseHeaderLoop]
    simp only [List.append_assoc, vbyteDec_enc, ih cur]
    rfl

theorem zipWith_len_drop : ∀ (as bs : List (List ℕ)),
    List.zipWith (fun a b => (b.drop (commonPrefixLen a b)).length) as bs =
      List.zipWith (fun a b => b.length - commonPrefixLen a b) as bs := by
  intro as
  induction as with
  | nil => intro bs; rfl
  | cons a as2 ih =>
    intro bs
    cases bs with
    | nil => rfl
    | cons b bs2 =>
      rw [List.zipWith_cons_cons, List.zipWith_cons_cons, ih, List.length_drop]

theorem buildSuffixes_zipWith : ∀ (rest : List (List ℕ)) (last : List ℕ),
    buildSuffixes last rest =
      List.zipWith (fun a b => b.drop (commonPrefixLen a b)) (last :: rest) rest := by
  intro rest
  induction rest with
  | nil => intro last; rfl
  | cons cur more ih =>
    intro last
    rw [buildSuffixes, ih cur]
    rfl

theorem TfcBlockHeader_parse_cons (n : ℕ) (buf1 : List ℕ) :
    TfcBlockHeader.parse (n :: buf1) =
      match vbyteDec buf1 with
      | none => none
      | some (first_size, buf2) =>
        match parseHeaderLoop (n - 1) buf2 with
        | none => none
        | some (shareds, sizesTail, rest) =>
          some (⟨n, (first_size :: sizesTail ++ List.replicate (8 - n) 0).sum,
            first_size :: sizesTail ++ List.replicate (8 - n) 0,
            shareds ++ List.replicate (7 - (n - 1)) 0⟩, rest) := rfl

theorem TfcBlockHeader_parse_build (xs : List (List ℕ)) (h1 : 1 ≤ xs.length) :
    TfcBlockHeader.parse (build_block_unchecked xs) =
      some (headerOf xs, (regionsOf xs).flatten) := by
  cases xs with
  | nil => simp at h1
  | cons x0 rest =>
    rw [build_block_unchecked]
    simp only [List.cons_append, List.append_assoc]
    rw [TfcBlockHeader_parse_cons]
    have hn1 : (x0 :: rest).length - 1 = rest.length := by simp
    simp only [vbyteDec_enc, hn1, parseHeaderLoop_build]
    have hsizes : x0.length :: List.zipWith
        (fun a b => b.length - commonPrefixLen a b) (x0 :: rest) rest =
        (regionsOf (x0 :: rest)).map List.length := by
      rw [regionsOf, List.map_cons, List.map_zipWith,
        zipWith_len_drop]
      rfl
    have hpayload : x0 :: buildSuffixes x0 rest = regionsOf (x0 :: rest) := by
      rw [buildSuffixes_zipWith]
      rfl
    simp only [headerOf, sizesOfPadded, sharedsPadded, sharedsOf]
    rw [← hsizes, hpayload]
    rfl

theorem TfcBlock_parse_build (xs : List (List ℕ)) (h1 : 1 ≤ xs.length) :
    TfcBlock.parse (build_block_unchecked xs) =
      some (TfcBlock.mk (headerOf xs) ((regionsOf xs).flatten)) := by
  rw [TfcBlock.parse, TfcBlockHeader_parse_build xs h1]
  have hlen : (headerOf xs).buffer_length = ((regionsOf xs).flatten).length := by
    show (sizesOfPadded xs).sum = ((regionsOf xs).flatten).length
    rw [sizesOfPadded, List.sum_append, List.length_flatten]
    simp
  show (if ((regionsOf xs).flatten).length < (headerOf xs).buffer_length then none
      else some (TfcBlock.mk (headerOf xs)
        (((regionsOf xs).flatten).take (headerOf xs).buffer_length))) =
    some (TfcBlock.mk (headerOf xs) ((regionsOf xs).flatten))
  rw [if_neg (by omega), hlen, List.take_length]

theorem commonPrefixLen_le_left : ∀ (a b : List ℕ),
    commonPrefixLen a b ≤ a.length := by
  intro a
  induction a with
  | nil => intro b; rw [commonPrefixLen]; simp
  | cons x as2 ih =>
    intro b
    cases b with
    | nil => rw [commonPrefixLen]; simp
    | cons y bs =>
      rw [commonPrefixLen]
      by_cases h : x = y
      · rw [if_pos h, List.length_cons]
        exact Nat.succ_le_succ (ih bs)
      · rw [if_neg h]
        simp

theorem take_eq_of_le_common : ∀ (a b : List ℕ) (c : ℕ),
    c ≤ commonPrefixLen a b → a.take c = b.take c := by
  intro a
  induction a with
  | nil =>
    intro b c hc
    rw [commonPrefixLen] at hc
    have : c = 0 := by omega
    subst this
    rfl
  | cons x as2 ih =>
    intro b c hc
    cases b with
    | nil =>
      rw [commonPrefixLen] at hc
      have : c = 0 := by omega
      subst this
      rfl
    | cons y bs =>
      rw [commonPrefixLen] at hc
      by_cases h : x = y
      · rw [if_pos h] at hc
        cases c with
        | zero => rfl
        | succ c2 =>
          rw [List.take_succ_cons, List.take_succ_cons, h, ih bs c2 (by omega)]
      · rw [if_neg h] at hc
        have : c = 0 := by omega
        subst this
        rfl

theorem regionsOf_length (xs : List (List ℕ)) :
    (regionsOf xs).length = xs.length := by
  cases xs with
  | nil => rfl
  | cons x0 rest =>
    rw [regionsOf]
    simp [List.length_zipWith]

theorem zipWith_getD {β γ δ : Type} (f : β → γ → δ) (d : δ) (db : β) (dc : γ) :
    ∀ (as : List β) (bs : List γ) (k : ℕ), k < as.length → k < bs.length →
      (List.zipWith f as bs).getD k d = f (as.getD k db) (bs.getD k dc) := by
  intro as
  induction as with
  | nil => intro bs k h _; simp at h
  | cons a as2 ih =>
    intro bs k hk1 hk2
    cases bs with
    | nil => simp at hk2
    | cons b bs2 =>
      cases k with
      | zero => rfl
      | succ k2 =>
        rw [List.zipWith_cons_cons, List.getD_cons_succ, List.getD_cons_succ,
          List.getD_cons_succ]
        exact ih bs2 k2 (by simpa using hk1) (by simpa using hk2)

theorem tail_getD {β : Type} (xs : List β) (k : ℕ) (d : β) :
    xs.tail.getD k d = xs.getD (k + 1) d := by
  cases xs with
  | nil => rfl
  | cons x r => rfl

theorem sharedsOf_getD (xs : List (List ℕ)) (k : ℕ) (hk : k + 1 < xs.length) :
    (sharedsOf xs).getD k 0 =
      commonPrefixLen (xs.getD k []) (xs.getD (k + 1) []) := by
  rw [sharedsOf, zipWith_getD commonPrefixLen 0 [] [] xs xs.tail k (by omega)
    (by rw [List.length_tail]; omega), tail_getD]

theorem regionsOf_getD (xs : List (List ℕ)) (k : ℕ) (hk : k < xs.length) :
    (regionsOf xs).getD k [] =
      (xs.getD k []).drop (sPad (sharedsOf xs) k) := by
  cases xs with
  | nil => simp at hk
  | cons x0 rest =>
    rw [regionsOf]
    cases k with
    | zero =>
      rw [List.getD_cons_zero, sPad, if_pos rfl, List.getD_cons_zero,
        List.drop_zero]
    | succ k2 =>
      rw [List.getD_cons_succ]
      have hk2 : k2 < rest.length := by simpa using hk
      rw [zipWith_getD _ [] [] [] (x0 :: rest) (x0 :: rest).tail k2
        (by simp; omega) (by simp [List.length_tail]; omega)]
      rw [tail_getD, sPad, if_neg (by omega)]
      have : k2 + 1 - 1 = k2 := by omega
      rw [this, sharedsOf_getD (x0 :: rest) k2 (by simpa using hk)]

theorem sizesPadded_getD (xs : List (List ℕ)) (k : ℕ) (hk : k < xs.length) :
    (sizesOfPadded xs).getD k 0 = ((regionsOf xs).getD k []).length := by
  have hk2 : k < ((regionsOf xs).map List.length).length := by
    rw [List.length_map, regionsOf_length]
    exact hk
  rw [sizesOfPadded, List.getD_eq_getElem?_getD,
    List.getElem?_append_left hk2, ← List.getD_eq_getElem?_getD]
  exact getD_map_lt List.length _ k 0 [] (by rw [regionsOf_length]; exact hk)

theorem sizesPadded_take_sum (xs : List (List ℕ)) (k : ℕ) (hk : k ≤ xs.length) :
    ((sizesOfPadded xs).take k).sum = lenSum (regionsOf xs) k := by
  rw [sizesOfPadded, List.take_append_of_le_length
    (by rw [List.length_map, regionsOf_length]; exact hk)]
  rw [← List.map_take]
  rfl

theorem flatten_drop_lenSum {β : Type} : ∀ (g : List (List β)) (k : ℕ),
    g.flatten.drop (lenSum g k) = (g.drop k).flatten := by
  intro g
  induction g with
  | nil => intro k; simp [lenSum]
  | cons a g2 ih =>
    intro k
    cases k with
    | zero => simp [lenSum]
    | succ k2 =>
      have hls : lenSum (a :: g2) (k2 + 1) = a.length + lenSum g2 k2 := by
        rw [lenSum, List.take_succ_cons, List.map_cons, List.sum_cons]
        rfl
      rw [hls, List.flatten_cons, List.drop_append, List.drop_succ_cons, ih]

theorem getD_append_replicate_zero : ∀ (l : List ℕ) (m k : ℕ),
    (l ++ List.replicate m 0).getD k 0 = l.getD k 0 := by
  intro l
  induction l with
  | nil =>
    intro m k
    rw [List.nil_append]
    cases Nat.lt_or_ge k m with
    | inl h =>
      rw [List.getD_eq_getElem?_getD, List.getElem?_eq_getElem (by simpa using h)]
      simp [List.getElem_replicate]
    | inr h =>
      rw [List.getD_eq_getElem?_getD, List.getElem?_eq_none (by simpa using h)]
      rfl
  | cons x l2 ih =>
    intro m k
    cases k with
    | zero => rfl
    | succ k2 =>
      rw [List.cons_append, List.getD_cons_succ, List.getD_cons_succ, ih]

theorem sharedsPadded_getD (xs : List (List ℕ)) (k : ℕ) :
    (sharedsPadded xs).getD k 0 = (sharedsOf xs).getD k 0 := by
  rw [sharedsPadded, getD_append_replicate_zero]

theorem sPad_padded (xs : List (List ℕ)) (k : ℕ) :
    sPad (sharedsPadded xs) k = sPad (sharedsOf xs) k := by
  rw [sPad, sPad, sharedsPadded_getD]

theorem chainRel_of_sPad_eq (sh1 sh2 : List ℕ)
    (h : ∀ k, sPad sh1 k = sPad sh2 k) :
    ∀ (chain : List ℕ) (k t : ℕ), chainRel sh1 k t chain → chainRel sh2 k t chain := by
  intro chain
  induction chain with
  | nil => intro k t _; trivial
  | cons c more ih =>
    intro k t hrel
    obtain ⟨h1, h2, h3⟩ := hrel
    exact ⟨by rw [← h]; exact h1, by rw [← h]; exact h2, ih (k + 1) c h3⟩

theorem getLastD_snoc {β : Type} (w : List β) (a d : β) :
    (w ++ [a]).getLastD d = a := by
  induction w generalizing d with
  | nil => rfl
  | cons x w2 ih => rw [List.cons_append, List.getLastD_cons, ih]

theorem chainRel_snoc (sh : List ℕ) : ∀ (w : List ℕ) (k taken c : ℕ),
    chainRel sh k taken w →
    w.getLastD taken = min (sPad sh (k + w.length)) c →
    c ≤ sPad sh (k + w.length + 1) →
    chainRel sh k taken (w ++ [c]) := by
  intro w
  induction w with
  | nil =>
    intro k taken c _ h1 h2
    refine ⟨?_, ?_, trivial⟩
    · simpa using h1
    · simpa using h2
  | cons c0 w2 ih =>
    intro k taken c hrel h1 h2
    obtain ⟨ht, hc0, hrest⟩ := hrel
    rw [List.getLastD_cons, List.length_cons] at h1
    rw [List.length_cons] at h2
    refine ⟨ht, hc0, ih (k + 1) c0 c hrest ?_ ?_⟩
    · rw [show k + 1 + w2.length = k + (w2.length + 1) from by omega]
      exact h1
    · rw [show k + 1 + w2.length + 1 = k + (w2.length + 1) + 1 from by omega]
      exact h2

theorem chainA (sh : List ℕ) : ∀ m last, last ≤ sPad sh (m + 1) →
    chainRel sh (m - (entryChainAux sh m last).length) 0
      ((entryChainAux sh m last).reverse ++ [last]) ∧
    (entryChainAux sh m last).length ≤ m := by
  intro m
  induction m with
  | zero =>
    intro last hlast
    rw [entryChainAux]
    refine ⟨⟨?_, ?_, trivial⟩, le_rfl⟩
    · simp [sPad]
    · simpa using hlast
  | succ m2 ih =>
    intro last hlast
    rw [entryChainAux]
    by_cases h0 : sh.getD m2 0 = 0
    · rw [if_pos h0]
      refine ⟨⟨?_, ?_, trivial⟩, by simp⟩
      · simp only [List.length_nil, Nat.sub_zero, List.reverse_nil,
          List.nil_append]
        rw [sPad, if_neg (by omega)]
        have : m2 + 1 - 1 = m2 := by omega
        rw [this, h0]
        simp
      · simpa using hlast
    · rw [if_neg h0]
      by_cases hlt : sh.getD m2 0 < last
      · rw [if_pos hlt]
        obtain ⟨ihrel, ihlen⟩ := ih (sh.getD m2 0)
          (by rw [sPad, if_neg (by omega)]; have : m2 + 1 - 1 = m2 := by omega
              rw [this])
        constructor
        · rw [List.reverse_cons, List.length_cons]
          have hpos : m2 + 1 - ((entryChainAux sh m2 (sh.getD m2 0)).length + 1) =
              m2 - (entryChainAux sh m2 (sh.getD m2 0)).length := by omega
          rw [hpos]
          apply chainRel_snoc sh _ _ _ _ ihrel
          · rw [getLastD_snoc]
            have hlen : m2 - (entryChainAux sh m2 (sh.getD m2 0)).length +
                ((entryChainAux sh m2 (sh.getD m2 0)).reverse ++ [sh.getD m2 0]).length =
                m2 + 1 := by
              simp only [List.length_append, List.length_reverse,
                List.length_cons, List.length_nil]
              omega
            rw [hlen, sPad, if_neg (by omega)]
            have h21 : m2 + 1 - 1 = m2 := by omega
            rw [h21]
            have hmin : min (sh.getD m2 0) last = sh.getD m2 0 := by omega
            rw [hmin]
          · have hlen : m2 - (entryChainAux sh m2 (sh.getD m2 0)).length +
                ((entryChainAux sh m2 (sh.getD m2 0)).reverse ++ [sh.getD m2 0]).length + 1 =
                m2 + 1 + 1 := by
              simp only [List.length_append, List.length_reverse,
                List.length_cons, List.length_nil]
              omega
            rw [hlen]
            exact hlast
        · rw [List.length_cons]
          omega
      · rw [if_neg hlt]
        have hle : last ≤ sh.getD m2 0 := by omega
        obtain ⟨ihrel, ihlen⟩ := ih last
          (by rw [sPad, if_neg (by omega)]; have : m2 + 1 - 1 = m2 := by omega
              rw [this]; exact hle)
        constructor
        · rw [List.reverse_cons, List.length_cons]
          have hpos : m2 + 1 - ((entryChainAux sh m2 last).length + 1) =
              m2 - (entryChainAux sh m2 last).length := by omega
          rw [hpos]
          apply chainRel_snoc sh _ _ _ _ ihrel
          · rw [getLastD_snoc]
            have hlen : m2 - (entryChainAux sh m2 last).length +
                ((entryChainAux sh m2 last).reverse ++ [last]).length = m2 + 1 := by
              simp only [List.length_append, List.length_reverse,
                List.length_cons, List.length_nil]
              omega
            rw [hlen, sPad, if_neg (by omega)]
            have h21 : m2 + 1 - 1 = m2 := by omega
            rw [h21]
            have hmin : min (sh.getD m2 0) last = last := by omega
            rw [hmin]
          · have hlen : m2 - (entryChainAux sh m2 last).length +
                ((entryChainAux sh m2 last).reverse ++ [last]).length + 1 =
                m2 + 1 + 1 := by
              simp only [List.length_append, List.length_reverse,
                List.length_cons, List.length_nil]
              omega
            rw [hlen]
            exact hlast
        · rw [List.length_cons]
          omega

theorem sliceB (xs : List (List ℕ)) :
    ∀ (chain : List ℕ) (k taken : ℕ),
      chainRel (sharedsOf xs) k taken chain →
      k + chain.length < xs.length →
      (xs.getD (k + chain.length) []).take (chain.getLastD taken) =
        (xs.getD k []).take taken ++
          ((entrySlices ((regionsOf xs).flatten) (sizesOfPadded xs) chain k
            (lenSum (regionsOf xs) k) taken).1).flatten ∧
      (entrySlices ((regionsOf xs).flatten) (sizesOfPadded xs) chain k
        (lenSum (regionsOf xs) k) taken).2 =
        lenSum (regionsOf xs) (k + chain.length) := by
  intro chain
  induction chain with
  | nil =>
    intro k taken _ hk
    rw [entrySlices]
    constructor <;> simp
  | cons c more ih =>
    intro k taken hrel hk
    obtain ⟨htaken, hc, hrest⟩ := hrel
    rw [List.length_cons] at hk
    have hk1 : k + 1 + more.length < xs.length := by omega
    have hcommon : sPad (sharedsOf xs) (k + 1) =
        commonPrefixLen (xs.getD k []) (xs.getD (k + 1) []) := by
      rw [sPad, if_neg (by omega)]
      have h1 : k + 1 - 1 = k := by omega
      rw [h1]
      exact sharedsOf_getD xs k (by omega)
    have hclex : c ≤ commonPrefixLen (xs.getD k []) (xs.getD (k + 1) []) := by
      rw [← hcommon]; exact hc
    have hxtransfer : (xs.getD (k + 1) []).take c = (xs.getD k []).take c :=
      (take_eq_of_le_common _ _ c hclex).symm
    have hsizes : (sizesOfPadded xs).getD k 0 =
        ((regionsOf xs).getD k []).length := sizesPadded_getD xs k (by omega)
    have hregk : k < (regionsOf xs).length := by rw [regionsOf_length]; omega
    have hlenSum1 : lenSum (regionsOf xs) k + (sizesOfPadded xs).getD k 0 =
        lenSum (regionsOf xs) (k + 1) := by
      rw [hsizes, ← lenSum_succ _ k hregk]
    have htle : taken ≤ c := by rw [htaken]; exact Nat.min_le_right _ _
    have hpos : k + (more.length + 1) = k + 1 + more.length := by omega
    simp only [entrySlices, List.length_cons]
    by_cases hhv : c - taken = 0
    · rw [if_pos hhv]
      have htc : taken = c := by omega
      subst htc
      rw [hlenSum1]
      have ihres := ih (k + 1) taken hrest hk1
      constructor
      · rw [List.getLastD_cons, hpos, ihres.1, hxtransfer]
      · rw [hpos]
        exact ihres.2
    · rw [if_neg hhv]
      have htlt : taken < c := by omega
      have htk : taken = sPad (sharedsOf xs) k := by
        rw [Nat.min_def] at htaken
        by_cases hab : sPad (sharedsOf xs) k ≤ c
        · rw [if_pos hab] at htaken; exact htaken
        · rw [if_neg hab] at htaken; omega
      have hregion : (regionsOf xs).getD k [] =
          (xs.getD k []).drop (sPad (sharedsOf xs) k) := regionsOf_getD xs k (by omega)
      have hcxk : c ≤ (xs.getD k []).length :=
        le_trans hclex (commonPrefixLen_le_left _ _)
      have hRk : (regionsOf xs).drop k =
          (regionsOf xs).getD k [] :: (regionsOf xs).drop (k + 1) :=
        drop_eq_getD_cons [] hregk
      have hb : c - taken ≤ ((regionsOf xs).getD k []).length := by
        rw [hregion, List.length_drop, ← htk]
        omega
      have hslice :
          (((regionsOf xs).flatten).drop (lenSum (regionsOf xs) k)).take (c - taken) =
          ((xs.getD k []).drop taken).take (c - taken) := by
        rw [flatten_drop_lenSum, hRk, List.flatten_cons,
          List.take_append_of_le_length hb, hregion, ← htk]
      have hsplit : (xs.getD k []).take c =
          (xs.getD k []).take taken ++ ((xs.getD k []).drop taken).take (c - taken) := by
        conv_lhs => rw [show c = taken + (c - taken) from by omega]
        rw [List.take_add]
      have harg : taken + (c - taken) = c := by omega
      rw [harg, hlenSum1]
      have ihres := ih (k + 1) c hrest hk1
      constructor
      · rw [List.getLastD_cons, hpos, ihres.1, hxtransfer, hsplit,
          List.flatten_cons, hslice, List.append_assoc]
      · rw [hpos]
        exact ihres.2

theorem data_suffix_at (xs : List (List ℕ)) (i : ℕ) (hi : i < xs.length) :
    (((regionsOf xs).flatten).drop (lenSum (regionsOf xs) i)).take
      ((sizesOfPadded xs).getD i 0) =
      (xs.getD i []).drop (sPad (sharedsOf xs) i) := by
  have hri : i < (regionsOf xs).length := by rw [regionsOf_length]; exact hi
  have hRi : (regionsOf xs).drop i =
      (regionsOf xs).getD i [] :: (regionsOf xs).drop (i + 1) :=
    drop_eq_getD_cons [] hri
  rw [flatten_drop_lenSum, hRi, List.flatten_cons, sizesPadded_getD xs i hi,
    List.take_append_of_le_length le_rfl, List.take_length, regionsOf_getD xs i hi]

theorem entry_correct (xs : List (List ℕ)) (h1 : 1 ≤ xs.length)
    (i : ℕ) (hi : i < xs.length) :
    TfcBlock.entry (TfcBlock.mk (headerOf xs) ((regionsOf xs).flatten)) i =
      xs.getD i [] := by
  by_cases hi0 : i = 0
  · subst hi0
    rw [TfcBlock.entry, if_pos rfl]
    show ((regionsOf xs).flatten).take ((sizesOfPadded xs).getD 0 0) = xs.getD 0 []
    have h0 : (0 : ℕ) < (regionsOf xs).length := by rw [regionsOf_length]; omega
    have hR0 : regionsOf xs = (regionsOf xs).getD 0 [] :: (regionsOf xs).drop 1 := by
      have := drop_eq_getD_cons ([] : List ℕ) h0
      rw [List.drop_zero] at this
      exact this
    rw [sizesPadded_getD xs 0 (by omega)]
    conv_lhs => rw [hR0]
    simp only [List.getD_cons_zero]
    rw [List.flatten_cons, List.take_append_of_le_length le_rfl, List.take_length,
      regionsOf_getD xs 0 (by omega), sPad, if_pos rfl, List.drop_zero]
  · rw [TfcBlock.entry, if_neg hi0]
    simp only [headerOf]
    by_cases hz : (sharedsPadded xs).getD (i - 1) 0 = 0
    · rw [if_pos hz]
      simp only [List.length_nil, Nat.sub_zero, List.reverse_nil, entrySlices]
      rw [sizesPadded_take_sum xs i (by omega)]
      have hsfx := data_suffix_at xs i hi
      have hsp0 : sPad (sharedsOf xs) i = 0 := by
        rw [sPad, if_neg hi0, ← sharedsPadded_getD, hz]
      rw [hsp0, List.drop_zero] at hsfx
      simp only [List.nil_append, hsfx]
      simp
    · rw [if_neg hz]
      simp only [List.reverse_cons, List.length_cons]
      obtain ⟨hrelP, hlenu⟩ := chainA (sharedsPadded xs) (i - 1)
        ((sharedsPadded xs).getD (i - 1) 0)
        (by rw [sPad, if_neg (by omega)]
            have h2 : i - 1 + 1 - 1 = i - 1 := by omega
            rw [h2])
      have hrel := chainRel_of_sPad_eq _ _ (sPad_padded xs) _ _ _ hrelP
      have hstart : i - ((entryChainAux (sharedsPadded xs) (i - 1)
          ((sharedsPadded xs).getD (i - 1) 0)).length + 1) =
          (i - 1) - (entryChainAux (sharedsPadded xs) (i - 1)
            ((sharedsPadded xs).getD (i - 1) 0)).length := by omega
      rw [hstart, sizesPadded_take_sum xs _ (by omega)]
      have hchainlen : ((entryChainAux (sharedsPadded xs) (i - 1)
          ((sharedsPadded xs).getD (i - 1) 0)).reverse ++
            [(sharedsPadded xs).getD (i - 1) 0]).length =
          (entryChainAux (sharedsPadded xs) (i - 1)
            ((sharedsPadded xs).getD (i - 1) 0)).length + 1 := by
        simp
      obtain ⟨hB1, hB2⟩ := sliceB xs
        ((entryChainAux (sharedsPadded xs) (i - 1)
          ((sharedsPadded xs).getD (i - 1) 0)).reverse ++
            [(sharedsPadded xs).getD (i - 1) 0])
        ((i - 1) - (entryChainAux (sharedsPadded xs) (i - 1)
          ((sharedsPadded xs).getD (i - 1) 0)).length)
        0 hrel (by rw [hchainlen]; omega)
      rw [hchainlen] at hB2
      have hki : (i - 1) - (entryChainAux (sharedsPadded xs) (i - 1)
          ((sharedsPadded xs).getD (i - 1) 0)).length +
          ((entryChainAux (sharedsPadded xs) (i - 1)
            ((sharedsPadded xs).getD (i - 1) 0)).length + 1) = i := by omega
      rw [hki] at hB2
      have hki2 : (i - 1) - (entryChainAux (sharedsPadded xs) (i - 1)
          ((sharedsPadded xs).getD (i - 1) 0)).length +
          ((entryChainAux (sharedsPadded xs) (i - 1)
            ((sharedsPadded xs).getD (i - 1) 0)).reverse ++
              [(sharedsPadded xs).getD (i - 1) 0]).length = i := by
        rw [hchainlen]
        omega
      rw [hki2, getLastD_snoc, List.take_zero, List.nil_append] at hB1
      rw [hB2]
      have hsfx := data_suffix_at xs i hi
      have hspv : sPad (sharedsOf xs) i = (sharedsPadded xs).getD (i - 1) 0 := by
        rw [sPad, if_neg hi0, sharedsPadded_getD]
      rw [hspv] at hsfx
      rw [List.flatten_append, ← hB1, hsfx]
      simp [List.take_append_drop]

end TfcLemmas

section ClaimC5

/-- C5: building a front-coded dictionary block from 1 to 8 byte strings
with build_block_unchecked and parsing the result with TfcBlock::parse
succeeds, and entry(i) on the parsed block reconstructs exactly the i-th
input: the shared-prefix chain reconstruction is a left inverse of front
coding within a block. Proven for every input list of the right count, in
particular for the strictly ascending ones the dictionary builder feeds. -/
theorem tfc_block_roundtrip (xs : List (List ℕ)) (h1 : 1 ≤ xs.length)
    (_h8 : xs.length ≤ 8) :
    ∃ b, TfcBlock.parse (build_block_unchecked xs) = some b ∧
      ∀ i, i < xs.length → TfcBlock.entry b i = xs.getD i [] :=
  ⟨TfcBlock.mk (headerOf xs) ((regionsOf xs).flatten),
    TfcBlock_parse_build xs h1,
    fun i hi => entry_correct xs h1 i hi⟩

/-- Witness: the three ascending byte strings 0x01, 0x01 0x02, 0x02
round-trip through build and parse, and every entry is reconstructed. -/
theorem tfc_block_roundtrip_witness :
    1 ≤ ([[1], [1, 2], [2]] : List (List ℕ)).length ∧
      ∃ b, TfcBlock.parse (build_block_unchecked [[1], [1, 2], [2]]) = some b ∧
        ∀ i, i < ([[1], [1, 2], [2]] : List (List ℕ)).length →
          TfcBlock.entry b i = [[1], [1, 2], [2]].getD i [] :=
  ⟨by decide, tfc_block_roundtrip [[1], [1, 2], [2]] (by decide) (by decide)⟩

end ClaimC5

section NumericLemmas

theorem fromBytesBE_snoc (l : List ℕ) (b : ℕ) :
    fromBytesBE (l ++ [b]) = fromBytesBE l * 256 + b := by
  rw [fromBytesBE, fromBytesBE, List.foldl_append]
  rfl

theorem fromBytesBE_toBytesBE : ∀ (w n : ℕ), n < 256 ^ w →
    fromBytesBE (toBytesBE w n) = n := by
  intro w
  induction w with
  | zero =>
    intro n hn
    rw [pow_zero] at hn
    have h0 : n = 0 := by omega
    subst h0
    rfl
  | succ w ih =>
    intro n hn
    have hdiv : n / 256 < 256 ^ w := by
      rw [pow_succ] at hn
      omega
    rw [toBytesBE, fromBytesBE_snoc, ih (n / 256) hdiv]
    omega

theorem roundtrip32 (x : ℕ) (hx : x < 2 ^ 32) :
    fromBytesBE (toBytesBE 4 x) = x :=
  fromBytesBE_toBytesBE 4 x (by omega)

theorem roundtrip64 (x : ℕ) (hx : x < 2 ^ 64) :
    fromBytesBE (toBytesBE 8 x) = x :=
  fromBytesBE_toBytesBE 8 x (by omega)

theorem flipSign32_lt (i : ℕ) (hi : i < 2 ^ 32) : flipSign 32 i < 2 ^ 32 := by
  rw [flipSign]
  by_cases h : i / 2 ^ (32 - 1) % 2 = 1
  · rw [if_pos h]; omega
  · rw [if_neg h]; omega

theorem flipSign64_lt (i : ℕ) (hi : i < 2 ^ 64) : flipSign 64 i < 2 ^ 64 := by
  rw [flipSign]
  by_cases h : i / 2 ^ (64 - 1) % 2 = 1
  · rw [if_pos h]; omega
  · rw [if_neg h]; omega

theorem flipSign32_invol (i : ℕ) (hi : i < 2 ^ 32) :
    flipSign 32 (flipSign 32 i) = i := by
  rw [flipSign, flipSign]
  by_cases h : i / 2 ^ (32 - 1) % 2 = 1
  · rw [if_pos h, if_neg (by omega)]
    omega
  · rw [if_neg h, if_pos (by omega)]
    omega

theorem flipSign64_invol (i : ℕ) (hi : i < 2 ^ 64) :
    flipSign 64 (flipSign 64 i) = i := by
  rw [flipSign, flipSign]
  by_cases h : i / 2 ^ (64 - 1) % 2 = 1
  · rw [if_pos h, if_neg (by omega)]
    omega
  · rw [if_neg h, if_pos (by omega)]
    omega

end NumericLemmas

section ClaimC6

/-- C6 counterexample: the negative NaN with f32 bit pattern 0xFFC00000
does not map back to a NaN. signum() of a NaN is NaN, not -1.0, so
to_lexical takes the sign-flip branch; the stored value then has a clear
sign bit, so from_lexical applies the complement branch, producing
0x803FFFFF — a negative subnormal, not a NaN. -/
theorem f32_negative_nan_not_preserved :
    isNan32 4290772992 = true ∧
      f32_from_lexical (f32_to_lexical 4290772992) = 2151677951 ∧
      isNan32 2151677951 = false := by
  refine ⟨by decide, ?_, by decide⟩
  decide

/-- C6 (amended): the numeric lexical encodings round-trip for every u32,
u64, i32 and i64 value, and for every f32/f64 bit pattern that is not a
sign-bit-set NaN — in particular for all finite values, signed zeros,
both infinities, and every positive NaN (which round-trips bit-exactly,
hence maps back to a NaN). Sign-bit-set NaNs are the sole exception. -/
theorem numeric_lexical_roundtrip_amended :
    (∀ n : ℕ, n < 2 ^ 32 → u32_from_lexical (u32_to_lexical n) = n) ∧
    (∀ n : ℕ, n < 2 ^ 64 → u64_from_lexical (u64_to_lexical n) = n) ∧
    (∀ v : ℤ, -2 ^ 31 ≤ v → v < 2 ^ 31 →
      i32_from_lexical (i32_to_lexical v) = v) ∧
    (∀ v : ℤ, -2 ^ 63 ≤ v → v < 2 ^ 63 →
      i64_from_lexical (i64_to_lexical v) = v) ∧
    (∀ bits : ℕ, bits < 2 ^ 32 →
      (isNan32 bits = false ∨ bits / 2 ^ 31 % 2 = 0) →
      f32_from_lexical (f32_to_lexical bits) = bits) ∧
    (∀ bits : ℕ, bits < 2 ^ 64 →
      (isNan64 bits = false ∨ bits / 2 ^ 63 % 2 = 0) →
      f64_from_lexical (f64_to_lexical bits) = bits) := by
  refine ⟨?_, ?_, ?_, ?_, ?_, ?_⟩
  · intro n hn
    rw [u32_to_lexical, u32_from_lexical, roundtrip32 n hn]
  · intro n hn
    rw [u64_to_lexical, u64_from_lexical, roundtrip64 n hn]
  · intro v h1 h2
    have hu : (v % 2 ^ 32).toNat < 2 ^ 32 := by omega
    simp only [i32_to_lexical, i32_from_lexical]
    rw [roundtrip32 _ (flipSign32_lt _ hu), flipSign32_invol _ hu]
    by_cases hc : (v % 2 ^ 32).toNat < 2 ^ 31
    · rw [if_pos hc]; omega
    · rw [if_neg hc]; omega
  · intro v h1 h2
    have hu : (v % 2 ^ 64).toNat < 2 ^ 64 := by omega
    simp only [i64_to_lexical, i64_from_lexical]
    rw [roundtrip64 _ (flipSign64_lt _ hu), flipSign64_invol _ hu]
    by_cases hc : (v % 2 ^ 64).toNat < 2 ^ 63
    · rw [if_pos hc]; omega
    · rw [if_neg hc]; omega
  · intro bits hb hcond
    by_cases hs : bits / 2 ^ 31 % 2 = 1
    · have hnan : isNan32 bits = false := by
        rcases hcond with h | h
        · exact h
        · omega
      have hneg : f32_signum_neg bits = true := by
        rw [f32_signum_neg, hnan]
        simp only [Bool.not_false, Bool.and_true, decide_eq_true_eq]
        omega
      rw [f32_to_lexical, if_pos hneg]
      simp only [f32_from_lexical]
      have hclt : complementBits 32 bits < 2 ^ 32 := by
        rw [complementBits]; omega
      rw [roundtrip32 _ hclt]
      rw [if_neg (by simp only [complementBits]; omega)]
      simp only [complementBits]
      omega
    · have hneg : ¬ f32_signum_neg bits = true := by
        rw [f32_signum_neg]
        simp only [Bool.and_eq_true, decide_eq_true_eq, not_and]
        intro h
        exfalso
        omega
      rw [f32_to_lexical, if_neg hneg]
      simp only [f32_from_lexical]
      rw [roundtrip32 _ (flipSign32_lt _ hb)]
      have hpos : flipSign 32 bits / 2 ^ 31 % 2 = 1 := by
        rw [flipSign]
        rw [if_neg (by omega)]
        omega
      rw [if_pos hpos, flipSign32_invol _ hb]
  · intro bits hb hcond
    by_cases hs : bits / 2 ^ 63 % 2 = 1
    · have hnan : isNan64 bits = false := by
        rcases hcond with h | h
        · exact h
        · omega
      have hneg : f64_signum_neg bits = true := by
        rw [f64_signum_neg, hnan]
        simp only [Bool.not_false, Bool.and_true, decide_eq_true_eq]
        omega
      rw [f64_to_lexical, if_pos hneg]
      simp only [f64_from_lexical]
      have hclt : complementBits 64 bits < 2 ^ 64 := by
        rw [complementBits]; omega
      rw [roundtrip64 _ hclt]
      rw [if_neg (by simp only [complementBits]; omega)]
      simp only [complementBits]
      omega
    · have hneg : ¬ f64_signum_neg bits = true := by
        rw [f64_signum_neg]
        simp only [Bool.and_eq_true, decide_eq_true_eq, not_and]
        intro h
        exfalso
        omega
      rw [f64_to_lexical, if_neg hneg]
      simp only [f64_from_lexical]
      rw [roundtrip64 _ (flipSign64_lt _ hb)]
      have hpos : flipSign 64 bits / 2 ^ 63 % 2 = 1 := by
        rw [flipSign]
        rw [if_neg (by omega)]
        omega
      rw [if_pos hpos, flipSign64_invol _ hb]

/-- Witness: negative infinity (f32 bits 0xFF800000), negative zero
(0x80000000) and a large u64 round-trip through the amended theorem. -/
theorem numeric_lexical_roundtrip_amended_witness :
    (4286578688 : ℕ) < 2 ^ 32 ∧
      f32_from_lexical (f32_to_lexical 4286578688) = 4286578688 ∧
      f32_from_lexical (f32_to_lexical 2147483648) = 2147483648 ∧
      u64_from_lexical (u64_to_lexical 18446744073709551615) =
        18446744073709551615 ∧
      i32_from_lexical (i32_to_lexical (-2147483648)) = -2147483648 :=
  ⟨by decide,
    numeric_lexical_roundtrip_amended.2.2.2.2.1 4286578688 (by decide)
      (Or.inl (by decide)),
    numeric_lexical_roundtrip_amended.2.2.2.2.1 2147483648 (by decide)
      (Or.inl (by decide)),
    numeric_lexical_roundtrip_amended.2.1 18446744073709551615 (by decide),
    numeric_lexical_roundtrip_amended.2.2.1 (-2147483648) (by decide) (by decide)⟩

end ClaimC6

section TypedDictLemmas

theorem type_index_shift (l0 : ℕ) (ofs : List ℕ) (id : ℕ) (h : l0 < id) :
    type_index_for_id (ofs.map (fun x => l0 + x)) id =
      type_index_for_id ofs (id - l0) := by
  induction ofs with
  | nil => rfl
  | cons o rest ih =>
    rw [List.map_cons, type_index_for_id, type_index_for_id]
    by_cases hc : l0 + o > id - 1
    · rw [if_pos hc, if_pos (by omega)]
    · rw [if_neg hc, if_neg (by omega), ih]

theorem type_index_le : ∀ (l : List ℕ) (id : ℕ),
    type_index_for_id l id ≤ l.length := by
  intro l
  induction l with
  | nil => intro id; exact le_rfl
  | cons o rest ih =>
    intro id
    rw [type_index_for_id]
    by_cases hc : o > id - 1
    · rw [if_pos hc]; simp
    · rw [if_neg hc, List.length_cons]
      exact Nat.succ_le_succ (ih id)

theorem num_entries_cons (seg : Datatype × List (List ℕ)) (rest : TypedDictModel) :
    num_entries (seg :: rest) = seg.2.length + num_entries rest := by
  rw [num_entries, num_entries, dictSizes, dictSizes, List.map_cons, List.sum_cons]

theorem typeIdOffsets_len : ∀ (l : List ℕ), (typeIdOffsets l).length = l.length - 1 := by
  intro l
  match l with
  | [] => rfl
  | [_] => rfl
  | l0 :: l1 :: rest =>
    rw [typeIdOffsets, List.length_cons, List.length_map, typeIdOffsets_len]
    simp

theorem dictEntry_step (seg seg2 : Datatype × List (List ℕ))
    (rest2 : TypedDictModel) (id : ℕ) (h1 : seg.2.length < id)
    (h2 : id ≤ num_entries (seg :: seg2 :: rest2)) :
    dictEntry (seg :: seg2 :: rest2) id =
      dictEntry (seg2 :: rest2) (id - seg.2.length) := by
  have hsum := num_entries_cons seg (seg2 :: rest2)
  rw [dictEntry, dictEntry,
    if_neg (show ¬ id > num_entries (seg :: seg2 :: rest2) by omega),
    if_neg (show ¬ id - seg.2.length > num_entries (seg2 :: rest2) by omega)]
  have hsz : dictSizes (seg :: seg2 :: rest2) =
      seg.2.length :: seg2.2.length :: dictSizes rest2 := by
    rw [dictSizes, List.map_cons, List.map_cons]
    rfl
  have hsz2 : dictSizes (seg2 :: rest2) = seg2.2.length :: dictSizes rest2 := by
    rw [dictSizes, List.map_cons]
    rfl
  rw [hsz, hsz2, typeIdOffsets, type_index_for_id, if_neg (by omega),
    type_index_shift _ _ _ (by omega)]
  have htle := type_index_le (typeIdOffsets (seg2.2.length :: dictSizes rest2))
    (id - seg.2.length)
  rw [typeIdOffsets_len] at htle
  cases htj : type_index_for_id (typeIdOffsets (seg2.2.length :: dictSizes rest2))
      (id - seg.2.length) with
  | zero =>
    rw [List.get?_cons_succ, if_neg (by omega), if_pos rfl]
    simp only [Nat.add_sub_cancel, List.getD_cons_zero]
    have hidx : id - seg.2.length - 0 - 1 = id - seg.2.length - 1 := by omega
    rw [hidx]
  | succ j =>
    rw [List.get?_cons_succ, if_neg (by omega), if_neg (by omega)]
    simp only [Nat.add_sub_cancel]
    rw [htj] at htle
    have hjlt : j < (typeIdOffsets (seg2.2.length :: dictSizes rest2)).length := by
      rw [typeIdOffsets_len]
      simp only [List.length_cons] at htle ⊢
      omega
    rw [List.getD_cons_succ,
      getD_map_lt (fun x => seg.2.length + x) _ j 0 0 hjlt]
    have hidx : id - (seg.2.length +
        (typeIdOffsets (seg2.2.length :: dictSizes rest2)).getD j 0) - 1 =
        id - seg.2.length -
          (typeIdOffsets (seg2.2.length :: dictSizes rest2)).getD j 0 - 1 := by
      omega
    rw [hidx]

theorem dictEntry_flat : ∀ (S : TypedDictModel) (id : ℕ), 1 ≤ id →
    id ≤ num_entries S → dictEntry S id = (flatEntries S).get? (id - 1) := by
  intro S
  induction S with
  | nil =>
    intro id h1 h2
    rw [num_entries, dictSizes] at h2
    simp at h2
    omega
  | cons seg rest ih =>
    intro id h1 h2
    cases rest with
    | nil =>
      rw [dictEntry, if_neg (by omega)]
      have hsz : dictSizes [seg] = [seg.2.length] := rfl
      rw [hsz, typeIdOffsets, type_index_for_id, if_pos rfl]
      simp only [List.get?_cons_zero]
      rw [flatEntries, List.flatMap_cons, List.flatMap_nil, List.append_nil,
        List.get?_map]
      have hidx : id - 0 - 1 = id - 1 := by omega
      rw [hidx]
    | cons seg2 rest2 =>
      by_cases hin : id ≤ seg.2.length
      · rw [dictEntry, if_neg (by omega)]
        have hsz : dictSizes (seg :: seg2 :: rest2) =
            seg.2.length :: seg2.2.length :: dictSizes rest2 := by
          rw [dictSizes, List.map_cons, List.map_cons]
          rfl
        rw [hsz, typeIdOffsets, type_index_for_id, if_pos (by omega), if_pos rfl]
        simp only [List.get?_cons_zero]
        rw [flatEntries, List.flatMap_cons,
          List.get?_append (by rw [List.length_map]; omega), List.get?_map]
        have hidx : id - 0 - 1 = id - 1 := by omega
        rw [hidx]
      · have hgt : seg.2.length < id := by omega
        have hsum := num_entries_cons seg (seg2 :: rest2)
        rw [dictEntry_step seg seg2 rest2 id hgt h2,
          ih (id - seg.2.length) (by omega) (by omega)]
        conv_rhs => rw [flatEntries, List.flatMap_cons]
        rw [List.get?_append_right (by rw [List.length_map]; omega)]
        have hidx : id - 1 - (seg.2.map (fun e => (seg.1, e))).length =
            id - seg.2.length - 1 := by
          rw [List.length_map]
          omega
        rw [hidx]
        rfl

end TypedDictLemmas

section ClaimC7

/-- C7 counterexample: the Datatype enum orders Float32 before UInt64 and
Int64, so a typed dictionary holding an f32 segment and a u64 segment
stores the f32 segment first — a valid dictionary under the enforced
monotone types_present order that violates the tag order the spec lists
(string, u32, i32, u64, i64, f32, f64, decimal, big-int). -/
theorem typed_dict_order_counterexample :
    dictOrderedByCode [(Datatype.Float32, [[0]]), (Datatype.UInt64, [[1]])] = true ∧
      dictOrderedBySpec [(Datatype.Float32, [[0]]), (Datatype.UInt64, [[1]])] = false ∧
      Datatype.Float32.code < Datatype.UInt64.code ∧
      specTagOrder Datatype.UInt64 < specTagOrder Datatype.Float32 := by
  refine ⟨by decide, by decide, by decide, by decide⟩

/-- C7 (amended): ids are globally increasing across the per-datatype
segments, which appear in increasing order of the Datatype enum
discriminant — string, u32, i32, f32, u64, i64, f64, decimal, big-int,
not the order the spec lists — and entry(id) returns the entry of the
segment whose id range contains it, tagged with that segment's datatype:
it equals position id of the concatenation of all segments. -/
theorem typed_dict_entry_resolves (S : TypedDictModel)
    (hord : dictOrderedByCode S = true) (id : ℕ) (h1 : 1 ≤ id)
    (h2 : id ≤ num_entries S) :
    dictEntry S id = (flatEntries S).get? (id - 1) ∧
      List.Chain' (· < ·) (S.map (fun seg => seg.1.code)) :=
  ⟨dictEntry_flat S id h1 h2, (strictAsc_iff_chain _).mp hord⟩

/-- Witness: a dictionary with string, f32 and u64 segments; id 3 resolves
into the f32 segment. -/
theorem typed_dict_entry_resolves_witness :
    dictOrderedByCode [(Datatype.String, [[1], [2]]), (Datatype.Float32, [[3]]),
        (Datatype.UInt64, [[4]])] = true ∧
      dictEntry [(Datatype.String, [[1], [2]]), (Datatype.Float32, [[3]]),
          (Datatype.UInt64, [[4]])] 3 =
        (flatEntries [(Datatype.String, [[1], [2]]), (Datatype.Float32, [[3]]),
          (Datatype.UInt64, [[4]])]).get? 2 :=
  ⟨by decide,
    (typed_dict_entry_resolves [(Datatype.String, [[1], [2]]),
      (Datatype.Float32, [[3]]), (Datatype.UInt64, [[4]])] (by decide) 3
      (by decide) (by decide)).1⟩

end ClaimC7

section LabelStoreLemmas

/-- Evaluation of set_label_option when the name is registered. -/
theorem set_label_option_get (labels : List Label) (label : Label)
    (layer : Option ℕ) (stored : Label)
    (hs : storeGet labels label.name = some stored) :
    set_label_option labels label layer =
      if stored.version + 1 ≠ label.version + 1 then some (none, labels)
      else some (some (label.with_updated_layer layer),
        storeInsert labels (label.with_updated_layer layer)) := by
  have h : set_label_option labels label layer =
      match storeGet labels label.name with
      | none => none
      | some old_label =>
        if old_label.version + 1 ≠ label.version + 1 then some (none, labels)
        else some (some (label.with_updated_layer layer),
          storeInsert labels (label.with_updated_layer layer)) := rfl
  rw [h, hs]

/-- Looking up a just-inserted label finds it. -/
theorem storeGet_insert (labels : List Label) (lab : Label) :
    storeGet (storeInsert labels lab) lab.name = some lab := by
  induction labels with
  | nil => simp [storeInsert, storeGet, List.find?]
  | cons x r ih =>
    rw [storeInsert]
    by_cases hx : x.name == lab.name
    · rw [if_pos hx]
      simp [storeGet, List.find?]
    · rw [if_neg hx]
      rw [storeGet, List.find?]
      rw [Bool.eq_false_iff.mpr hx]
      exact ih

end LabelStoreLemmas

section ClaimC8

/-- C8: MemoryLabelStore::set_label_option is a compare-and-swap on the
label version.  For every registry state holding a label under the
caller's name with some stored version: the call succeeds exactly when
the caller's label carries the stored version, in which case it inserts
and returns some of the updated label (same name, new layer pointer,
version bumped by one); on a version mismatch it returns some none (no
io error) and leaves the registry unchanged.  The inserted label is
subsequently found by lookup. -/
theorem label_cas (labels : List Label) (label : Label) (layer : Option ℕ)
    (stored : Label) (hs : storeGet labels label.name = some stored) :
    set_label_option labels label layer =
      some (if label.version = stored.version
        then (some (label.with_updated_layer layer),
          storeInsert labels (label.with_updated_layer layer))
        else (none, labels)) ∧
    (label.with_updated_layer layer).version = label.version + 1 ∧
    (label.with_updated_layer layer).name = label.name ∧
    (label.with_updated_layer layer).layer = layer ∧
    storeGet (storeInsert labels (label.with_updated_layer layer)) label.name
      = some (label.with_updated_layer layer) := by
  refine ⟨?_, rfl, rfl, rfl,
    storeGet_insert labels (label.with_updated_layer layer)⟩
  rw [set_label_option_get labels label layer stored hs]
  by_cases hv : label.version = stored.version
  · rw [if_neg (show ¬ stored.version + 1 ≠ label.version + 1 by omega),
      if_pos hv]
  · rw [if_pos (show stored.version + 1 ≠ label.version + 1 by omega),
      if_neg hv]

/-- The spec scenario: create foo at version 0 (name 0 here);
set_label(foo_v0, L1) succeeds yielding foo_v1, a stale
set_label(foo_v0, L2) returns no update leaving the registry unchanged,
and set_label(foo_v1, L2) succeeds yielding foo_v2. -/
theorem label_cas_witness :
    set_label_option [Label.new_empty 0] (Label.new_empty 0) (some 1)
      = some (some (Label.mk 0 (some 1) 1), [Label.mk 0 (some 1) 1]) ∧
    set_label_option [Label.mk 0 (some 1) 1] (Label.new_empty 0) (some 2)
      = some (none, [Label.mk 0 (some 1) 1]) ∧
    set_label_option [Label.mk 0 (some 1) 1] (Label.mk 0 (some 1) 1) (some 2)
      = some (some (Label.mk 0 (some 2) 2), [Label.mk 0 (some 2) 2]) := by
  refine ⟨?_, ?_, ?_⟩
  · exact ((label_cas [Label.new_empty 0] (Label.new_empty 0) (some 1)
      (Label.new_empty 0) (by decide)).1).trans (by decide)
  · exact ((label_cas [Label.mk 0 (some 1) 1] (Label.new_empty 0) (some 2)
      (Label.mk 0 (some 1) 1) (by decide)).1).trans (by decide)
  · exact ((label_cas [Label.mk 0 (some 1) 1] (Label.mk 0 (some 1) 1) (some 2)
      (Label.mk 0 (some 1) 1) (by decide)).1).trans (by decide)

end ClaimC8

section MemStoreLemmas

/-- Splicing a buffer into a vector that is long enough: length is
preserved, the prefix before the write position is untouched, and the
written region holds the buffer. -/
theorem write_splice_spec (v buf : List ℕ) (pos : ℕ)
    (h1 : pos + buf.length ≤ v.length) :
    (v.take pos ++ buf ++ v.drop (pos + buf.length)).length = v.length ∧
    (v.take pos ++ buf ++ v.drop (pos + buf.length)).take pos = v.take pos ∧
    ∀ i, i < buf.length →
      (v.take pos ++ buf ++ v.drop (pos + buf.length)).getD (pos + i) 0
        = buf.getD i 0 := by
  have hp : pos ≤ v.length := by omega
  have ht : (v.take pos).length = pos := by
    rw [List.length_take]; omega
  refine ⟨?_, ?_, ?_⟩
  · simp only [List.length_append, List.length_take, List.length_drop]
    omega
  · rw [List.take_append_of_le_length
        (by simp only [List.length_append, ht]; omega),
      List.take_append_of_le_length (by omega), List.take_take,
      Nat.min_self]
  · intro i hi
    rw [List.getD_append _ _ _ _
        (by simp only [List.length_append, ht]; omega),
      List.getD_append_right _ _ _ _ (by omega), ht]
    congr 1
    omega

end MemStoreLemmas

section ClaimC9

/-- C9 counterexample: the memory-backed store is not write-once.  A
writer reopened over a file whose contents [1, 2, 3] already exist
succeeds (Ok 1, no error) and modifies the published contents in place,
contradicting the stated rule that any subsequent write is an error. -/
theorem memory_write_over_published_succeeds :
    MemoryBackedStoreWriter.write
        (MemoryBackedStore.open_write_from [1, 2, 3] 0).1
        (MemoryBackedStore.open_write_from [1, 2, 3] 0).2 [9]
      = (([9, 2, 3], 1), Except.ok 1) ∧
    ([9, 2, 3] : List ℕ) ≠ [1, 2, 3] :=
  ⟨rfl, by decide⟩

/-- C9 amended: MemoryBackedStoreWriter::write never errors.  For every
vector state, position within the vector and buffer, it returns
Ok(buf.len()), advances the position by buf.len(), grows the vector to
max(old length, pos + buf.len()) with zero padding, keeps the contents
before the position, and places the buffer at the position —
overwriting published contents rather than rejecting the write. -/
theorem memory_write_always_succeeds (vec buf : List ℕ) (pos : ℕ)
    (hp : pos ≤ vec.length) :
    (MemoryBackedStoreWriter.write vec pos buf).2 = Except.ok buf.length ∧
    (MemoryBackedStoreWriter.write vec pos buf).1.2 = pos + buf.length ∧
    (MemoryBackedStoreWriter.write vec pos buf).1.1.length
      = max vec.length (pos + buf.length) ∧
    (MemoryBackedStoreWriter.write vec pos buf).1.1.take pos = vec.take pos ∧
    ∀ i, i < buf.length →
      (MemoryBackedStoreWriter.write vec pos buf).1.1.getD (pos + i) 0
        = buf.getD i 0 := by
  by_cases hc : vec.length - pos < buf.length
  · simp only [MemoryBackedStoreWriter.write]
    rw [if_pos hc]
    have h1 : pos + buf.length ≤
        (vec ++ List.replicate (pos + buf.length - vec.length) 0).length := by
      simp only [List.length_append, List.length_replicate]; omega
    obtain ⟨hl, htk, hgd⟩ := write_splice_spec
      (vec ++ List.replicate (pos + buf.length - vec.length) 0) buf pos h1
    refine ⟨trivial, trivial, ?_, ?_, ?_⟩
    · rw [hl]
      simp only [List.length_append, List.length_replicate]
      rw [Nat.max_eq_right (by omega)]
      omega
    · rw [htk, List.take_append_of_le_length hp]
    · exact hgd
  · simp only [MemoryBackedStoreWriter.write]
    rw [if_neg hc]
    have h1 : pos + buf.length ≤ vec.length := by omega
    obtain ⟨hl, htk, hgd⟩ := write_splice_spec vec buf pos h1
    refine ⟨trivial, trivial, ?_, ?_, ?_⟩
    · rw [hl, Nat.max_eq_left (by omega)]
    · exact htk
    · exact hgd

/-- A concrete run of the amended statement: writing [7, 8, 9] at
position 1 of [1, 2, 3]. -/
theorem memory_write_always_succeeds_witness :
    (1 : ℕ) ≤ ([1, 2, 3] : List ℕ).length ∧
    ((MemoryBackedStoreWriter.write [1, 2, 3] 1 [7, 8, 9]).2
        = Except.ok ([7, 8, 9] : List ℕ).length ∧
      (MemoryBackedStoreWriter.write [1, 2, 3] 1 [7, 8, 9]).1.2
        = 1 + ([7, 8, 9] : List ℕ).length ∧
      (MemoryBackedStoreWriter.write [1, 2, 3] 1 [7, 8, 9]).1.1.length
        = max ([1, 2, 3] : List ℕ).length (1 + ([7, 8, 9] : List ℕ).length) ∧
      (MemoryBackedStoreWriter.write [1, 2, 3] 1 [7, 8, 9]).1.1.take 1
        = ([1, 2, 3] : List ℕ).take 1 ∧
      ∀ i, i < ([7, 8, 9] : List ℕ).length →
        (MemoryBackedStoreWriter.write [1, 2, 3] 1 [7, 8, 9]).1.1.getD (1 + i) 0
          = ([7, 8, 9] : List ℕ).getD i 0) :=
  ⟨by decide, memory_write_always_succeeds [1, 2, 3] [7, 8, 9] 1 (by decide)⟩

end ClaimC9

end FerricStore
